import Mathlib

/-!
# Rician deconvolution kernel (`kernel.c`): embedding and verified properties

The two routines of `kernel.c`, `gaussian_blur` and `rician_deconv3`, are embedded
as pure functions over a type `α` of samples with its arithmetic operations; the square
root of `math.h` is a parameter `sqrt : α → α`.  The same definitions are instantiated
with exact arithmetic (a field, `Real.sqrt` over the reals) and with the binary64
arithmetic of the type `double` (`Double`, `Double.sqrt`).  Volumes are dense
three-dimensional arrays with extents `m × n × p` (`M = N = P = 60` in the reference
configuration).  In-place array writes become functional updates, `for` loops become
the recursive combinators `loopUp` and `loopDown`, and the loop-carried scalars of the
rolling windows are carried in small records.

Layout: the embedding of the two routines; specification-level definitions (scan-line
filters, the value written by the update sweep, the update as the specification words
it); a second, bounds-checked embedding with `int` indices; linear combinations of
volumes, the operands of the update, and the update sweep with direct reads; binary64
arithmetic; then the theorems: facts about loops, the semantics of the loop nests, and
the properties `C1` to `C20`.
-/

namespace Deblur

/-! ## Constants of `kernel.c`

The samples have type `α`; the definitions use its operations `+`, `-`, `*`, `/` and its
numerals, in the order in which the source applies them, and no law of arithmetic. -/

/-- Extent of the first axis (`#define M 60`). -/
def M : Nat := 60

/-- Extent of the second axis (`#define N 60`). -/
def N : Nat := 60

/-- Extent of the third axis (`#define P 60`). -/
def P : Nat := 60

/-- Number of cascaded passes per axis (`#define GAUSSIAN_NUMSTEPS 3`). -/
def GAUSSIAN_NUMSTEPS : Nat := 3

/-- Number of gradient descent iterations (`#define MAX_ITERATIONS 10`). -/
def MAX_ITERATIONS : Nat := 10

/-- Time step (`#define DT 0.0001`). -/
def DT (α : Type) [One α] [Div α] [NatCast α] : α := 1 / 10000

/-- Gradient regularisation (`#define EPSILON 1.0E-10`). -/
def EPSILON (α : Type) [One α] [Div α] [NatCast α] : α := 1 / 10000000000

/-- Square (`#define SQR(x) ((x)*(x))`). -/
def SQR {α : Type} [Mul α] (x : α) : α := x * x

/-! ## Volumes -/

/-- Dense array `double v[m][n][p]`. -/
@[ext]
structure Vol (α : Type) (m n p : Nat) where
  /-- Content of the array, one sample per in-range index triple. -/
  data : Fin m → Fin n → Fin p → α

namespace Vol

variable {α : Type} {m n p : Nat}

/-- Read `v[i][j][k]`; an index outside the array reads as `0` (the bounds-checked
reads used for the safety claim are `Vol.get?` below). -/
def get [Zero α] (v : Vol α m n p) (i j k : Nat) : α :=
  if h : i < m ∧ j < n ∧ k < p then v.data ⟨i, h.1⟩ ⟨j, h.2.1⟩ ⟨k, h.2.2⟩ else 0

/-- Write `v[i][j][k] = x`; an index outside the array writes nothing. -/
def set (v : Vol α m n p) (i j k : Nat) (x : α) : Vol α m n p :=
  ⟨fun a b c => if a.val = i ∧ b.val = j ∧ c.val = k then x else v.data a b c⟩

/-- The volume with every sample equal to `c`. -/
def const (m n p : Nat) (c : α) : Vol α m n p := ⟨fun _ _ _ => c⟩

end Vol

/-! ## Loops -/

/-- Run `body i` for `i = start, start + 1, ...`, `cnt` times. -/
def loopFrom {σ : Type} (body : Nat → σ → σ) : Nat → Nat → σ → σ
  | _, 0, s => s
  | i, cnt + 1, s => loopFrom body (i + 1) cnt (body i s)

/-- The loop `for (i = lo; i < hi; i++) body`. -/
def loopUp {σ : Type} (lo hi : Nat) (body : Nat → σ → σ) (s : σ) : σ :=
  loopFrom body lo (hi - lo) s

/-- The loop `for (i = cnt - 1; i >= 0; i--) body`. -/
def loopDown {σ : Type} (body : Nat → σ → σ) : Nat → σ → σ
  | 0, s => s
  | cnt + 1, s => loopDown body cnt (body cnt s)

/-! ## `gaussian_blur` -/

section Blur

variable {α : Type} [Zero α] [One α] [Add α] [Sub α] [Mul α] [Div α] [NatCast α]
  {m n p : Nat}

/-- Lines 57-71: in plane `k`, every column `j` is filtered downwards and then
upwards along the first axis. -/
def filter_down_up (nu BoundaryScale : α) (k : Nat) (u : Vol α m n p) : Vol α m n p :=
  loopUp 0 n (fun j u =>
    let u := u.set 0 j k (u.get 0 j k * BoundaryScale)
    let u := loopUp 1 m (fun i u => u.set i j k (u.get i j k + nu * u.get (i - 1) j k)) u
    let u := u.set (m - 1) j k (u.get (m - 1) j k * BoundaryScale)
    loopDown (fun i u => u.set i j k (u.get i j k + u.get (i + 1) j k)) (m - 1) u) u

/-- Lines 75-82: filter right along the second axis in plane `k`. -/
def filter_right (nu BoundaryScale : α) (k : Nat) (u : Vol α m n p) : Vol α m n p :=
  let u := loopUp 0 m (fun i u => u.set i 0 k (u.get i 0 k * BoundaryScale)) u
  loopUp 1 n (fun j u =>
    loopUp 0 m (fun i u => u.set i j k (u.get i j k + nu * u.get i (j - 1) k)) u) u

/-- Lines 86-93: filter left along the second axis in plane `k`. -/
def filter_left (nu BoundaryScale : α) (k : Nat) (u : Vol α m n p) : Vol α m n p :=
  let u := loopUp 0 m (fun i u => u.set i (n - 1) k (u.get i (n - 1) k * BoundaryScale)) u
  loopDown (fun j u =>
    loopUp 0 m (fun i u => u.set i j k (u.get i j k + nu * u.get i (j + 1) k)) u) (n - 1) u

/-- Lines 98-109: filter out along the third axis. -/
def filter_out (nu BoundaryScale : α) (u : Vol α m n p) : Vol α m n p :=
  let u := loopUp 0 n (fun j u =>
    loopUp 0 m (fun i u => u.set i j 0 (u.get i j 0 * BoundaryScale)) u) u
  loopUp 1 p (fun k u =>
    loopUp 0 n (fun j u =>
      loopUp 0 m (fun i u => u.set i j k (u.get i j k + nu * u.get i j (k - 1))) u) u) u

/-- Lines 113-124: filter in along the third axis. -/
def filter_in (nu BoundaryScale : α) (u : Vol α m n p) : Vol α m n p :=
  let u := loopUp 0 n (fun j u =>
    loopUp 0 m (fun i u => u.set i j (p - 1) (u.get i j (p - 1) * BoundaryScale)) u) u
  loopDown (fun k u =>
    loopUp 0 n (fun j u =>
      loopUp 0 m (fun i u => u.set i j k (u.get i j k + nu * u.get i j (k + 1))) u) u) (p - 1) u

/-- Lines 55-124: the body of the `steps` loop. -/
def blur_step (nu BoundaryScale : α) (u : Vol α m n p) : Vol α m n p :=
  let u := loopUp 0 p (fun k u =>
    let u := filter_down_up nu BoundaryScale k u
    let u := filter_right nu BoundaryScale k u
    filter_left nu BoundaryScale k u) u
  let u := filter_out nu BoundaryScale u
  filter_in nu BoundaryScale u

/-- Lines 127-136: multiply every sample by `PostScale`. -/
def post_scale (PostScale : α) (u : Vol α m n p) : Vol α m n p :=
  loopUp 0 p (fun k u =>
    loopUp 0 n (fun j u =>
      loopUp 0 m (fun i u => u.set i j k (u.get i j k * PostScale)) u) u) u

/-- Line 37: `lambda = (Ksigma * Ksigma) / (2.0 * GAUSSIAN_NUMSTEPS)`. -/
def blur_lambda (Ksigma : α) : α := (Ksigma * Ksigma) / (2 * (GAUSSIAN_NUMSTEPS : α))

/-- Lines 38-39: `nu = (1 + 2 lambda - sqrt(1 + 4 lambda)) / (2 lambda)`. -/
def blur_nu (sqrt : α → α) (Ksigma : α) : α :=
  (1 + 2 * blur_lambda Ksigma - sqrt (1 + 4 * blur_lambda Ksigma)) / (2 * blur_lambda Ksigma)

/-- Line 40: `BoundaryScale = 1.0 / (1.0 - nu)`. -/
def blur_BoundaryScale (sqrt : α → α) (Ksigma : α) : α := 1 / (1 - blur_nu sqrt Ksigma)

/-- Lines 41-49: `PostScale = (nu / lambda) ^ (3 * GAUSSIAN_NUMSTEPS)`, by repeated
multiplication starting from `1`. -/
def blur_PostScale (sqrt : α → α) (Ksigma : α) : α :=
  loopUp 0 (3 * GAUSSIAN_NUMSTEPS)
    (fun _ PostScale => PostScale * (blur_nu sqrt Ksigma / blur_lambda Ksigma)) 1

/-- The routine `gaussian_blur(u, Ksigma)` of `kernel.c`, lines 35-137. -/
def gaussian_blur (sqrt : α → α) (u : Vol α m n p) (Ksigma : α) : Vol α m n p :=
  let nu := blur_nu sqrt Ksigma
  let BoundaryScale := blur_BoundaryScale sqrt Ksigma
  let PostScale := blur_PostScale sqrt Ksigma
  let u := loopUp 0 GAUSSIAN_NUMSTEPS (fun _ u => blur_step nu BoundaryScale u) u
  post_scale PostScale u

end Blur

/-! ## `rician_deconv3` -/

/-- The four array arguments of `rician_deconv3`. -/
inductive Buffer where
  | u | f | g | conv
  deriving DecidableEq, Repr

/-- The mutable arrays of `rician_deconv3`, with a ghost log of the calls made to
`gaussian_blur` (which array, which `Ksigma`). -/
structure DState (α : Type) (m n p : Nat) where
  /-- Current estimate. -/
  u : Vol α m n p
  /-- Diffusivity field. -/
  g : Vol α m n p
  /-- Scratch volume. -/
  conv : Vol α m n p
  /-- Ghost: calls of `gaussian_blur` so far, oldest first. -/
  blur_calls : List (Buffer × α)

/-- Loop-carried state of the innermost loop of lines 163-186. -/
structure GWin (α : Type) (m n p : Nat) where
  /-- The array being written. -/
  g : Vol α m n p
  /-- Scalar `u_stencil_center`. -/
  u_stencil_center : α
  /-- Scalar `u_stencil_down`. -/
  u_stencil_down : α

/-- Loop-carried state of the innermost loop of lines 218-250. -/
structure UWin (α : Type) (m n p : Nat) where
  /-- The array being written. -/
  u : Vol α m n p
  /-- Scalar `u_stencil_center`. -/
  u_stencil_center : α
  /-- Scalar `g_stencil_center`. -/
  g_stencil_center : α
  /-- Scalar `u_stencil_down`. -/
  u_stencil_down : α
  /-- Scalar `g_stencil_down`. -/
  g_stencil_down : α

section Deconv

variable {α : Type} [Zero α] [One α] [Add α] [Sub α] [Mul α] [Div α] [NatCast α]
  {m n p : Nat}

/-- Lines 168-183: body of the innermost diffusivity loop at voxel `(i, j, k)`. -/
def diffusivity_body (sqrt : α → α) (u : Vol α m n p) (j k i : Nat)
    (w : GWin α m n p) : GWin α m n p :=
  let u_stencil_up := w.u_stencil_center
  let u_stencil_center := w.u_stencil_down
  let u_stencil_down := u.get (i + 1) j k
  let denom :=
    sqrt (EPSILON α +
      SQR (u_stencil_center - u.get i (j + 1) k) +
      SQR (u_stencil_center - u.get i (j - 1) k) +
      SQR (u_stencil_center - u_stencil_up) +
      SQR (u_stencil_center - u_stencil_down) +
      SQR (u_stencil_center - u.get i j (k - 1)) +
      SQR (u_stencil_center - u.get i j (k + 1)))
  { g := w.g.set i j k (1 / denom),
    u_stencil_center := u_stencil_center,
    u_stencil_down := u_stencil_down }

/-- Lines 163-186: approximate `g = 1/|grad u|` on the interior. -/
def diffusivity (sqrt : α → α) (u g : Vol α m n p) : Vol α m n p :=
  loopUp 1 (p - 1) (fun k g =>
    loopUp 1 (n - 1) (fun j g =>
      (loopUp 1 (m - 1) (diffusivity_body sqrt u j k)
        { g := g, u_stencil_center := u.get 0 j k, u_stencil_down := u.get 1 j k }).g) g) g

/-- Lines 187-195: `conv[i][j][k] = u[i][j][k]` for every voxel. -/
def copy_u (u conv : Vol α m n p) : Vol α m n p :=
  loopUp 0 m (fun i conv =>
    loopUp 0 n (fun j conv =>
      loopUp 0 p (fun k conv => conv.set i j k (u.get i j k)) conv) conv) conv

/-- Lines 203-211: body of the residual loop at voxel `(i, j, k)`; `numer` and
`denom` are computed and not used. -/
def residual_body (f : Vol α m n p) (sigma2 : α) (k j i : Nat)
    (conv : Vol α m n p) : Vol α m n p :=
  let r := conv.get i j k * f.get i j k / sigma2
  let _numer := r * (238944 / 100000) + r * (950037 / 1000000 + r)
  let _denom := 465314 / 100000 + r * (257541 / 100000 + r * (257541 / 100000 +
    r * (148937 / 100000 + r)))
  conv.set i j k (conv.get i j k - f.get i j k * r)

/-- Lines 198-214: the residual loop. -/
def residual (f : Vol α m n p) (sigma2 : α) (conv : Vol α m n p) : Vol α m n p :=
  loopUp 0 p (fun k conv =>
    loopUp 0 n (fun j conv =>
      loopUp 0 m (residual_body f sigma2 k j) conv) conv) conv

/-- Lines 225-247: body of the innermost update loop at voxel `(i, j, k)`. -/
def update_body (gamma : α) (g conv : Vol α m n p) (j k i : Nat)
    (w : UWin α m n p) : UWin α m n p :=
  let u_stencil_up := w.u_stencil_center
  let g_stencil_up := w.g_stencil_center
  let u_stencil_center := w.u_stencil_down
  let g_stencil_center := w.g_stencil_down
  let u_stencil_down := w.u.get (i + 1) j k
  let g_stencil_down := g.get (i + 1) j k
  let numer :=
    u_stencil_center +
      DT α * (w.u.get i (j + 1) k * g.get i (j + 1) k +
        w.u.get i (j - 1) k * g.get i (j - 1) k +
        w.u.get i (j + 1) k * g.get i (j + 1) k +
        u_stencil_up * g_stencil_up +
        u_stencil_down * g_stencil_down +
        w.u.get i j (k - 1) * g.get i j (k - 1) +
        w.u.get i j (k + 1) * g.get i j (k + 1) -
        gamma * conv.get i j k)
  let denom :=
    1 + DT α * (g.get i (j + 1) k + g.get i (j - 1) k +
      g_stencil_down + g_stencil_up +
      g.get i j (k - 1) + g.get i j (k + 1))
  { u := w.u.set i j k (numer / denom),
    u_stencil_center := u_stencil_center,
    g_stencil_center := g_stencil_center,
    u_stencil_down := u_stencil_down,
    g_stencil_down := g_stencil_down }

/-- Lines 218-250: update `u` by a semi-implicit step. -/
def update_u (gamma : α) (g conv : Vol α m n p) (u : Vol α m n p) : Vol α m n p :=
  loopUp 1 (p - 1) (fun k u =>
    loopUp 1 (n - 1) (fun j u =>
      (loopUp 1 (m - 1) (update_body gamma g conv j k)
        { u := u,
          u_stencil_center := u.get 0 j k,
          g_stencil_center := g.get 0 j k,
          u_stencil_down := u.get 1 j k,
          g_stencil_down := g.get 1 j k }).u) u) u

/-- Lines 196 and 215: the call `gaussian_blur(conv, Ksigma)`. -/
def call_blur_conv (sqrt : α → α) (Ksigma : α) (s : DState α m n p) : DState α m n p :=
  { s with
    conv := gaussian_blur sqrt s.conv Ksigma,
    blur_calls := s.blur_calls ++ [(Buffer.conv, Ksigma)] }

/-- Lines 161-250: one iteration of the main gradient descent loop. -/
def rician_iteration (sqrt : α → α) (f : Vol α m n p) (Ksigma sigma2 gamma : α)
    (s : DState α m n p) : DState α m n p :=
  let s := { s with g := diffusivity sqrt s.u s.g }
  let s := { s with conv := copy_u s.u s.conv }
  let s := call_blur_conv sqrt Ksigma s
  let s := { s with conv := residual f sigma2 s.conv }
  let s := call_blur_conv sqrt Ksigma s
  { s with u := update_u gamma s.g s.conv s.u }

/-- The routine `rician_deconv3(u, f, g, conv, Ksigma, sigma, lambda)` of `kernel.c`,
lines 139-252.  The result holds the final `u`, `g` and `conv`. -/
def rician_deconv3 (sqrt : α → α) (u f g conv : Vol α m n p)
    (Ksigma sigma lambda : α) : DState α m n p :=
  let sigma2 := SQR sigma
  let gamma := lambda / sigma2
  loopUp 1 (MAX_ITERATIONS + 1)
    (fun _ s => rician_iteration sqrt f Ksigma sigma2 gamma s)
    { u := u, g := g, conv := conv, blur_calls := [] }

end Deconv

/-! ## Specification-level definitions -/

/-- Interior voxels: every index in `[1, extent - 2]`. -/
def interior (m n p i j k : Nat) : Prop :=
  1 ≤ i ∧ i + 1 < m ∧ 1 ≤ j ∧ j + 1 < n ∧ 1 ≤ k ∧ k + 1 < p

instance (m n p i j k : Nat) : Decidable (interior m n p i j k) :=
  inferInstanceAs (Decidable (1 ≤ i ∧ i + 1 < m ∧ 1 ≤ j ∧ j + 1 < n ∧ 1 ≤ k ∧ k + 1 < p))

section SpecDefs

variable {α : Type} [Zero α] [One α] [Add α] [Sub α] [Mul α] [Div α] [NatCast α]
  {m n p : Nat}

/-- Value stored in `g` at an interior voxel, with the six neighbours read directly
from the array. -/
def diffusivity_value (sqrt : α → α) (u : Vol α m n p) (i j k : Nat) : α :=
  1 / sqrt (EPSILON α +
    SQR (u.get i j k - u.get i (j + 1) k) +
    SQR (u.get i j k - u.get i (j - 1) k) +
    SQR (u.get i j k - u.get (i - 1) j k) +
    SQR (u.get i j k - u.get (i + 1) j k) +
    SQR (u.get i j k - u.get i j (k - 1)) +
    SQR (u.get i j k - u.get i j (k + 1)))

/-- Value written by the update sweep at the interior voxel `(i, j, k)`, as a function
of the arrays at the start of the sweep: the neighbours `(i, j-1, k)` and `(i, j, k-1)`
have been rewritten earlier in the sweep when they are interior, every other operand is
the content at the start of the sweep. -/
def sweep_value (gamma : α) (g conv u : Vol α m n p) (i j k : Nat) : α :=
  let left := if h : interior m n p i (j - 1) k then sweep_value gamma g conv u i (j - 1) k
    else u.get i (j - 1) k
  let inn := if h : interior m n p i j (k - 1) then sweep_value gamma g conv u i j (k - 1)
    else u.get i j (k - 1)
  (u.get i j k +
      DT α * (u.get i (j + 1) k * g.get i (j + 1) k +
        left * g.get i (j - 1) k +
        u.get i (j + 1) k * g.get i (j + 1) k +
        u.get (i - 1) j k * g.get (i - 1) j k +
        u.get (i + 1) j k * g.get (i + 1) j k +
        inn * g.get i j (k - 1) +
        u.get i j (k + 1) * g.get i j (k + 1) -
        gamma * conv.get i j k)) /
    (1 + DT α * (g.get i (j + 1) k + g.get i (j - 1) k +
      g.get (i + 1) j k + g.get (i - 1) j k +
      g.get i j (k - 1) + g.get i j (k + 1)))
termination_by j + k
decreasing_by
  · unfold interior at h; omega
  · unfold interior at h; omega

/-- Content of `u` after the sweep: interior voxels hold `sweep_value`. -/
def sweep_content (gamma : α) (g conv u : Vol α m n p) (a b c : Nat) : α :=
  if interior m n p a b c then sweep_value gamma g conv u a b c else u.get a b c

end SpecDefs

section LineDefs

variable {α : Type} [Field α]

/-- Forward recursive filter on a scan line `x`: the first sample is scaled by
`BoundaryScale`, each later sample receives `nu` times the filtered sample before it. -/
def line_fwd (nu BoundaryScale : α) (x : Nat → α) : Nat → α
  | 0 => x 0 * BoundaryScale
  | i + 1 => x (i + 1) + nu * line_fwd nu BoundaryScale x i

/-- Backward recursive filter, indexed by the distance `d` from the last sample of a scan
line of length `len`: the last sample is scaled by `BoundaryScale`, each earlier sample
receives `coef` times the filtered sample after it. -/
def line_bwd_from_end (coef BoundaryScale : α) (len : Nat) (y : Nat → α) : Nat → α
  | 0 => y (len - 1) * BoundaryScale
  | d + 1 => y (len - 1 - (d + 1)) +
      coef * line_bwd_from_end coef BoundaryScale len y d

/-- Backward recursive filter on a scan line `y` of length `len`, indexed by position. -/
def line_bwd (coef BoundaryScale : α) (len : Nat) (y : Nat → α) (i : Nat) : α :=
  line_bwd_from_end coef BoundaryScale len y (len - 1 - i)

/-- One forward and one backward pass along the first axis, the backward pass with
coefficient `coef`. -/
def pass_axis1 (nu coef BoundaryScale : α) (m : Nat) (x : Nat → Nat → Nat → α) :
    Nat → Nat → Nat → α :=
  fun a b c => line_bwd coef BoundaryScale m (line_fwd nu BoundaryScale (fun t => x t b c)) a

/-- One forward and one backward pass along the second axis. -/
def pass_axis2 (nu coef BoundaryScale : α) (n : Nat) (x : Nat → Nat → Nat → α) :
    Nat → Nat → Nat → α :=
  fun a b c => line_bwd coef BoundaryScale n (line_fwd nu BoundaryScale (fun t => x a t c)) b

/-- One forward and one backward pass along the third axis. -/
def pass_axis3 (nu coef BoundaryScale : α) (p : Nat) (x : Nat → Nat → Nat → α) :
    Nat → Nat → Nat → α :=
  fun a b c => line_bwd coef BoundaryScale p (line_fwd nu BoundaryScale (fun t => x a b t)) c

end LineDefs
section StepDefs

variable {α : Type} [Field α]

/-- One step of the cascade on an array given as a function of its indices: the pass along
the first axis (backward coefficient `1`, line 69), then along the second and the third
axis (backward coefficient `nu`, lines 91 and 121). -/
def step_fn (nu BoundaryScale : α) (m n p : Nat) (x : Nat → Nat → Nat → α) :
    Nat → Nat → Nat → α :=
  pass_axis3 nu nu BoundaryScale p
    (pass_axis2 nu nu BoundaryScale n (pass_axis1 nu 1 BoundaryScale m x))

end StepDefs

section ProfileDefs

variable {α : Type} [Field α]

/-- Profile along the first axis of a volume that is constant along the other two, after
`s` steps of the cascade started from the constant `c0`: each step filters the profile
along the first axis and scales it by `BoundaryScale ^ 4` (the gain of the passes along
the second and third axis on constant lines). -/
def blur_profile (nu BoundaryScale : α) (m : Nat) (c0 : α) : Nat → Nat → α
  | 0 => fun _ => c0
  | s + 1 => fun a =>
      line_bwd 1 BoundaryScale m (line_fwd nu BoundaryScale (blur_profile nu BoundaryScale m c0 s)) a *
        BoundaryScale ^ 4

/-- Exchange of the first two axes of a volume. -/
def Vol.swap12 {m n p : Nat} (v : Vol α m n p) : Vol α n m p :=
  ⟨fun a b c => v.data b a c⟩

end ProfileDefs

section ClaimedUpdate

variable {α : Type} [Field α] {m n p : Nat}

/-- The semi-implicit update as the specification words it: `numer / denom` with
`numer = u_center + DT * (sum over the six face neighbours, each counted once, of
u_neighbour * g_neighbour - gamma * conv_center)` and
`denom = 1 + DT * (sum of g over the same six neighbours)`. -/
def spec_update_value (gamma : α) (g conv u : Vol α m n p) (i j k : Nat) : α :=
  (u.get i j k +
      DT α * (u.get i (j + 1) k * g.get i (j + 1) k +
        u.get i (j - 1) k * g.get i (j - 1) k +
        u.get (i - 1) j k * g.get (i - 1) j k +
        u.get (i + 1) j k * g.get (i + 1) j k +
        u.get i j (k - 1) * g.get i j (k - 1) +
        u.get i j (k + 1) * g.get i j (k + 1) -
        gamma * conv.get i j k)) /
    (1 + DT α * (g.get i (j + 1) k + g.get i (j - 1) k +
      g.get (i + 1) j k + g.get (i - 1) j k +
      g.get i j (k - 1) + g.get i j (k + 1)))

end ClaimedUpdate

/-! ## Bounds-checked embedding

The same two routines with `int` indices and array accesses that fail (`none`) outside
`[0, m) × [0, n) × [0, p)`. -/

section Checked

variable {α : Type} [Field α] {m n p : Nat}

/-- Bounds-checked read of `v[i][j][k]` with `int` indices. -/
def Vol.get? (v : Vol α m n p) (i j k : Int) : Option α :=
  if 0 ≤ i ∧ i < m ∧ 0 ≤ j ∧ j < n ∧ 0 ≤ k ∧ k < p
  then some (v.get i.toNat j.toNat k.toNat) else none

/-- Bounds-checked write `v[i][j][k] = x` with `int` indices. -/
def Vol.set? (v : Vol α m n p) (i j k : Int) (x : α) : Option (Vol α m n p) :=
  if 0 ≤ i ∧ i < m ∧ 0 ≤ j ∧ j < n ∧ 0 ≤ k ∧ k < p
  then some (v.set i.toNat j.toNat k.toNat x) else none

/-- Fallible version of `loopFrom`. -/
def loopFromM {σ : Type} (body : Nat → σ → Option σ) : Nat → Nat → σ → Option σ
  | _, 0, s => some s
  | i, cnt + 1, s => (body i s).bind (loopFromM body (i + 1) cnt)

/-- Fallible version of `loopUp`. -/
def loopUpM {σ : Type} (lo hi : Nat) (body : Nat → σ → Option σ) (s : σ) : Option σ :=
  loopFromM body lo (hi - lo) s

/-- Fallible version of `loopDown`. -/
def loopDownM {σ : Type} (body : Nat → σ → Option σ) : Nat → σ → Option σ
  | 0, s => some s
  | cnt + 1, s => (body cnt s).bind (loopDownM body cnt)

/-- Lines 57-71 with checked accesses. -/
def filter_down_up_chk (nu BoundaryScale : α) (k : Nat) (u : Vol α m n p) :
    Option (Vol α m n p) :=
  loopUpM 0 n (fun j u => do
    let x ← u.get? 0 j k
    let u ← u.set? 0 j k (x * BoundaryScale)
    let u ← loopUpM 1 m (fun i u => do
      let x ← u.get? i j k
      let y ← u.get? (i - 1) j k
      u.set? i j k (x + nu * y)) u
    let x ← u.get? (m - 1) j k
    let u ← u.set? (m - 1) j k (x * BoundaryScale)
    loopDownM (fun i u => do
      let x ← u.get? i j k
      let y ← u.get? (i + 1) j k
      u.set? i j k (x + y)) (m - 1) u) u

/-- Lines 75-82 with checked accesses. -/
def filter_right_chk (nu BoundaryScale : α) (k : Nat) (u : Vol α m n p) :
    Option (Vol α m n p) := do
  let u ← loopUpM 0 m (fun i u => do
    let x ← u.get? i 0 k
    u.set? i 0 k (x * BoundaryScale)) u
  loopUpM 1 n (fun j u =>
    loopUpM 0 m (fun i u => do
      let x ← u.get? i j k
      let y ← u.get? i (j - 1) k
      u.set? i j k (x + nu * y)) u) u

/-- Lines 86-93 with checked accesses. -/
def filter_left_chk (nu BoundaryScale : α) (k : Nat) (u : Vol α m n p) :
    Option (Vol α m n p) := do
  let u ← loopUpM 0 m (fun i u => do
    let x ← u.get? i (n - 1) k
    u.set? i (n - 1) k (x * BoundaryScale)) u
  loopDownM (fun j u =>
    loopUpM 0 m (fun i u => do
      let x ← u.get? i j k
      let y ← u.get? i (j + 1) k
      u.set? i j k (x + nu * y)) u) (n - 1) u

/-- Lines 98-109 with checked accesses. -/
def filter_out_chk (nu BoundaryScale : α) (u : Vol α m n p) : Option (Vol α m n p) := do
  let u ← loopUpM 0 n (fun j u =>
    loopUpM 0 m (fun i u => do
      let x ← u.get? i j 0
      u.set? i j 0 (x * BoundaryScale)) u) u
  loopUpM 1 p (fun k u =>
    loopUpM 0 n (fun j u =>
      loopUpM 0 m (fun i u => do
        let x ← u.get? i j k
        let y ← u.get? i j (k - 1)
        u.set? i j k (x + nu * y)) u) u) u

/-- Lines 113-124 with checked accesses. -/
def filter_in_chk (nu BoundaryScale : α) (u : Vol α m n p) : Option (Vol α m n p) := do
  let u ← loopUpM 0 n (fun j u =>
    loopUpM 0 m (fun i u => do
      let x ← u.get? i j (p - 1)
      u.set? i j (p - 1) (x * BoundaryScale)) u) u
  loopDownM (fun k u =>
    loopUpM 0 n (fun j u =>
      loopUpM 0 m (fun i u => do
        let x ← u.get? i j k
        let y ← u.get? i j (k + 1)
        u.set? i j k (x + nu * y)) u) u) (p - 1) u

/-- Lines 55-124 with checked accesses. -/
def blur_step_chk (nu BoundaryScale : α) (u : Vol α m n p) : Option (Vol α m n p) := do
  let u ← loopUpM 0 p (fun k u => do
    let u ← filter_down_up_chk nu BoundaryScale k u
    let u ← filter_right_chk nu BoundaryScale k u
    filter_left_chk nu BoundaryScale k u) u
  let u ← filter_out_chk nu BoundaryScale u
  filter_in_chk nu BoundaryScale u

/-- Lines 127-136 with checked accesses. -/
def post_scale_chk (PostScale : α) (u : Vol α m n p) : Option (Vol α m n p) :=
  loopUpM 0 p (fun k u =>
    loopUpM 0 n (fun j u =>
      loopUpM 0 m (fun i u => do
        let x ← u.get? i j k
        u.set? i j k (x * PostScale)) u) u) u

/-- The routine `gaussian_blur` with checked accesses. -/
def gaussian_blur_chk (sqrt : α → α) (u : Vol α m n p) (Ksigma : α) : Option (Vol α m n p) := do
  let nu := blur_nu sqrt Ksigma
  let BoundaryScale := blur_BoundaryScale sqrt Ksigma
  let PostScale := blur_PostScale sqrt Ksigma
  let u ← loopUpM 0 GAUSSIAN_NUMSTEPS (fun _ u => blur_step_chk nu BoundaryScale u) u
  post_scale_chk PostScale u

/-- Lines 168-183 with checked accesses. -/
def diffusivity_body_chk (sqrt : α → α) (u : Vol α m n p) (j k i : Nat)
    (w : GWin α m n p) : Option (GWin α m n p) := do
  let u_stencil_up := w.u_stencil_center
  let u_stencil_center := w.u_stencil_down
  let u_stencil_down ← u.get? (i + 1) j k
  let u_right ← u.get? i (j + 1) k
  let u_left ← u.get? i (j - 1) k
  let u_in ← u.get? i j (k - 1)
  let u_out ← u.get? i j (k + 1)
  let denom :=
    sqrt (EPSILON α +
      SQR (u_stencil_center - u_right) +
      SQR (u_stencil_center - u_left) +
      SQR (u_stencil_center - u_stencil_up) +
      SQR (u_stencil_center - u_stencil_down) +
      SQR (u_stencil_center - u_in) +
      SQR (u_stencil_center - u_out))
  let g ← w.g.set? i j k (1 / denom)
  pure { g := g, u_stencil_center := u_stencil_center, u_stencil_down := u_stencil_down }

/-- Lines 163-186 with checked accesses. -/
def diffusivity_chk (sqrt : α → α) (u g : Vol α m n p) : Option (Vol α m n p) :=
  loopUpM 1 (p - 1) (fun k g =>
    loopUpM 1 (n - 1) (fun j g => do
      let c ← u.get? 0 j k
      let d ← u.get? 1 j k
      let w ← loopUpM 1 (m - 1) (diffusivity_body_chk sqrt u j k)
        { g := g, u_stencil_center := c, u_stencil_down := d }
      pure w.g) g) g

/-- Lines 187-195 with checked accesses. -/
def copy_u_chk (u conv : Vol α m n p) : Option (Vol α m n p) :=
  loopUpM 0 m (fun i conv =>
    loopUpM 0 n (fun j conv =>
      loopUpM 0 p (fun k conv => do
        let x ← u.get? i j k
        conv.set? i j k x) conv) conv) conv

/-- Lines 198-214 with checked accesses. -/
def residual_chk (f : Vol α m n p) (sigma2 : α) (conv : Vol α m n p) :
    Option (Vol α m n p) :=
  loopUpM 0 p (fun k conv =>
    loopUpM 0 n (fun j conv =>
      loopUpM 0 m (fun i conv => do
        let c ← conv.get? i j k
        let fv ← f.get? i j k
        let r := c * fv / sigma2
        let _numer := r * (238944 / 100000) + r * (950037 / 1000000 + r)
        let _denom := 465314 / 100000 + r * (257541 / 100000 + r * (257541 / 100000 +
          r * (148937 / 100000 + r)))
        let c2 ← conv.get? i j k
        let fv2 ← f.get? i j k
        conv.set? i j k (c2 - fv2 * r)) conv) conv) conv

/-- Lines 225-247 with checked accesses. -/
def update_body_chk (gamma : α) (g conv : Vol α m n p) (j k i : Nat)
    (w : UWin α m n p) : Option (UWin α m n p) := do
  let u_stencil_up := w.u_stencil_center
  let g_stencil_up := w.g_stencil_center
  let u_stencil_center := w.u_stencil_down
  let g_stencil_center := w.g_stencil_down
  let u_stencil_down ← w.u.get? (i + 1) j k
  let g_stencil_down ← g.get? (i + 1) j k
  let u_right ← w.u.get? i (j + 1) k
  let g_right ← g.get? i (j + 1) k
  let u_left ← w.u.get? i (j - 1) k
  let g_left ← g.get? i (j - 1) k
  let u_in ← w.u.get? i j (k - 1)
  let g_in ← g.get? i j (k - 1)
  let u_out ← w.u.get? i j (k + 1)
  let g_out ← g.get? i j (k + 1)
  let conv_center ← conv.get? i j k
  let numer :=
    u_stencil_center +
      DT α * (u_right * g_right +
        u_left * g_left +
        u_right * g_right +
        u_stencil_up * g_stencil_up +
        u_stencil_down * g_stencil_down +
        u_in * g_in +
        u_out * g_out -
        gamma * conv_center)
  let denom :=
    1 + DT α * (g_right + g_left +
      g_stencil_down + g_stencil_up +
      g_in + g_out)
  let u ← w.u.set? i j k (numer / denom)
  pure { u := u,
         u_stencil_center := u_stencil_center,
         g_stencil_center := g_stencil_center,
         u_stencil_down := u_stencil_down,
         g_stencil_down := g_stencil_down }

/-- Lines 218-250 with checked accesses. -/
def update_u_chk (gamma : α) (g conv : Vol α m n p) (u : Vol α m n p) :
    Option (Vol α m n p) :=
  loopUpM 1 (p - 1) (fun k u =>
    loopUpM 1 (n - 1) (fun j u => do
      let uc ← u.get? 0 j k
      let gc ← g.get? 0 j k
      let ud ← u.get? 1 j k
      let gd ← g.get? 1 j k
      let w ← loopUpM 1 (m - 1) (update_body_chk gamma g conv j k)
        { u := u,
          u_stencil_center := uc,
          g_stencil_center := gc,
          u_stencil_down := ud,
          g_stencil_down := gd }
      pure w.u) u) u

/-- Lines 196 and 215 with checked accesses. -/
def call_blur_conv_chk (sqrt : α → α) (Ksigma : α) (s : DState α m n p) :
    Option (DState α m n p) := do
  let c ← gaussian_blur_chk sqrt s.conv Ksigma
  pure { s with conv := c, blur_calls := s.blur_calls ++ [(Buffer.conv, Ksigma)] }

/-- Lines 161-250 with checked accesses. -/
def rician_iteration_chk (sqrt : α → α) (f : Vol α m n p) (Ksigma sigma2 gamma : α)
    (s : DState α m n p) : Option (DState α m n p) := do
  let g ← diffusivity_chk sqrt s.u s.g
  let s := { s with g := g }
  let c ← copy_u_chk s.u s.conv
  let s := { s with conv := c }
  let s ← call_blur_conv_chk sqrt Ksigma s
  let c ← residual_chk f sigma2 s.conv
  let s := { s with conv := c }
  let s ← call_blur_conv_chk sqrt Ksigma s
  let u ← update_u_chk gamma s.g s.conv s.u
  pure { s with u := u }

/-- The routine `rician_deconv3` with checked accesses. -/
def rician_deconv3_chk (sqrt : α → α) (u f g conv : Vol α m n p)
    (Ksigma sigma lambda : α) : Option (DState α m n p) :=
  let sigma2 := SQR sigma
  let gamma := lambda / sigma2
  loopUpM 1 (MAX_ITERATIONS + 1)
    (fun _ s => rician_iteration_chk sqrt f Ksigma sigma2 gamma s)
    { u := u, g := g, conv := conv, blur_calls := [] }

end Checked

section LinDefs

variable {α : Type} [Field α] {m n p : Nat}

/-- The linear combination `a * x + b * y` of two volumes, voxel by voxel. -/
def Vol.lin (a : α) (x : Vol α m n p) (b : α) (y : Vol α m n p) : Vol α m n p :=
  ⟨fun i j k => a * x.data i j k + b * y.data i j k⟩

end LinDefs
section DenomDefs

variable {α : Type} [Zero α] [One α] [Add α] [Sub α] [Mul α] [Div α] [NatCast α]
  {m n p : Nat}

/-- The quantity under the square root of lines 172-182 at voxel `(i, j, k)`, with the
six neighbours read directly from the array. -/
def diffusivity_radicand (u : Vol α m n p) (i j k : Nat) : α :=
  EPSILON α +
    SQR (u.get i j k - u.get i (j + 1) k) +
    SQR (u.get i j k - u.get i (j - 1) k) +
    SQR (u.get i j k - u.get (i - 1) j k) +
    SQR (u.get i j k - u.get (i + 1) j k) +
    SQR (u.get i j k - u.get i j (k - 1)) +
    SQR (u.get i j k - u.get i j (k + 1))

/-- The denominator of lines 242-246 at voxel `(i, j, k)`. -/
def update_denom (g : Vol α m n p) (i j k : Nat) : α :=
  1 + DT α * (g.get i (j + 1) k + g.get i (j - 1) k +
    g.get (i + 1) j k + g.get (i - 1) j k +
    g.get i j (k - 1) + g.get i j (k + 1))

end DenomDefs
section NumerDefs

variable {α : Type} [Field α] {m n p : Nat}

/-- The numerator of lines 232-241 at the interior voxel `(i, j, k)`, with the operands
the sweep uses: the neighbours `(i, j-1, k)` and `(i, j, k-1)` as rewritten earlier in
the sweep, every other operand as at the start of the sweep. -/
def update_numer (gamma : α) (g conv u : Vol α m n p) (i j k : Nat) : α :=
  u.get i j k +
    DT α * (u.get i (j + 1) k * g.get i (j + 1) k +
      sweep_content gamma g conv u i (j - 1) k * g.get i (j - 1) k +
      u.get i (j + 1) k * g.get i (j + 1) k +
      u.get (i - 1) j k * g.get (i - 1) j k +
      u.get (i + 1) j k * g.get (i + 1) j k +
      sweep_content gamma g conv u i j (k - 1) * g.get i j (k - 1) +
      u.get i j (k + 1) * g.get i j (k + 1) -
      gamma * conv.get i j k)

end NumerDefs
section DirectSweep

variable {α : Type} [Field α] {m n p : Nat}

/-- The body of the update loop as the specification words it: lines 225-247 with the
six window scalars replaced by reads of `u[i][j][k]`, `u[i-1][j][k]`, `u[i+1][j][k]`,
`g[i-1][j][k]` and `g[i+1][j][k]` from the arrays at the moment voxel `(i, j, k)` is
processed (the macros `U_CENTER`, `U_UP`, `U_DOWN`, `G_UP`, `G_DOWN` of lines 19-31);
every other operand as in `update_body`. -/
def update_body_direct (gamma : α) (g conv : Vol α m n p) (j k i : Nat)
    (u : Vol α m n p) : Vol α m n p :=
  let numer :=
    u.get i j k +
      DT α * (u.get i (j + 1) k * g.get i (j + 1) k +
        u.get i (j - 1) k * g.get i (j - 1) k +
        u.get i (j + 1) k * g.get i (j + 1) k +
        u.get (i - 1) j k * g.get (i - 1) j k +
        u.get (i + 1) j k * g.get (i + 1) j k +
        u.get i j (k - 1) * g.get i j (k - 1) +
        u.get i j (k + 1) * g.get i j (k + 1) -
        gamma * conv.get i j k)
  let denom :=
    1 + DT α * (g.get i (j + 1) k + g.get i (j - 1) k +
      g.get (i + 1) j k + g.get (i - 1) j k +
      g.get i j (k - 1) + g.get i j (k + 1))
  u.set i j k (numer / denom)

/-- The update sweep with direct reads: the loop nest of lines 218-250 (k outer, j
middle, i inner, ascending) around `update_body_direct`. -/
def update_u_direct (gamma : α) (g conv : Vol α m n p) (u : Vol α m n p) : Vol α m n p :=
  loopUp 1 (p - 1) (fun k u =>
    loopUp 1 (n - 1) (fun j u =>
      loopUp 1 (m - 1) (update_body_direct gamma g conv j k) u) u) u

/-- One iteration of the main loop with the update sweep replaced by the sweep with
direct reads; lines 161-217 as in `rician_iteration`. -/
def rician_iteration_direct (sqrt : α → α) (f : Vol α m n p) (Ksigma sigma2 gamma : α)
    (s : DState α m n p) : DState α m n p :=
  let s := { s with g := diffusivity sqrt s.u s.g }
  let s := { s with conv := copy_u s.u s.conv }
  let s := call_blur_conv sqrt Ksigma s
  let s := { s with conv := residual f sigma2 s.conv }
  let s := call_blur_conv sqrt Ksigma s
  { s with u := update_u_direct gamma s.g s.conv s.u }

/-- Value written by the sweep with direct reads at the interior voxel `(i, j, k)`, as
a function of the arrays at the start of the sweep: the three neighbours earlier in scan
order, `(i-1, j, k)`, `(i, j-1, k)` and `(i, j, k-1)`, have been rewritten when they are
interior. -/
def direct_value (gamma : α) (g conv u : Vol α m n p) (i j k : Nat) : α :=
  let up := if h : interior m n p (i - 1) j k then direct_value gamma g conv u (i - 1) j k
    else u.get (i - 1) j k
  let left := if h : interior m n p i (j - 1) k then direct_value gamma g conv u i (j - 1) k
    else u.get i (j - 1) k
  let inn := if h : interior m n p i j (k - 1) then direct_value gamma g conv u i j (k - 1)
    else u.get i j (k - 1)
  (u.get i j k +
      DT α * (u.get i (j + 1) k * g.get i (j + 1) k +
        left * g.get i (j - 1) k +
        u.get i (j + 1) k * g.get i (j + 1) k +
        up * g.get (i - 1) j k +
        u.get (i + 1) j k * g.get (i + 1) j k +
        inn * g.get i j (k - 1) +
        u.get i j (k + 1) * g.get i j (k + 1) -
        gamma * conv.get i j k)) /
    (1 + DT α * (g.get i (j + 1) k + g.get i (j - 1) k +
      g.get (i + 1) j k + g.get (i - 1) j k +
      g.get i j (k - 1) + g.get i j (k + 1)))
termination_by i + j + k
decreasing_by
  · unfold interior at h; omega
  · unfold interior at h; omega
  · unfold interior at h; omega

end DirectSweep

/-! ## Binary64 arithmetic

The type `double` of `kernel.c`: IEEE 754 binary64 with the default rounding (to nearest,
ties to even).  The embedding of the two routines is generic in the arithmetic, so it can
be run with these operations in the place of exact field operations. -/

/-- Values of the type `double`: a finite number given by its sign and its magnitude
(a non-negative rational; both zeros exist), an infinity with its sign, or a NaN. -/
inductive Double where
  /-- Finite number `(-1)^neg * mag`. -/
  | num (neg : Bool) (mag : ℚ)
  /-- Infinity `(-1)^neg * inf`. -/
  | inf (neg : Bool)
  /-- Not a number. -/
  | nan
  deriving DecidableEq

namespace Double

/-- Binary logarithm of a natural number, rounded down, by halving at most `fuel` times. -/
def log2Fuel : Nat → Nat → Nat
  | 0, _ => 0
  | fuel + 1, n => if n < 2 then 0 else log2Fuel fuel (n / 2) + 1

/-- Binary logarithm of a natural number, rounded down (`0` at `0`). -/
def log2 (n : Nat) : Nat := log2Fuel n n

/-- The rational `2 ^ e` for an integer `e`. -/
def pow2 : Int → ℚ
  | Int.ofNat k => ((2 ^ k : Nat) : ℚ)
  | Int.negSucc k => 1 / ((2 ^ (k + 1) : Nat) : ℚ)

/-- Binary logarithm of a positive rational, rounded down: the binary exponent. -/
def ilog2 (q : ℚ) : Int :=
  let e : Int := (log2 q.num.natAbs : Int) - (log2 q.den : Int)
  if pow2 e ≤ q then e else e - 1

/-- Nearest integer to a non-negative rational, ties to the even integer. -/
def roundEven (q : ℚ) : Nat :=
  let f := q.num.natAbs / q.den
  let r := q - (f : ℚ)
  if r < 1 / 2 then f else if 1 / 2 < r then f + 1 else if f % 2 = 0 then f else f + 1

/-- Nearest binary64 magnitude to a non-negative rational: 53 significant bits, binary
exponents from `-1022` to `1023`, gradual underflow (multiples of `2 ^ (-1074)` below
`2 ^ (-1022)`), ties to even; `none` is overflow. -/
def roundMag (q : ℚ) : Option ℚ :=
  if q = 0 then some 0 else
  let e := max (ilog2 q) (-1022)
  let quantum := pow2 (e - 52)
  let r := (roundEven (q / quantum) : ℚ) * quantum
  if r < pow2 1024 then some r else none

/-- The binary64 value with sign `neg` nearest to the magnitude `q`; overflow gives the
infinity of that sign. -/
def round (neg : Bool) (q : ℚ) : Double :=
  match roundMag q with
  | some r => num neg r
  | none => inf neg

/-- The binary64 value nearest to a rational: the value of a decimal constant. -/
def ofRat (q : ℚ) : Double :=
  if q < 0 then round true (-q) else round false q

/-- Unary minus. -/
def neg : Double → Double
  | num s a => num (!s) a
  | inf s => inf (!s)
  | nan => nan

/-- Addition.  An exact zero sum is `+0`, unless both operands are negative (then they are
both `-0`). -/
def add : Double → Double → Double
  | nan, _ => nan
  | _, nan => nan
  | inf s, inf t => if s = t then inf s else nan
  | inf s, num _ _ => inf s
  | num _ _, inf t => inf t
  | num s a, num t b =>
    let x := (if s then -a else a) + (if t then -b else b)
    if x = 0 then num (s && t) 0
    else if x < 0 then round true (-x) else round false x

/-- Subtraction: `x - y = x + (-y)`. -/
def sub (x y : Double) : Double := add x (neg y)

/-- Multiplication. -/
def mul : Double → Double → Double
  | nan, _ => nan
  | _, nan => nan
  | inf s, inf t => inf (xor s t)
  | inf s, num t b => if b = 0 then nan else inf (xor s t)
  | num s a, inf t => if a = 0 then nan else inf (xor s t)
  | num s a, num t b => round (xor s t) (a * b)

/-- Division. -/
def div : Double → Double → Double
  | nan, _ => nan
  | _, nan => nan
  | inf _, inf _ => nan
  | inf s, num t _ => inf (xor s t)
  | num s _, inf t => num (xor s t) 0
  | num s a, num t b =>
    if b = 0 then (if a = 0 then nan else inf (xor s t))
    else round (xor s t) (a / b)

/-- Square root of `n / 4 ^ k` rounded down, from the one of `n / 4 ^ (k + cnt)`. -/
def isqrtLoop (n : Nat) : Nat → Nat → Nat
  | 0, s => s
  | k + 1, s =>
    isqrtLoop n k (if (2 * s + 1) * (2 * s + 1) ≤ n / 4 ^ k then 2 * s + 1 else 2 * s)

/-- Square root of a natural number, rounded down. -/
def isqrt (n : Nat) : Nat := isqrtLoop n (log2 n / 2 + 1) 0

/-- Nearest binary64 magnitude to the square root of a positive rational. -/
def sqrtMag (a : ℚ) : ℚ :=
  let h : Int := ilog2 a / 2
  let quantum := pow2 (h - 52)
  let x := a / (quantum * quantum)
  let s := isqrt (x.num.natAbs / x.den)
  let half : ℚ := (s : ℚ) + 1 / 2
  let r := if half * half < x then s + 1
    else if x < half * half then s
    else if s % 2 = 0 then s else s + 1
  (r : ℚ) * quantum

/-- The function `sqrt` of `math.h`, correctly rounded. -/
def sqrt : Double → Double
  | nan => nan
  | inf s => if s then nan else inf false
  | num s a => if a = 0 then num s 0 else if s then nan else num false (sqrtMag a)

/-- The comparison `x < y` of C: false when an operand is a NaN, `-0` equal to `+0`. -/
def lt : Double → Double → Bool
  | nan, _ => false
  | _, nan => false
  | inf s, inf t => s && !t
  | inf s, num _ _ => s
  | num _ _, inf t => !t
  | num s a, num t b => decide ((if s then -a else a) < (if t then -b else b))

/-- The comparison `x <= y` of C: false when an operand is a NaN. -/
def le : Double → Double → Bool
  | nan, _ => false
  | _, nan => false
  | inf s, inf t => s || !t
  | inf s, num _ _ => s
  | num _ _, inf t => !t
  | num s a, num t b => decide ((if s then -a else a) ≤ (if t then -b else b))

instance : Zero Double := ⟨num false 0⟩
instance : One Double := ⟨num false 1⟩
instance : Add Double := ⟨add⟩
instance : Sub Double := ⟨sub⟩
instance : Mul Double := ⟨mul⟩
instance : Div Double := ⟨div⟩
instance : Neg Double := ⟨neg⟩
instance : NatCast Double := ⟨fun n => round false (n : ℚ)⟩
instance : LT Double := ⟨fun x y => lt x y = true⟩
instance : LE Double := ⟨fun x y => le x y = true⟩
instance (x y : Double) : Decidable (x < y) := inferInstanceAs (Decidable (lt x y = true))
instance (x y : Double) : Decidable (x ≤ y) := inferInstanceAs (Decidable (le x y = true))

end Double

/-! ## Basic facts about volumes and loops -/

namespace Vol

variable {α : Type} [Zero α] {m n p : Nat}

theorem get_of_lt (v : Vol α m n p) {i j k : Nat} (hi : i < m) (hj : j < n) (hk : k < p) :
    v.get i j k = v.data ⟨i, hi⟩ ⟨j, hj⟩ ⟨k, hk⟩ := by
  simp [get, hi, hj, hk]

theorem get_of_not_lt (v : Vol α m n p) {i j k : Nat} (h : ¬ (i < m ∧ j < n ∧ k < p)) :
    v.get i j k = 0 := by
  simp [get, h]

theorem get_set (v : Vol α m n p) (i j k : Nat) (x : α) (a b c : Nat) :
    (v.set i j k x).get a b c =
      if a = i ∧ b = j ∧ c = k ∧ i < m ∧ j < n ∧ k < p then x else v.get a b c := by
  by_cases h : a < m ∧ b < n ∧ c < p
  · obtain ⟨ha, hb, hc⟩ := h
    rw [get_of_lt _ ha hb hc, get_of_lt _ ha hb hc]
    by_cases e : a = i ∧ b = j ∧ c = k
    · obtain ⟨rfl, rfl, rfl⟩ := e
      simp [set, ha, hb, hc]
    · have e2 : ¬ (a = i ∧ b = j ∧ c = k ∧ i < m ∧ j < n ∧ k < p) :=
        fun h => e ⟨h.1, h.2.1, h.2.2.1⟩
      simp only [set, e, e2, if_false]
  · rw [get_of_not_lt _ h, get_of_not_lt _ h]
    have e2 : ¬ (a = i ∧ b = j ∧ c = k ∧ i < m ∧ j < n ∧ k < p) := by
      rintro ⟨rfl, rfl, rfl, h1, h2, h3⟩
      exact h ⟨h1, h2, h3⟩
    simp only [e2, if_false]

theorem ext_get {v w : Vol α m n p}
    (h : ∀ i j k, i < m → j < n → k < p → v.get i j k = w.get i j k) : v = w := by
  apply Vol.ext
  funext a b c
  have := h a.val b.val c.val a.isLt b.isLt c.isLt
  rwa [get_of_lt _ a.isLt b.isLt c.isLt, get_of_lt _ a.isLt b.isLt c.isLt] at this

theorem get_const (c : α) {i j k : Nat} (hi : i < m) (hj : j < n) (hk : k < p) :
    (Vol.const m n p c).get i j k = c := by
  simp [get, const, hi, hj, hk]

end Vol

section LoopFacts

variable {σ : Type}

theorem loopFrom_inv (body : Nat → σ → σ) (Inv : Nat → σ → Prop) :
    ∀ (cnt start : Nat) (s : σ), Inv start s →
      (∀ i s, start ≤ i → i < start + cnt → Inv i s → Inv (i + 1) (body i s)) →
      Inv (start + cnt) (loopFrom body start cnt s) := by
  intro cnt
  induction cnt with
  | zero => intro start s h0 _; simpa [loopFrom] using h0
  | succ c ih =>
    intro start s h0 hstep
    have h1 : Inv (start + 1) (body start s) := hstep start s (le_refl _) (by omega) h0
    have := ih (start + 1) (body start s) h1
      (fun i s hi1 hi2 hinv => hstep i s (by omega) (by omega) hinv)
    simpa [loopFrom, Nat.add_assoc, Nat.add_comm 1 c] using this

theorem loopUp_of_le (lo hi : Nat) (body : Nat → σ → σ) (s : σ) (h : hi ≤ lo) :
    loopUp lo hi body s = s := by
  have : hi - lo = 0 := by omega
  simp [loopUp, this, loopFrom]

theorem loopUp_inv (lo hi : Nat) (body : Nat → σ → σ) (Inv : Nat → σ → Prop) (s : σ)
    (hle : lo ≤ hi) (h0 : Inv lo s)
    (hstep : ∀ i s, lo ≤ i → i < hi → Inv i s → Inv (i + 1) (body i s)) :
    Inv hi (loopUp lo hi body s) := by
  have := loopFrom_inv body Inv (hi - lo) lo s h0
    (fun i s h1 h2 hinv => hstep i s h1 (by omega) hinv)
  have e : lo + (hi - lo) = hi := by omega
  rw [e] at this
  exact this

theorem loopUp_preserve (lo hi : Nat) (body : Nat → σ → σ) (Inv : σ → Prop) (s : σ)
    (h0 : Inv s) (hstep : ∀ i s, lo ≤ i → i < hi → Inv s → Inv (body i s)) :
    Inv (loopUp lo hi body s) := by
  by_cases hle : lo ≤ hi
  · exact loopUp_inv lo hi body (fun _ s => Inv s) s hle h0 hstep
  · rw [loopUp_of_le _ _ _ _ (by omega)]; exact h0

theorem loopDown_inv (body : Nat → σ → σ) (Inv : Nat → σ → Prop) :
    ∀ (cnt : Nat) (s : σ), Inv cnt s →
      (∀ i s, i < cnt → Inv (i + 1) s → Inv i (body i s)) →
      Inv 0 (loopDown body cnt s) := by
  intro cnt
  induction cnt with
  | zero => intro s h0 _; simpa [loopDown] using h0
  | succ c ih =>
    intro s h0 hstep
    have h1 : Inv c (body c s) := hstep c s (by omega) h0
    simpa [loopDown] using ih (body c s) h1 (fun i s hi hinv => hstep i s (by omega) hinv)

theorem loopUp_iterate (lo hi : Nat) (step : σ → σ) (s : σ) :
    loopUp lo hi (fun _ s => step s) s = step^[hi - lo] s := by
  have key : ∀ (cnt start : Nat) (s : σ),
      loopFrom (fun _ s => step s) start cnt s = step^[cnt] s := by
    intro cnt
    induction cnt with
    | zero => intro start s; simp [loopFrom]
    | succ c ih => intro start s; simp [loopFrom, ih]
  simp [loopUp, key]

end LoopFacts

section Fill

variable {α : Type} [Zero α] {m n p : Nat}

/-- A loop that fills the voxels `dom ∧ lo ≤ owner < hi` with their final values `G`,
slice `owner = i` at iteration `i`, may read the slices already filled. -/
theorem loopUp_fill (body : Nat → Vol α m n p → Vol α m n p)
    (dom : Nat → Nat → Nat → Prop) [∀ a b c, Decidable (dom a b c)]
    (owner : Nat → Nat → Nat → Nat) (G : Nat → Nat → Nat → α) (lo hi : Nat)
    (v0 : Vol α m n p)
    (hbody : ∀ i v, lo ≤ i → i < hi →
      (∀ a b c, v.get a b c =
        if dom a b c ∧ lo ≤ owner a b c ∧ owner a b c < i then G a b c else v0.get a b c) →
      ∀ a b c, (body i v).get a b c =
        if dom a b c ∧ owner a b c = i then G a b c else v.get a b c) :
    ∀ a b c, (loopUp lo hi body v0).get a b c =
      if dom a b c ∧ lo ≤ owner a b c ∧ owner a b c < hi then G a b c else v0.get a b c := by
  by_cases hle : lo ≤ hi
  · refine loopUp_inv lo hi body (fun i v => ∀ a b c, v.get a b c =
      if dom a b c ∧ lo ≤ owner a b c ∧ owner a b c < i then G a b c else v0.get a b c)
      v0 hle ?_ ?_
    · intro a b c
      have : ¬ (dom a b c ∧ lo ≤ owner a b c ∧ owner a b c < lo) := by
        rintro ⟨_, h1, h2⟩; omega
      simp [this]
    · intro i v h1 h2 hinv a b c
      rw [hbody i v h1 h2 hinv a b c, hinv a b c]
      by_cases hd : dom a b c
      · by_cases ho : owner a b c = i
        · have h3 : lo ≤ owner a b c ∧ owner a b c < i + 1 := by omega
          rw [if_pos ⟨hd, ho⟩, if_pos ⟨hd, h3⟩]
        · by_cases hlt : lo ≤ owner a b c ∧ owner a b c < i
          · have h3 : lo ≤ owner a b c ∧ owner a b c < i + 1 := by omega
            rw [if_neg (fun h => ho h.2), if_pos ⟨hd, hlt⟩, if_pos ⟨hd, h3⟩]
          · have h3 : ¬ (lo ≤ owner a b c ∧ owner a b c < i + 1) := by omega
            rw [if_neg (fun h => ho h.2), if_neg (fun h => hlt h.2), if_neg (fun h => h3 h.2)]
      · rw [if_neg (fun h => hd h.1), if_neg (fun h => hd h.1), if_neg (fun h => hd h.1)]
  · intro a b c
    rw [loopUp_of_le _ _ _ _ (by omega)]
    have : ¬ (dom a b c ∧ lo ≤ owner a b c ∧ owner a b c < hi) := by
      rintro ⟨_, h1, h2⟩; omega
    simp [this]

/-- Descending analogue of `loopUp_fill`: iteration `i` may read the slices above. -/
theorem loopDown_fill (body : Nat → Vol α m n p → Vol α m n p)
    (dom : Nat → Nat → Nat → Prop) [∀ a b c, Decidable (dom a b c)]
    (owner : Nat → Nat → Nat → Nat) (G : Nat → Nat → Nat → α) (cnt : Nat)
    (v0 : Vol α m n p)
    (hbody : ∀ i v, i < cnt →
      (∀ a b c, v.get a b c =
        if dom a b c ∧ i < owner a b c ∧ owner a b c < cnt then G a b c else v0.get a b c) →
      ∀ a b c, (body i v).get a b c =
        if dom a b c ∧ owner a b c = i then G a b c else v.get a b c) :
    ∀ a b c, (loopDown body cnt v0).get a b c =
      if dom a b c ∧ owner a b c < cnt then G a b c else v0.get a b c := by
  have := loopDown_inv body (fun i v => ∀ a b c, v.get a b c =
      if dom a b c ∧ i ≤ owner a b c ∧ owner a b c < cnt then G a b c else v0.get a b c)
      cnt v0 ?_ ?_
  · intro a b c
    rw [this a b c]
    simp
  · intro a b c
    have : ¬ (dom a b c ∧ cnt ≤ owner a b c ∧ owner a b c < cnt) := by
      rintro ⟨_, h1, h2⟩; omega
    simp [this]
  · intro i v h1 hinv a b c
    have hinv2 : ∀ a b c, v.get a b c =
        if dom a b c ∧ i < owner a b c ∧ owner a b c < cnt then G a b c
        else v0.get a b c := by
      intro a b c
      rw [hinv a b c]
      by_cases h : dom a b c ∧ i + 1 ≤ owner a b c ∧ owner a b c < cnt
      · have h2 : dom a b c ∧ i < owner a b c ∧ owner a b c < cnt := ⟨h.1, by omega, h.2.2⟩
        simp only [h, h2, and_self, if_true]
      · have h2 : ¬ (dom a b c ∧ i < owner a b c ∧ owner a b c < cnt) :=
          fun h2 => h ⟨h2.1, by omega, h2.2.2⟩
        simp only [h, h2, if_false]
    rw [hbody i v h1 hinv2 a b c, hinv2 a b c]
    by_cases hd : dom a b c
    · by_cases ho : owner a b c = i
      · have h3 : i ≤ owner a b c ∧ owner a b c < cnt := by omega
        rw [if_pos ⟨hd, ho⟩, if_pos ⟨hd, h3⟩]
      · by_cases hlt : i < owner a b c ∧ owner a b c < cnt
        · have h3 : i ≤ owner a b c ∧ owner a b c < cnt := by omega
          rw [if_neg (fun h => ho h.2), if_pos ⟨hd, hlt⟩, if_pos ⟨hd, h3⟩]
        · have h3 : ¬ (i ≤ owner a b c ∧ owner a b c < cnt) := by omega
          rw [if_neg (fun h => ho h.2), if_neg (fun h => hlt h.2), if_neg (fun h => h3 h.2)]
    · rw [if_neg (fun h => hd h.1), if_neg (fun h => hd h.1), if_neg (fun h => hd h.1)]

end Fill

/-! ## Semantics of the loops of `rician_deconv3` -/

section DeconvFacts
variable {α : Type} [Zero α] [One α] [Add α] [Sub α] [Mul α] [Div α] [NatCast α]
  {m n p : Nat}

theorem diffusivity_line (sqrt : α → α) (u g : Vol α m n p) (j k : Nat)
    (hj : j < n) (hk : k < p) (a b c : Nat) :
    (loopUp 1 (m - 1) (diffusivity_body sqrt u j k)
        { g := g, u_stencil_center := u.get 0 j k, u_stencil_down := u.get 1 j k }).g.get a b c =
      if (b = j ∧ c = k) ∧ 1 ≤ a ∧ a < m - 1 then diffusivity_value sqrt u a b c
      else g.get a b c := by
  by_cases hle : 1 ≤ m - 1
  · have key := loopUp_inv 1 (m - 1) (diffusivity_body sqrt u j k)
      (fun i w => (∀ a b c, w.g.get a b c =
          if (b = j ∧ c = k) ∧ 1 ≤ a ∧ a < i then diffusivity_value sqrt u a b c
          else g.get a b c) ∧
        w.u_stencil_center = u.get (i - 1) j k ∧ w.u_stencil_down = u.get i j k)
      { g := g, u_stencil_center := u.get 0 j k, u_stencil_down := u.get 1 j k }
      hle ?_ ?_
    · exact key.1 a b c
    · refine ⟨?_, rfl, rfl⟩
      intro a b c
      rw [if_neg]
      omega
    · rintro i w h1 h2 ⟨hg, hc, hd⟩
      refine ⟨?_, ?_, ?_⟩
      · intro a b c
        simp only [diffusivity_body]
        rw [Vol.get_set, hg a b c, hc, hd]
        by_cases e : a = i ∧ b = j ∧ c = k
        · obtain ⟨rfl, rfl, rfl⟩ := e
          rw [if_pos ⟨rfl, rfl, rfl, by omega, hj, hk⟩, if_pos ⟨⟨rfl, rfl⟩, h1, by omega⟩]
          rfl
        · rw [if_neg (fun h => e ⟨h.1, h.2.1, h.2.2.1⟩)]
          split_ifs <;> first | rfl | (exfalso; omega)
      · simp only [diffusivity_body]
        rw [hd]; simp
      · simp only [diffusivity_body]
  · rw [loopUp_of_le _ _ _ _ (by omega)]
    rw [if_neg]
    omega

theorem diffusivity_get (sqrt : α → α) (u g : Vol α m n p) (a b c : Nat) :
    (diffusivity sqrt u g).get a b c =
      if interior m n p a b c then diffusivity_value sqrt u a b c else g.get a b c := by
  have mid : ∀ k, k < p → ∀ (v : Vol α m n p) a b c,
      (loopUp 1 (n - 1) (fun j g =>
        (loopUp 1 (m - 1) (diffusivity_body sqrt u j k)
          { g := g, u_stencil_center := u.get 0 j k,
            u_stencil_down := u.get 1 j k }).g) v).get a b c =
        if (c = k ∧ 1 ≤ a ∧ a < m - 1) ∧ 1 ≤ b ∧ b < n - 1
        then diffusivity_value sqrt u a b c else v.get a b c := by
    intro k hk v
    apply loopUp_fill _ (fun a _ c => c = k ∧ 1 ≤ a ∧ a < m - 1) (fun _ b _ => b)
      (fun a b c => diffusivity_value sqrt u a b c)
    intro j w _ hj _ a b c
    rw [diffusivity_line sqrt u w j k (by omega) hk]
    split_ifs <;> first | rfl | (exfalso; omega)
  have outer : ∀ a b c, (diffusivity sqrt u g).get a b c =
      if ((1 ≤ a ∧ a < m - 1) ∧ 1 ≤ b ∧ b < n - 1) ∧ 1 ≤ c ∧ c < p - 1
      then diffusivity_value sqrt u a b c else g.get a b c := by
    apply loopUp_fill _ (fun a b _ => (1 ≤ a ∧ a < m - 1) ∧ 1 ≤ b ∧ b < n - 1)
      (fun _ _ c => c) (fun a b c => diffusivity_value sqrt u a b c)
    intro k w _ hk _ a b c
    rw [mid k (by omega)]
    split_ifs <;> first | rfl | (exfalso; omega)
  rw [outer]
  unfold interior
  split_ifs <;> first | rfl | (exfalso; omega)


theorem update_line (gamma : α) (g conv u0 u : Vol α m n p) (j k : Nat)
    (hj1 : 1 ≤ j) (hj : j < n - 1) (hk1 : 1 ≤ k) (hk : k < p - 1)
    (hu : ∀ a b c, u.get a b c =
      if interior m n p a b c ∧ (c < k ∨ (c = k ∧ b < j)) then sweep_value gamma g conv u0 a b c
      else u0.get a b c)
    (a b c : Nat) :
    (loopUp 1 (m - 1) (update_body gamma g conv j k)
        { u := u,
          u_stencil_center := u.get 0 j k,
          g_stencil_center := g.get 0 j k,
          u_stencil_down := u.get 1 j k,
          g_stencil_down := g.get 1 j k }).u.get a b c =
      if interior m n p a b c ∧ (c < k ∨ (c = k ∧ b < j + 1))
      then sweep_value gamma g conv u0 a b c else u0.get a b c := by
  have hold : ∀ a, u.get a j k = u0.get a j k := by
    intro a
    rw [hu a j k, if_neg]
    omega
  by_cases hle : 1 ≤ m - 1
  · have key := loopUp_inv 1 (m - 1) (update_body gamma g conv j k)
      (fun i w => (∀ a b c, w.u.get a b c =
          if interior m n p a b c ∧ (c < k ∨ (c = k ∧ (b < j ∨ (b = j ∧ a < i))))
          then sweep_value gamma g conv u0 a b c else u0.get a b c) ∧
        w.u_stencil_center = u0.get (i - 1) j k ∧ w.u_stencil_down = u0.get i j k ∧
        w.g_stencil_center = g.get (i - 1) j k ∧ w.g_stencil_down = g.get i j k)
      { u := u,
        u_stencil_center := u.get 0 j k,
        g_stencil_center := g.get 0 j k,
        u_stencil_down := u.get 1 j k,
        g_stencil_down := g.get 1 j k }
      hle ?_ ?_
    · rw [key.1 a b c]
      unfold interior
      split_ifs <;> first | rfl | (exfalso; omega)
    · refine ⟨?_, hold 0, hold 1, rfl, rfl⟩
      intro a b c
      rw [hu a b c]
      unfold interior
      split_ifs <;> first | rfl | (exfalso; omega)
    · rintro i w h1 h2 ⟨hw, hc, hd, hgc, hgd⟩
      refine ⟨?_, ?_, ?_, ?_, ?_⟩
      · intro a b c
        simp only [update_body]
        rw [Vol.get_set]
        by_cases e : a = i ∧ b = j ∧ c = k
        · obtain ⟨rfl, rfl, rfl⟩ := e
          have hint : interior m n p a b c := ⟨h1, by omega, hj1, by omega, hk1, by omega⟩
          rw [if_pos ⟨rfl, rfl, rfl, by omega, by omega, by omega⟩,
            if_pos ⟨hint, Or.inr ⟨rfl, Or.inr ⟨rfl, by omega⟩⟩⟩]
          rw [sweep_value]
          have e1 : w.u.get a (b + 1) c = u0.get a (b + 1) c := by
            rw [hw, if_neg]; omega
          have e2 : w.u.get a (b - 1) c =
              (if h : interior m n p a (b - 1) c then sweep_value gamma g conv u0 a (b - 1) c
                else u0.get a (b - 1) c) := by
            rw [hw]
            unfold interior
            split_ifs <;> first | rfl | (exfalso; omega)
          have e3 : w.u.get a b (c - 1) =
              (if h : interior m n p a b (c - 1) then sweep_value gamma g conv u0 a b (c - 1)
                else u0.get a b (c - 1)) := by
            rw [hw]
            unfold interior
            split_ifs <;> first | rfl | (exfalso; omega)
          have e4 : w.u.get a b (c + 1) = u0.get a b (c + 1) := by
            rw [hw, if_neg]; omega
          have e5 : w.u.get (a + 1) b c = u0.get (a + 1) b c := by
            rw [hw, if_neg]; omega
          simp only [e1, e2, e3, e4, e5, hc, hd, hgc, hgd]
        · rw [if_neg (fun h => e ⟨h.1, h.2.1, h.2.2.1⟩), hw a b c]
          unfold interior
          split_ifs <;> first | rfl | (exfalso; omega)
      · simp only [update_body]; rw [hd]; simp
      · simp only [update_body]; rw [hw, if_neg]; omega
      · simp only [update_body]; rw [hgd]; simp
      · simp only [update_body]
  · rw [loopUp_of_le _ _ _ _ (by omega)]
    simp only
    rw [hu a b c]
    unfold interior
    split_ifs <;> first | rfl | (exfalso; omega)

theorem update_u_get (gamma : α) (g conv u : Vol α m n p) (a b c : Nat) :
    (update_u gamma g conv u).get a b c = sweep_content gamma g conv u a b c := by
  have plane : ∀ k, 1 ≤ k → k < p - 1 → ∀ (v : Vol α m n p),
      (∀ a b c, v.get a b c =
        if interior m n p a b c ∧ c < k then sweep_value gamma g conv u a b c
        else u.get a b c) →
      ∀ a b c, (loopUp 1 (n - 1) (fun j u =>
        (loopUp 1 (m - 1) (update_body gamma g conv j k)
          { u := u,
            u_stencil_center := u.get 0 j k,
            g_stencil_center := g.get 0 j k,
            u_stencil_down := u.get 1 j k,
            g_stencil_down := g.get 1 j k }).u) v).get a b c =
        if interior m n p a b c ∧ c < k + 1 then sweep_value gamma g conv u a b c
        else u.get a b c := by
    intro k hk1 hk v hv
    by_cases hle : 1 ≤ n - 1
    · have key := loopUp_inv 1 (n - 1) (fun j u =>
        (loopUp 1 (m - 1) (update_body gamma g conv j k)
          { u := u,
            u_stencil_center := u.get 0 j k,
            g_stencil_center := g.get 0 j k,
            u_stencil_down := u.get 1 j k,
            g_stencil_down := g.get 1 j k }).u)
        (fun j w => ∀ a b c, w.get a b c =
          if interior m n p a b c ∧ (c < k ∨ (c = k ∧ b < j))
          then sweep_value gamma g conv u a b c else u.get a b c)
        v hle ?_ ?_
      · intro a b c
        rw [key a b c]
        unfold interior
        split_ifs <;> first | rfl | (exfalso; omega)
      · intro a b c
        rw [hv a b c]
        unfold interior
        split_ifs <;> first | rfl | (exfalso; omega)
      · intro j w h1 h2 hw a b c
        exact update_line gamma g conv u w j k h1 h2 hk1 hk hw a b c
    · intro a b c
      rw [loopUp_of_le _ _ _ _ (by omega), hv a b c]
      unfold interior
      split_ifs <;> first | rfl | (exfalso; omega)
  unfold sweep_content
  by_cases hle : 1 ≤ p - 1
  · have key := loopUp_inv 1 (p - 1) (fun k u =>
      loopUp 1 (n - 1) (fun j u =>
        (loopUp 1 (m - 1) (update_body gamma g conv j k)
          { u := u,
            u_stencil_center := u.get 0 j k,
            g_stencil_center := g.get 0 j k,
            u_stencil_down := u.get 1 j k,
            g_stencil_down := g.get 1 j k }).u) u)
      (fun k w => ∀ a b c, w.get a b c =
        if interior m n p a b c ∧ c < k then sweep_value gamma g conv u a b c
        else u.get a b c)
      u hle ?_ ?_
    · have := key a b c
      unfold update_u
      rw [this]
      unfold interior
      split_ifs <;> first | rfl | (exfalso; omega)
    · intro a b c
      rw [if_neg]
      unfold interior
      omega
    · intro k w h1 h2 hw a b c
      exact plane k h1 h2 w hw a b c
  · unfold update_u
    rw [loopUp_of_le _ _ _ _ (by omega), if_neg]
    unfold interior
    omega


omit [One α] [Add α] [Sub α] [Mul α] [Div α] [NatCast α] in
theorem copy_u_eq (u conv : Vol α m n p) : copy_u u conv = u := by
  have inner : ∀ i j, i < m → j < n → ∀ (v : Vol α m n p) a b c,
      (loopUp 0 p (fun k conv => conv.set i j k (u.get i j k)) v).get a b c =
        if (a = i ∧ b = j) ∧ 0 ≤ c ∧ c < p then u.get a b c else v.get a b c := by
    intro i j hi hj v
    apply loopUp_fill _ (fun a b _ => a = i ∧ b = j) (fun _ _ c => c) (fun a b c => u.get a b c)
    intro k w _ hk _ a b c
    rw [Vol.get_set]
    split_ifs <;> first | rfl | (exfalso; omega) | (simp_all)
  have mid : ∀ i, i < m → ∀ (v : Vol α m n p) a b c,
      (loopUp 0 n (fun j conv =>
        loopUp 0 p (fun k conv => conv.set i j k (u.get i j k)) conv) v).get a b c =
        if (a = i ∧ c < p) ∧ 0 ≤ b ∧ b < n then u.get a b c else v.get a b c := by
    intro i hi v
    apply loopUp_fill _ (fun a _ c => a = i ∧ c < p) (fun _ b _ => b) (fun a b c => u.get a b c)
    intro j w _ hj _ a b c
    rw [inner i j hi hj]
    split_ifs <;> first | rfl | (exfalso; omega)
  have outer : ∀ (v : Vol α m n p) a b c,
      (copy_u u v).get a b c =
        if (b < n ∧ c < p) ∧ 0 ≤ a ∧ a < m then u.get a b c else v.get a b c := by
    intro v
    apply loopUp_fill _ (fun _ b c => b < n ∧ c < p) (fun a _ _ => a) (fun a b c => u.get a b c)
    intro i w _ hi _ a b c
    rw [mid i hi]
    split_ifs <;> first | rfl | (exfalso; omega)
  apply Vol.ext_get
  intro i j k hi hj hk
  rw [outer]
  simp [hi, hj, hk]

end DeconvFacts

/-! ## Structure of `rician_deconv3`: frame, iteration count, scratch arrays -/

section IterationFacts
variable {α : Type} [Zero α] [One α] [Add α] [Sub α] [Mul α] [Div α] [NatCast α]
  {m n p : Nat}

theorem rician_iteration_u (sqrt : α → α) (f : Vol α m n p) (Ksigma sigma2 gamma : α)
    (s : DState α m n p) :
    (rician_iteration sqrt f Ksigma sigma2 gamma s).u =
      update_u gamma (diffusivity sqrt s.u s.g)
        (gaussian_blur sqrt (residual f sigma2 (gaussian_blur sqrt s.u Ksigma)) Ksigma) s.u := by
  simp [rician_iteration, call_blur_conv, copy_u_eq]

theorem rician_iteration_g (sqrt : α → α) (f : Vol α m n p) (Ksigma sigma2 gamma : α)
    (s : DState α m n p) :
    (rician_iteration sqrt f Ksigma sigma2 gamma s).g = diffusivity sqrt s.u s.g := by
  simp [rician_iteration, call_blur_conv]

theorem rician_iteration_conv (sqrt : α → α) (f : Vol α m n p) (Ksigma sigma2 gamma : α)
    (s : DState α m n p) :
    (rician_iteration sqrt f Ksigma sigma2 gamma s).conv =
      gaussian_blur sqrt (residual f sigma2 (gaussian_blur sqrt s.u Ksigma)) Ksigma := by
  simp [rician_iteration, call_blur_conv, copy_u_eq]

theorem rician_iteration_calls (sqrt : α → α) (f : Vol α m n p) (Ksigma sigma2 gamma : α)
    (s : DState α m n p) :
    (rician_iteration sqrt f Ksigma sigma2 gamma s).blur_calls =
      s.blur_calls ++ [(Buffer.conv, Ksigma), (Buffer.conv, Ksigma)] := by
  simp [rician_iteration, call_blur_conv]

theorem rician_deconv3_iterate (sqrt : α → α) (u f g conv : Vol α m n p)
    (Ksigma sigma lambda : α) :
    rician_deconv3 sqrt u f g conv Ksigma sigma lambda =
      (rician_iteration sqrt f Ksigma (SQR sigma) (lambda / SQR sigma))^[MAX_ITERATIONS]
        { u := u, g := g, conv := conv, blur_calls := [] } := by
  simp only [rician_deconv3]
  rw [loopUp_iterate]
  rfl

end IterationFacts

section DeconvClaims
variable {α : Type} [Field α] {m n p : Nat}

/-- C3: across one full call of `rician_deconv3`, every voxel of `u` that is not
interior (index `0` or `extent - 1` along at least one axis) holds exactly the value it
held on entry; only voxels with all three indices in `[1, extent - 2]` can change. -/
theorem C3_boundary_untouched (sqrt : α → α) (u f g conv : Vol α m n p)
    (Ksigma sigma lambda : α) (i j k : Nat) (h : ¬ interior m n p i j k) :
    (rician_deconv3 sqrt u f g conv Ksigma sigma lambda).u.get i j k = u.get i j k := by
  simp only [rician_deconv3]
  refine loopUp_preserve 1 (MAX_ITERATIONS + 1) _
    (fun s : DState α m n p => s.u.get i j k = u.get i j k) _ rfl ?_
  intro _ s _ _ hs
  show (rician_iteration sqrt f Ksigma (SQR sigma) (lambda / SQR sigma) s).u.get i j k = _
  rw [rician_iteration_u, update_u_get, sweep_content, if_neg h, hs]

/-- Witness for C3 on the reference extents: the voxel `(0, 5, 7)` of the face
`i = 0` keeps its value. -/
theorem C3_boundary_untouched_witness :
    ¬ interior M N P 0 5 7 ∧
    (rician_deconv3 Real.sqrt (Vol.const M N P 2) (Vol.const M N P 3) (Vol.const M N P 0)
      (Vol.const M N P 0) 6 1 (1 / 10)).u.get 0 5 7 = (Vol.const M N P (2 : ℝ)).get 0 5 7 :=
  ⟨by decide, C3_boundary_untouched Real.sqrt _ _ _ _ _ _ _ 0 5 7 (by decide)⟩

/-- C5: in every iteration the array `g` left by the iteration is the one computed by
the diffusivity loop from the `u` the iteration started with; at every interior voxel it
is `1 / sqrt(EPSILON + sum over the six face neighbours of (u_center - u_neighbour)^2)`
with the neighbours read directly from `u` (the rolling window yields the same values),
and every other voxel of `g` is not written. -/
theorem C5_diffusivity (sqrt : α → α) (f : Vol α m n p) (Ksigma sigma2 gamma : α)
    (s : DState α m n p) (i j k : Nat) :
    (rician_iteration sqrt f Ksigma sigma2 gamma s).g = diffusivity sqrt s.u s.g ∧
    (diffusivity sqrt s.u s.g).get i j k =
      if interior m n p i j k then
        1 / sqrt (EPSILON α +
          SQR (s.u.get i j k - s.u.get i (j + 1) k) +
          SQR (s.u.get i j k - s.u.get i (j - 1) k) +
          SQR (s.u.get i j k - s.u.get (i - 1) j k) +
          SQR (s.u.get i j k - s.u.get (i + 1) j k) +
          SQR (s.u.get i j k - s.u.get i j (k - 1)) +
          SQR (s.u.get i j k - s.u.get i j (k + 1)))
      else s.g.get i j k :=
  ⟨rician_iteration_g sqrt f Ksigma sigma2 gamma s, diffusivity_get sqrt s.u s.g i j k⟩

/-- C6: `rician_deconv3` is exactly `MAX_ITERATIONS = 10` successive applications of the
same iteration step, whatever the data; each iteration calls `gaussian_blur` exactly
twice, both times on `conv` with `Ksigma`, so one call of `rician_deconv3` makes exactly
`20` calls of `gaussian_blur`, all on `conv` and none on `u`, `f` or `g`. -/
theorem C6_fixed_iterations (sqrt : α → α) (u f g conv : Vol α m n p)
    (Ksigma sigma lambda : α) :
    rician_deconv3 sqrt u f g conv Ksigma sigma lambda =
      (rician_iteration sqrt f Ksigma (SQR sigma) (lambda / SQR sigma))^[10]
        { u := u, g := g, conv := conv, blur_calls := [] } ∧
    (∀ s : DState α m n p,
      (rician_iteration sqrt f Ksigma (SQR sigma) (lambda / SQR sigma) s).blur_calls =
        s.blur_calls ++ [(Buffer.conv, Ksigma), (Buffer.conv, Ksigma)]) ∧
    (rician_deconv3 sqrt u f g conv Ksigma sigma lambda).blur_calls =
      List.replicate 20 (Buffer.conv, Ksigma) := by
  refine ⟨rician_deconv3_iterate sqrt u f g conv Ksigma sigma lambda,
    rician_iteration_calls sqrt f Ksigma _ _, ?_⟩
  rw [rician_deconv3_iterate]
  simp [MAX_ITERATIONS, Function.iterate_succ_apply', rician_iteration_calls]

theorem rician_iteration_congr (sqrt : α → α) (f : Vol α m n p) (Ksigma sigma2 gamma : α)
    (s t : DState α m n p) (hu : s.u = t.u)
    (hg : diffusivity sqrt s.u s.g = diffusivity sqrt t.u t.g)
    (hc : s.blur_calls = t.blur_calls) :
    rician_iteration sqrt f Ksigma sigma2 gamma s =
      rician_iteration sqrt f Ksigma sigma2 gamma t := by
  have e1 := rician_iteration_u sqrt f Ksigma sigma2 gamma s
  have e2 := rician_iteration_u sqrt f Ksigma sigma2 gamma t
  have e3 := rician_iteration_g sqrt f Ksigma sigma2 gamma s
  have e4 := rician_iteration_g sqrt f Ksigma sigma2 gamma t
  have e5 := rician_iteration_conv sqrt f Ksigma sigma2 gamma s
  have e6 := rician_iteration_conv sqrt f Ksigma sigma2 gamma t
  have e7 := rician_iteration_calls sqrt f Ksigma sigma2 gamma s
  have e8 := rician_iteration_calls sqrt f Ksigma sigma2 gamma t
  rw [hg, hu] at e1
  rw [hg] at e3
  rw [hu] at e5
  rw [hc] at e7
  cases hs : rician_iteration sqrt f Ksigma sigma2 gamma s
  cases ht : rician_iteration sqrt f Ksigma sigma2 gamma t
  rw [hs] at e1 e3 e5 e7
  rw [ht] at e2 e4 e6 e8
  simp only at e1 e2 e3 e4 e5 e6 e7 e8
  simp only [DState.mk.injEq]
  exact ⟨e1.trans e2.symm, e3.trans e4.symm, e5.trans e6.symm, e7.trans e8.symm⟩

/-- C7 (amended): the result of `rician_deconv3` does not depend on what the interior of
`g` contained on entry: two initial arrays `g1`, `g2` that agree on every voxel with an
index `0` or `extent - 1` along some axis lead to the same final `u` (and the same final
`g` and `conv`). -/
theorem C7_interior_of_g_irrelevant (sqrt : α → α) (u f g1 g2 conv : Vol α m n p)
    (Ksigma sigma lambda : α)
    (h : ∀ i j k, i < m → j < n → k < p → ¬ interior m n p i j k →
      g1.get i j k = g2.get i j k) :
    rician_deconv3 sqrt u f g1 conv Ksigma sigma lambda =
      rician_deconv3 sqrt u f g2 conv Ksigma sigma lambda := by
  rw [rician_deconv3_iterate, rician_deconv3_iterate]
  show (rician_iteration sqrt f Ksigma (SQR sigma) (lambda / SQR sigma))^[9]
      (rician_iteration sqrt f Ksigma (SQR sigma) (lambda / SQR sigma) _) =
    (rician_iteration sqrt f Ksigma (SQR sigma) (lambda / SQR sigma))^[9]
      (rician_iteration sqrt f Ksigma (SQR sigma) (lambda / SQR sigma) _)
  congr 1
  refine rician_iteration_congr _ _ _ _ _ ⟨u, g1, conv, []⟩ ⟨u, g2, conv, []⟩ rfl ?_ rfl
  apply Vol.ext_get
  intro i j k hi hj hk
  simp only [diffusivity_get]
  split_ifs with hint
  · rfl
  · exact h i j k hi hj hk hint

/-- Witness for C7 (amended): two initial `g` that differ at the interior voxel
`(1, 1, 1)` only. -/
theorem C7_interior_of_g_irrelevant_witness :
    (∀ i j k, i < M → j < N → k < P → ¬ interior M N P i j k →
      (Vol.const M N P (0 : ℝ)).get i j k = ((Vol.const M N P (0 : ℝ)).set 1 1 1 5).get i j k) ∧
    rician_deconv3 Real.sqrt (Vol.const M N P 2) (Vol.const M N P 3) (Vol.const M N P 0)
        (Vol.const M N P 0) 6 1 (1 / 10) =
      rician_deconv3 Real.sqrt (Vol.const M N P 2) (Vol.const M N P 3)
        ((Vol.const M N P (0 : ℝ)).set 1 1 1 5) (Vol.const M N P 0) 6 1 (1 / 10) :=
  have hyp : ∀ i j k, i < M → j < N → k < P → ¬ interior M N P i j k →
      (Vol.const M N P (0 : ℝ)).get i j k =
        ((Vol.const M N P (0 : ℝ)).set 1 1 1 5).get i j k := by
    intro i j k _ _ _ hint
    rw [Vol.get_set, if_neg]
    rintro ⟨rfl, rfl, rfl, _⟩
    exact hint (by decide)
  ⟨hyp, C7_interior_of_g_irrelevant Real.sqrt _ _ _ _ _ _ _ _ hyp⟩

/-- C8: the result of `rician_deconv3` does not depend on what `conv` contained on
entry: any two initial arrays `conv1`, `conv2` lead to the same final `u`, the same final
`conv` (and the same final `g`), because every voxel of `conv` is overwritten with `u`
before it is first read. -/
theorem C8_conv_is_scratch (sqrt : α → α) (u f g conv1 conv2 : Vol α m n p)
    (Ksigma sigma lambda : α) :
    rician_deconv3 sqrt u f g conv1 Ksigma sigma lambda =
      rician_deconv3 sqrt u f g conv2 Ksigma sigma lambda := by
  rw [rician_deconv3_iterate, rician_deconv3_iterate]
  show (rician_iteration sqrt f Ksigma (SQR sigma) (lambda / SQR sigma))^[9]
      (rician_iteration sqrt f Ksigma (SQR sigma) (lambda / SQR sigma) _) =
    (rician_iteration sqrt f Ksigma (SQR sigma) (lambda / SQR sigma))^[9]
      (rician_iteration sqrt f Ksigma (SQR sigma) (lambda / SQR sigma) _)
  congr 1
  exact rician_iteration_congr _ _ _ _ _ ⟨u, g, conv1, []⟩ ⟨u, g, conv2, []⟩ rfl rfl rfl

end DeconvClaims

/-! ## Semantics of the loops of `gaussian_blur` -/

section LineFacts
variable {α : Type} [Field α]

theorem line_bwd_last (coef BS : α) (len : Nat) (y : Nat → α) (i : Nat) (h : i + 1 = len) :
    line_bwd coef BS len y i = y i * BS := by
  have e : len - 1 - i = 0 := by omega
  have e2 : len - 1 = i := by omega
  simp [line_bwd, e, line_bwd_from_end, e2]

theorem line_bwd_step (coef BS : α) (len : Nat) (y : Nat → α) (i : Nat) (h : i + 1 < len) :
    line_bwd coef BS len y i = y i + coef * line_bwd coef BS len y (i + 1) := by
  have e : len - 1 - i = (len - 1 - (i + 1)) + 1 := by omega
  have e2 : len - 1 - (len - 1 - (i + 1) + 1) = i := by omega
  simp only [line_bwd]
  rw [e, line_bwd_from_end, e2]

theorem line_fwd_congr (nu BS : α) (x y : Nat → α) (i : Nat) (h : ∀ t, t ≤ i → x t = y t) :
    line_fwd nu BS x i = line_fwd nu BS y i := by
  induction i with
  | zero => simp [line_fwd, h 0 (le_refl _)]
  | succ i ih =>
    simp only [line_fwd]
    rw [h (i + 1) (le_refl _), ih (fun t ht => h t (by omega))]

theorem line_bwd_congr (coef BS : α) (len : Nat) (x y : Nat → α)
    (h : ∀ t, t < len → x t = y t) (i : Nat) (hi : i < len) :
    line_bwd coef BS len x i = line_bwd coef BS len y i := by
  have key : ∀ d, d < len → line_bwd_from_end coef BS len x d =
      line_bwd_from_end coef BS len y d := by
    intro d
    induction d with
    | zero => intro _; simp [line_bwd_from_end, h (len - 1) (by omega)]
    | succ d ih =>
      intro hd
      simp only [line_bwd_from_end]
      rw [h _ (by omega), ih (by omega)]
  exact key _ (by omega)

end LineFacts

section PassFacts
variable {α : Type} [Field α] {m n p : Nat}

theorem filter_down_up_line (nu BS : α) (j k : Nat) (hj : j < n) (hk : k < p)
    (u : Vol α m n p) (a b c : Nat) :
    (loopDown (fun i u => u.set i j k (u.get i j k + u.get (i + 1) j k)) (m - 1)
      ((loopUp 1 m (fun i u => u.set i j k (u.get i j k + nu * u.get (i - 1) j k))
        (u.set 0 j k (u.get 0 j k * BS))).set (m - 1) j k
        ((loopUp 1 m (fun i u => u.set i j k (u.get i j k + nu * u.get (i - 1) j k))
          (u.set 0 j k (u.get 0 j k * BS))).get (m - 1) j k * BS))).get a b c =
      if (b = j ∧ c = k) ∧ a < m then pass_axis1 nu 1 BS m (fun a b c => u.get a b c) a b c
      else u.get a b c := by
  -- forward pass
  have fwd : ∀ a b c,
      (loopUp 1 m (fun i u => u.set i j k (u.get i j k + nu * u.get (i - 1) j k))
        (u.set 0 j k (u.get 0 j k * BS))).get a b c =
      if (b = j ∧ c = k) ∧ a < m then line_fwd nu BS (fun t => u.get t j k) a
      else u.get a b c := by
    intro a b c
    have := loopUp_fill (fun i (u : Vol α m n p) =>
        u.set i j k (u.get i j k + nu * u.get (i - 1) j k))
      (fun _ b c => b = j ∧ c = k) (fun a _ _ => a)
      (fun a _ _ => line_fwd nu BS (fun t => u.get t j k) a) 1 m
      (u.set 0 j k (u.get 0 j k * BS)) ?_ a b c
    · beta_reduce at this
      rw [this, Vol.get_set]
      by_cases e : (b = j ∧ c = k) ∧ a < m
      · obtain ⟨⟨rfl, rfl⟩, ha⟩ := e
        by_cases h0 : a = 0
        · subst h0
          rw [if_neg (by omega), if_pos ⟨rfl, rfl, rfl, ha, hj, hk⟩, if_pos ⟨⟨rfl, rfl⟩, ha⟩]
          rfl
        · rw [if_pos ⟨⟨rfl, rfl⟩, by omega, ha⟩, if_pos ⟨⟨rfl, rfl⟩, ha⟩]
      · rw [if_neg (fun h => e ⟨h.1, h.2.2⟩), if_neg (fun h => e ⟨⟨h.2.1, h.2.2.1⟩, by omega⟩),
          if_neg e]
    · intro i v h1 h2 hv a b c
      beta_reduce at hv ⊢
      rw [Vol.get_set]
      by_cases e : a = i ∧ b = j ∧ c = k
      · obtain ⟨rfl, rfl, rfl⟩ := e
        rw [if_pos ⟨rfl, rfl, rfl, h2, hj, hk⟩, if_pos ⟨⟨rfl, rfl⟩, rfl⟩]
        have hcur : v.get a b c = u.get a b c := by
          rw [hv, if_neg (by omega), Vol.get_set, if_neg (by omega)]
        have hprev : v.get (a - 1) b c = line_fwd nu BS (fun t => u.get t b c) (a - 1) := by
          rw [hv]
          by_cases h0 : a - 1 = 0
          · rw [h0, if_neg (by omega), Vol.get_set, if_pos ⟨rfl, rfl, rfl, by omega, hj, hk⟩]
            rfl
          · rw [if_pos ⟨⟨rfl, rfl⟩, by omega, by omega⟩]
        rw [hcur, hprev]
        obtain ⟨i, rfl⟩ : ∃ i, a = i + 1 := ⟨a - 1, by omega⟩
        simp only [line_fwd, Nat.add_sub_cancel]
      · rw [if_neg (fun h => e ⟨h.1, h.2.1, h.2.2.1⟩), if_neg (fun h => e ⟨h.2, h.1.1, h.1.2⟩)]
  generalize loopUp 1 m (fun i u => u.set i j k (u.get i j k + nu * u.get (i - 1) j k))
        (u.set 0 j k (u.get 0 j k * BS)) = u2 at fwd ⊢
  have hline : ∀ t, t < m → u2.get t j k = line_fwd nu BS (fun t => u.get t j k) t := by
    intro t ht
    rw [fwd, if_pos ⟨⟨rfl, rfl⟩, ht⟩]
  have := loopDown_fill (fun i (u : Vol α m n p) => u.set i j k (u.get i j k + u.get (i + 1) j k))
      (fun _ b c => b = j ∧ c = k) (fun a _ _ => a)
      (fun a _ _ => line_bwd 1 BS m (line_fwd nu BS (fun t => u.get t j k)) a) (m - 1)
      (u2.set (m - 1) j k (u2.get (m - 1) j k * BS)) ?_ a b c
  · beta_reduce at this
    rw [this, Vol.get_set]
    by_cases e : (b = j ∧ c = k) ∧ a < m
    · obtain ⟨⟨rfl, rfl⟩, ha⟩ := e
      have hr : (if (b = b ∧ c = c) ∧ a < m
          then pass_axis1 nu 1 BS m (fun a b c => u.get a b c) a b c else u.get a b c) =
          line_bwd 1 BS m (line_fwd nu BS (fun t => u.get t b c)) a := by
        rw [if_pos ⟨⟨rfl, rfl⟩, ha⟩]; rfl
      rw [hr]
      by_cases hl : a + 1 = m
      · have e1 : m - 1 = a := by omega
        rw [e1, hline a ha, line_bwd_last _ _ _ _ _ hl]
        split_ifs <;> first | rfl | (exfalso; omega)
      · split_ifs <;> first | rfl | (exfalso; omega)
    · rw [if_neg e, fwd a b c, if_neg e]
      split_ifs <;> first | rfl | (exfalso; omega)
  · intro i v h1 hv a b c
    beta_reduce at hv ⊢
    rw [Vol.get_set]
    by_cases e : a = i ∧ b = j ∧ c = k
    · obtain ⟨rfl, rfl, rfl⟩ := e
      rw [if_pos ⟨rfl, rfl, rfl, by omega, hj, hk⟩, if_pos ⟨⟨rfl, rfl⟩, rfl⟩]
      have hcur : v.get a b c = line_fwd nu BS (fun t => u.get t b c) a := by
        rw [hv, if_neg (by omega), Vol.get_set, if_neg (by omega), hline a (by omega)]
      have hnext : v.get (a + 1) b c =
          line_bwd 1 BS m (line_fwd nu BS (fun t => u.get t b c)) (a + 1) := by
        rw [hv]
        by_cases hl : a + 1 + 1 = m
        · have e1 : m - 1 = a + 1 := by omega
          rw [e1, Vol.get_set, hline (a + 1) (by omega), line_bwd_last _ _ _ _ _ hl]
          split_ifs <;> first | rfl | (exfalso; omega)
        · split_ifs <;> first | rfl | (exfalso; omega)
      rw [hcur, hnext, line_bwd_step _ _ _ _ a (by omega), one_mul]
    · rw [if_neg (fun h => e ⟨h.1, h.2.1, h.2.2.1⟩), if_neg (fun h => e ⟨h.2, h.1.1, h.1.2⟩)]

theorem filter_down_up_get (nu BS : α) (k : Nat) (hk : k < p) (u : Vol α m n p)
    (a b c : Nat) :
    (filter_down_up nu BS k u).get a b c =
      if (c = k ∧ a < m) ∧ 0 ≤ b ∧ b < n
      then pass_axis1 nu 1 BS m (fun a b c => u.get a b c) a b c else u.get a b c := by
  unfold filter_down_up
  apply loopUp_fill _ (fun a _ c => c = k ∧ a < m) (fun _ b _ => b)
    (fun a b c => pass_axis1 nu 1 BS m (fun a b c => u.get a b c) a b c)
  intro j v _ hj hv a b c
  beta_reduce at hv ⊢
  rw [filter_down_up_line nu BS j k hj hk v a b c]
  by_cases e : (b = j ∧ c = k) ∧ a < m
  · obtain ⟨⟨rfl, rfl⟩, ha⟩ := e
    rw [if_pos ⟨⟨rfl, rfl⟩, ha⟩, if_pos ⟨⟨rfl, ha⟩, rfl⟩]
    simp only [pass_axis1]
    apply line_bwd_congr _ _ _ _ _ _ _ ha
    intro t ht
    apply line_fwd_congr
    intro s hs
    rw [hv s b c, if_neg (by omega)]
  · rw [if_neg e, if_neg (fun h => e ⟨⟨h.2, h.1.1⟩, h.1.2⟩)]

end PassFacts
section PassFacts2
variable {α : Type} [Field α] {m n p : Nat}

/-- A loop over `i` that rewrites the row `(·, j, k)` sample by sample. -/
theorem fill_row (j k : Nat) (hj : j < n) (hk : k < p) (F : Vol α m n p → Nat → α)
    (G : Nat → α) (v : Vol α m n p)
    (hF : ∀ i w, i < m →
      (∀ a b c, ¬ ((b = j ∧ c = k) ∧ a < i) → w.get a b c = v.get a b c) → F w i = G i)
    (a b c : Nat) :
    (loopUp 0 m (fun i u => u.set i j k (F u i)) v).get a b c =
      if (b = j ∧ c = k) ∧ a < m then G a else v.get a b c := by
  have := loopUp_fill (fun i (u : Vol α m n p) => u.set i j k (F u i))
    (fun _ b c => b = j ∧ c = k) (fun a _ _ => a) (fun a _ _ => G a) 0 m v ?_ a b c
  · beta_reduce at this
    rw [this]
    split_ifs <;> first | rfl | (exfalso; omega)
  · intro i w _ h2 hw a b c
    beta_reduce at hw ⊢
    rw [Vol.get_set]
    by_cases e : a = i ∧ b = j ∧ c = k
    · obtain ⟨rfl, rfl, rfl⟩ := e
      rw [if_pos ⟨rfl, rfl, rfl, h2, hj, hk⟩, if_pos ⟨⟨rfl, rfl⟩, rfl⟩]
      apply hF a w h2
      intro a' b' c' hn
      rw [hw a' b' c', if_neg]
      omega
    · rw [if_neg (fun h => e ⟨h.1, h.2.1, h.2.2.1⟩), if_neg (fun h => e ⟨h.2, h.1.1, h.1.2⟩)]

/-- A double loop over `j` and `i` that rewrites the plane `(·, ·, k)` sample by sample,
each new sample computed from the old sample at the same place and from other planes. -/
theorem fill_plane (k : Nat) (hk : k < p) (F : Vol α m n p → Nat → Nat → α)
    (G : Nat → Nat → α) (v : Vol α m n p)
    (hF : ∀ i j w, i < m → j < n →
      (∀ a b c, c ≠ k ∨ (a = i ∧ b = j) → w.get a b c = v.get a b c) → F w i j = G i j)
    (a b c : Nat) :
    (loopUp 0 n (fun j u => loopUp 0 m (fun i u => u.set i j k (F u i j)) u) v).get a b c =
      if c = k ∧ a < m ∧ b < n then G a b else v.get a b c := by
  have := loopUp_fill (fun j (u : Vol α m n p) =>
      loopUp 0 m (fun i u => u.set i j k (F u i j)) u)
    (fun a _ c => c = k ∧ a < m) (fun _ b _ => b) (fun a b _ => G a b) 0 n v ?_ a b c
  · beta_reduce at this
    rw [this]
    split_ifs <;> first | rfl | (exfalso; omega)
  · intro j w _ h2 hw a b c
    beta_reduce at hw ⊢
    rw [fill_row j k h2 hk (fun u i => F u i j) (fun i => G i j) w ?_ a b c]
    · by_cases e : (b = j ∧ c = k) ∧ a < m
      · obtain ⟨⟨rfl, rfl⟩, ha⟩ := e
        rw [if_pos ⟨⟨rfl, rfl⟩, ha⟩, if_pos ⟨⟨rfl, ha⟩, rfl⟩]
      · rw [if_neg e, if_neg (fun h => e ⟨⟨h.2, h.1.1⟩, h.1.2⟩)]
    · intro i w' hi hw'
      apply hF i j w' hi h2
      intro a' b' c' hn
      rw [hw' a' b' c' (by omega), hw a' b' c', if_neg]
      omega

theorem filter_right_get (nu BS : α) (k : Nat) (hk : k < p) (hn : 0 < n) (u : Vol α m n p)
    (a b c : Nat) :
    (filter_right nu BS k u).get a b c =
      if (c = k ∧ a < m) ∧ b < n then line_fwd nu BS (fun t => u.get a t k) b
      else u.get a b c := by
  unfold filter_right
  simp only
  have s1 : ∀ a b c,
      (loopUp 0 m (fun i u => u.set i 0 k (u.get i 0 k * BS)) u).get a b c =
        if (b = 0 ∧ c = k) ∧ a < m then u.get a 0 k * BS else u.get a b c := by
    intro a b c
    apply fill_row 0 k hn hk (fun u i => u.get i 0 k * BS) (fun i => u.get i 0 k * BS) u
    intro i w _ hw
    rw [hw i 0 k (by omega)]
  generalize loopUp 0 m (fun i u => u.set i 0 k (u.get i 0 k * BS)) u = u1 at s1 ⊢
  have := loopUp_fill (fun j (u : Vol α m n p) =>
      loopUp 0 m (fun i u => u.set i j k (u.get i j k + nu * u.get i (j - 1) k)) u)
    (fun a _ c => c = k ∧ a < m) (fun _ b _ => b)
    (fun a b _ => line_fwd nu BS (fun t => u.get a t k) b) 1 n u1 ?_ a b c
  · beta_reduce at this
    rw [this, s1]
    by_cases e : (c = k ∧ a < m) ∧ b < n
    · obtain ⟨⟨rfl, ha⟩, hb⟩ := e
      by_cases h0 : b = 0
      · subst h0
        rw [if_neg (by omega), if_pos ⟨⟨rfl, rfl⟩, ha⟩, if_pos ⟨⟨rfl, ha⟩, hb⟩]
        rfl
      · rw [if_pos ⟨⟨rfl, ha⟩, by omega, hb⟩, if_pos ⟨⟨rfl, ha⟩, hb⟩]
    · rw [if_neg e]
      split_ifs <;> first | rfl | (exfalso; omega)
  · intro j w h1 h2 hw a b c
    beta_reduce at hw ⊢
    rw [fill_row j k h2 hk (fun u i => u.get i j k + nu * u.get i (j - 1) k)
      (fun i => line_fwd nu BS (fun t => u.get i t k) j) w ?_ a b c]
    · by_cases e : (b = j ∧ c = k) ∧ a < m
      · obtain ⟨⟨rfl, rfl⟩, ha⟩ := e
        rw [if_pos ⟨⟨rfl, rfl⟩, ha⟩, if_pos ⟨⟨rfl, ha⟩, rfl⟩]
      · rw [if_neg e, if_neg (fun h => e ⟨⟨h.2, h.1.1⟩, h.1.2⟩)]
    · intro i w' hi hw'
      beta_reduce
      have hcur : w'.get i j k = u.get i j k := by
        rw [hw' i j k (by omega), hw i j k, if_neg (by omega), s1, if_neg (by omega)]
      have hprev : w'.get i (j - 1) k = line_fwd nu BS (fun t => u.get i t k) (j - 1) := by
        rw [hw' i (j - 1) k (by omega), hw i (j - 1) k]
        by_cases h0 : j - 1 = 0
        · rw [h0, if_neg (by omega), s1, if_pos ⟨⟨rfl, rfl⟩, hi⟩]
          rfl
        · rw [if_pos ⟨⟨rfl, hi⟩, by omega, by omega⟩]
      rw [hcur, hprev]
      obtain ⟨j, rfl⟩ : ∃ j', j = j' + 1 := ⟨j - 1, by omega⟩
      simp only [Nat.add_sub_cancel, line_fwd]

theorem filter_left_get (nu BS : α) (k : Nat) (hk : k < p) (hn : 0 < n) (u : Vol α m n p)
    (a b c : Nat) :
    (filter_left nu BS k u).get a b c =
      if (c = k ∧ a < m) ∧ b < n then line_bwd nu BS n (fun t => u.get a t k) b
      else u.get a b c := by
  unfold filter_left
  simp only
  have s1 : ∀ a b c,
      (loopUp 0 m (fun i u => u.set i (n - 1) k (u.get i (n - 1) k * BS)) u).get a b c =
        if (b = n - 1 ∧ c = k) ∧ a < m then u.get a (n - 1) k * BS else u.get a b c := by
    intro a b c
    apply fill_row (n - 1) k (by omega) hk (fun u i => u.get i (n - 1) k * BS)
      (fun i => u.get i (n - 1) k * BS) u
    intro i w _ hw
    rw [hw i (n - 1) k (by omega)]
  generalize loopUp 0 m (fun i u => u.set i (n - 1) k (u.get i (n - 1) k * BS)) u = u1
    at s1 ⊢
  have := loopDown_fill (fun j (u : Vol α m n p) =>
      loopUp 0 m (fun i u => u.set i j k (u.get i j k + nu * u.get i (j + 1) k)) u)
    (fun a _ c => c = k ∧ a < m) (fun _ b _ => b)
    (fun a b _ => line_bwd nu BS n (fun t => u.get a t k) b) (n - 1) u1 ?_ a b c
  · beta_reduce at this
    rw [this, s1]
    by_cases e : (c = k ∧ a < m) ∧ b < n
    · obtain ⟨⟨rfl, ha⟩, hb⟩ := e
      by_cases h0 : b + 1 = n
      · have e1 : n - 1 = b := by omega
        rw [e1, if_neg (by omega), if_pos ⟨⟨rfl, rfl⟩, ha⟩, if_pos ⟨⟨rfl, ha⟩, hb⟩,
          line_bwd_last _ _ _ _ b h0]
      · rw [if_pos ⟨⟨rfl, ha⟩, by omega⟩, if_pos ⟨⟨rfl, ha⟩, hb⟩]
    · rw [if_neg e]
      split_ifs <;> first | rfl | (exfalso; omega)
  · intro j w h1 hw a b c
    beta_reduce at hw ⊢
    rw [fill_row j k (by omega) hk (fun u i => u.get i j k + nu * u.get i (j + 1) k)
      (fun i => line_bwd nu BS n (fun t => u.get i t k) j) w ?_ a b c]
    · by_cases e : (b = j ∧ c = k) ∧ a < m
      · obtain ⟨⟨rfl, rfl⟩, ha⟩ := e
        rw [if_pos ⟨⟨rfl, rfl⟩, ha⟩, if_pos ⟨⟨rfl, ha⟩, rfl⟩]
      · rw [if_neg e, if_neg (fun h => e ⟨⟨h.2, h.1.1⟩, h.1.2⟩)]
    · intro i w' hi hw'
      beta_reduce
      have hcur : w'.get i j k = u.get i j k := by
        rw [hw' i j k (by omega), hw i j k, if_neg (by omega), s1, if_neg (by omega)]
      have hnext : w'.get i (j + 1) k = line_bwd nu BS n (fun t => u.get i t k) (j + 1) := by
        rw [hw' i (j + 1) k (by omega), hw i (j + 1) k]
        by_cases h0 : j + 1 + 1 = n
        · have e1 : n - 1 = j + 1 := by omega
          rw [if_neg (by omega), s1, e1, if_pos ⟨⟨rfl, rfl⟩, hi⟩,
            line_bwd_last _ _ _ _ (j + 1) h0]
        · rw [if_pos ⟨⟨rfl, hi⟩, by omega, by omega⟩]
      rw [hcur, hnext, line_bwd_step _ _ _ _ j (by omega)]

end PassFacts2
section PassFacts3
variable {α : Type} [Field α] {m n p : Nat}

theorem filter_out_get (nu BS : α) (hp : 0 < p) (u : Vol α m n p) (a b c : Nat) :
    (filter_out nu BS u).get a b c =
      if (a < m ∧ b < n) ∧ c < p then line_fwd nu BS (fun t => u.get a b t) c
      else u.get a b c := by
  unfold filter_out
  simp only
  have s1 : ∀ a b c,
      (loopUp 0 n (fun j u =>
        loopUp 0 m (fun i u => u.set i j 0 (u.get i j 0 * BS)) u) u).get a b c =
        if c = 0 ∧ a < m ∧ b < n then u.get a b 0 * BS else u.get a b c := by
    intro a b c
    apply fill_plane 0 hp (fun u i j => u.get i j 0 * BS) (fun i j => u.get i j 0 * BS) u
    intro i j w _ _ hw
    rw [hw i j 0 (by omega)]
  generalize loopUp 0 n (fun j u =>
        loopUp 0 m (fun i u => u.set i j 0 (u.get i j 0 * BS)) u) u = u1 at s1 ⊢
  have := loopUp_fill (fun k (u : Vol α m n p) =>
      loopUp 0 n (fun j u =>
        loopUp 0 m (fun i u => u.set i j k (u.get i j k + nu * u.get i j (k - 1))) u) u)
    (fun a b _ => a < m ∧ b < n) (fun _ _ c => c)
    (fun a b c => line_fwd nu BS (fun t => u.get a b t) c) 1 p u1 ?_ a b c
  · beta_reduce at this
    rw [this, s1]
    by_cases e : (a < m ∧ b < n) ∧ c < p
    · obtain ⟨⟨ha, hb⟩, hc⟩ := e
      by_cases h0 : c = 0
      · subst h0
        rw [if_neg (by omega), if_pos ⟨rfl, ha, hb⟩, if_pos ⟨⟨ha, hb⟩, hc⟩]
        rfl
      · rw [if_pos ⟨⟨ha, hb⟩, by omega, hc⟩, if_pos ⟨⟨ha, hb⟩, hc⟩]
    · rw [if_neg e]
      split_ifs <;> first | rfl | (exfalso; omega)
  · intro k w h1 h2 hw a b c
    beta_reduce at hw ⊢
    rw [fill_plane k h2 (fun u i j => u.get i j k + nu * u.get i j (k - 1))
      (fun i j => line_fwd nu BS (fun t => u.get i j t) k) w ?_ a b c]
    · by_cases e : c = k ∧ a < m ∧ b < n
      · obtain ⟨rfl, ha, hb⟩ := e
        rw [if_pos ⟨rfl, ha, hb⟩, if_pos ⟨⟨ha, hb⟩, rfl⟩]
      · rw [if_neg e, if_neg (fun h => e ⟨h.2, h.1.1, h.1.2⟩)]
    · intro i j w' hi hj hw'
      beta_reduce
      have hcur : w'.get i j k = u.get i j k := by
        rw [hw' i j k (by omega), hw i j k, if_neg (by omega), s1, if_neg (by omega)]
      have hprev : w'.get i j (k - 1) = line_fwd nu BS (fun t => u.get i j t) (k - 1) := by
        rw [hw' i j (k - 1) (by omega), hw i j (k - 1)]
        by_cases h0 : k - 1 = 0
        · rw [h0, if_neg (by omega), s1, if_pos ⟨rfl, hi, hj⟩]
          rfl
        · rw [if_pos ⟨⟨hi, hj⟩, by omega, by omega⟩]
      rw [hcur, hprev]
      obtain ⟨k, rfl⟩ : ∃ k', k = k' + 1 := ⟨k - 1, by omega⟩
      simp only [Nat.add_sub_cancel, line_fwd]

theorem filter_in_get (nu BS : α) (hp : 0 < p) (u : Vol α m n p) (a b c : Nat) :
    (filter_in nu BS u).get a b c =
      if (a < m ∧ b < n) ∧ c < p then line_bwd nu BS p (fun t => u.get a b t) c
      else u.get a b c := by
  unfold filter_in
  simp only
  have s1 : ∀ a b c,
      (loopUp 0 n (fun j u =>
        loopUp 0 m (fun i u => u.set i j (p - 1) (u.get i j (p - 1) * BS)) u) u).get a b c =
        if c = p - 1 ∧ a < m ∧ b < n then u.get a b (p - 1) * BS else u.get a b c := by
    intro a b c
    apply fill_plane (p - 1) (by omega) (fun u i j => u.get i j (p - 1) * BS)
      (fun i j => u.get i j (p - 1) * BS) u
    intro i j w _ _ hw
    rw [hw i j (p - 1) (by omega)]
  generalize loopUp 0 n (fun j u =>
        loopUp 0 m (fun i u => u.set i j (p - 1) (u.get i j (p - 1) * BS)) u) u = u1 at s1 ⊢
  have := loopDown_fill (fun k (u : Vol α m n p) =>
      loopUp 0 n (fun j u =>
        loopUp 0 m (fun i u => u.set i j k (u.get i j k + nu * u.get i j (k + 1))) u) u)
    (fun a b _ => a < m ∧ b < n) (fun _ _ c => c)
    (fun a b c => line_bwd nu BS p (fun t => u.get a b t) c) (p - 1) u1 ?_ a b c
  · beta_reduce at this
    rw [this, s1]
    by_cases e : (a < m ∧ b < n) ∧ c < p
    · obtain ⟨⟨ha, hb⟩, hc⟩ := e
      by_cases h0 : c + 1 = p
      · have e1 : p - 1 = c := by omega
        rw [e1, if_neg (by omega), if_pos ⟨rfl, ha, hb⟩, if_pos ⟨⟨ha, hb⟩, hc⟩,
          line_bwd_last _ _ _ _ c h0]
      · rw [if_pos ⟨⟨ha, hb⟩, by omega⟩, if_pos ⟨⟨ha, hb⟩, hc⟩]
    · rw [if_neg e]
      split_ifs <;> first | rfl | (exfalso; omega)
  · intro k w h1 hw a b c
    beta_reduce at hw ⊢
    rw [fill_plane k (by omega) (fun u i j => u.get i j k + nu * u.get i j (k + 1))
      (fun i j => line_bwd nu BS p (fun t => u.get i j t) k) w ?_ a b c]
    · by_cases e : c = k ∧ a < m ∧ b < n
      · obtain ⟨rfl, ha, hb⟩ := e
        rw [if_pos ⟨rfl, ha, hb⟩, if_pos ⟨⟨ha, hb⟩, rfl⟩]
      · rw [if_neg e, if_neg (fun h => e ⟨h.2, h.1.1, h.1.2⟩)]
    · intro i j w' hi hj hw'
      beta_reduce
      have hcur : w'.get i j k = u.get i j k := by
        rw [hw' i j k (by omega), hw i j k, if_neg (by omega), s1, if_neg (by omega)]
      have hnext : w'.get i j (k + 1) = line_bwd nu BS p (fun t => u.get i j t) (k + 1) := by
        rw [hw' i j (k + 1) (by omega), hw i j (k + 1)]
        by_cases h0 : k + 1 + 1 = p
        · have e1 : p - 1 = k + 1 := by omega
          rw [if_neg (by omega), s1, e1, if_pos ⟨rfl, hi, hj⟩,
            line_bwd_last _ _ _ _ (k + 1) h0]
        · rw [if_pos ⟨⟨hi, hj⟩, by omega, by omega⟩]
      rw [hcur, hnext, line_bwd_step _ _ _ _ k (by omega)]

theorem post_scale_get (PS : α) (u : Vol α m n p) (a b c : Nat) :
    (post_scale PS u).get a b c = u.get a b c * PS := by
  have := loopUp_fill (fun k (u : Vol α m n p) =>
      loopUp 0 n (fun j u =>
        loopUp 0 m (fun i u => u.set i j k (u.get i j k * PS)) u) u)
    (fun a b _ => a < m ∧ b < n) (fun _ _ c => c)
    (fun a b c => u.get a b c * PS) 0 p u ?_ a b c
  · beta_reduce at this
    unfold post_scale
    rw [this]
    by_cases e : a < m ∧ b < n ∧ c < p
    · rw [if_pos ⟨⟨e.1, e.2.1⟩, by omega, e.2.2⟩]
    · rw [if_neg (fun h => e ⟨h.1.1, h.1.2, h.2.2⟩), Vol.get_of_not_lt _ e, zero_mul]
  · intro k w _ h2 hw a b c
    beta_reduce at hw ⊢
    rw [fill_plane k h2 (fun u i j => u.get i j k * PS) (fun i j => u.get i j k * PS) w ?_ a b c]
    · by_cases e : c = k ∧ a < m ∧ b < n
      · obtain ⟨rfl, ha, hb⟩ := e
        rw [if_pos ⟨rfl, ha, hb⟩, if_pos ⟨⟨ha, hb⟩, rfl⟩]
      · rw [if_neg e, if_neg (fun h => e ⟨h.2, h.1.1, h.1.2⟩)]
    · intro i j w' hi hj hw'
      beta_reduce
      rw [hw' i j k (by omega), hw i j k, if_neg (by omega)]

theorem blur_planes_get (nu BS : α) (hn : 0 < n) (u : Vol α m n p) (a b c : Nat)
    (ha : a < m) (hb : b < n) (hc : c < p) :
    (loopUp 0 p (fun k u =>
      filter_left nu BS k (filter_right nu BS k (filter_down_up nu BS k u))) u).get a b c =
      pass_axis2 nu nu BS n (pass_axis1 nu 1 BS m (fun a b c => u.get a b c)) a b c := by
  have := loopUp_fill (fun k (u : Vol α m n p) =>
      filter_left nu BS k (filter_right nu BS k (filter_down_up nu BS k u)))
    (fun a b _ => a < m ∧ b < n) (fun _ _ c => c)
    (fun a b c => pass_axis2 nu nu BS n (pass_axis1 nu 1 BS m (fun a b c => u.get a b c)) a b c)
    0 p u ?_ a b c
  · beta_reduce at this
    rw [this, if_pos ⟨⟨ha, hb⟩, by omega, hc⟩]
  · intro k w _ h2 hw a b c
    beta_reduce at hw ⊢
    rw [filter_left_get nu BS k h2 hn]
    by_cases e : (c = k ∧ a < m) ∧ b < n
    · obtain ⟨⟨rfl, ha⟩, hb⟩ := e
      rw [if_pos ⟨⟨rfl, ha⟩, hb⟩, if_pos ⟨⟨ha, hb⟩, rfl⟩]
      simp only [pass_axis2]
      apply line_bwd_congr _ _ _ _ _ _ _ hb
      intro t ht
      rw [filter_right_get nu BS c h2 hn, if_pos ⟨⟨rfl, ha⟩, ht⟩]
      apply line_fwd_congr
      intro s hs
      rw [filter_down_up_get nu BS c h2, if_pos ⟨⟨rfl, ha⟩, by omega, by omega⟩]
      simp only [pass_axis1]
      apply line_bwd_congr _ _ _ _ _ _ _ ha
      intro r hr
      apply line_fwd_congr
      intro q hq
      rw [hw q s c, if_neg (by omega)]
    · rw [if_neg e, if_neg (fun h => e ⟨⟨h.2, h.1.1⟩, h.1.2⟩), filter_right_get nu BS k h2 hn,
        if_neg e, filter_down_up_get nu BS k h2, if_neg (fun h => e ⟨h.1, h.2.2⟩)]

theorem blur_step_get (nu BS : α) (u : Vol α m n p) (a b c : Nat)
    (ha : a < m) (hb : b < n) (hc : c < p) :
    (blur_step nu BS u).get a b c = step_fn nu BS m n p (fun a b c => u.get a b c) a b c := by
  unfold blur_step step_fn
  simp only
  rw [filter_in_get nu BS (by omega), if_pos ⟨⟨ha, hb⟩, hc⟩]
  simp only [pass_axis3]
  apply line_bwd_congr _ _ _ _ _ _ _ hc
  intro t ht
  rw [filter_out_get nu BS (by omega), if_pos ⟨⟨ha, hb⟩, ht⟩]
  apply line_fwd_congr
  intro s hs
  rw [blur_planes_get nu BS (by omega) u a b s ha hb (by omega)]

theorem step_fn_congr (nu BS : α) (m n p : Nat) (x y : Nat → Nat → Nat → α)
    (h : ∀ a b c, a < m → b < n → c < p → x a b c = y a b c)
    (a b c : Nat) (ha : a < m) (hb : b < n) (hc : c < p) :
    step_fn nu BS m n p x a b c = step_fn nu BS m n p y a b c := by
  simp only [step_fn, pass_axis3, pass_axis2, pass_axis1]
  apply line_bwd_congr _ _ _ _ _ _ _ hc
  intro t ht
  apply line_fwd_congr
  intro s hs
  apply line_bwd_congr _ _ _ _ _ _ _ hb
  intro t2 ht2
  apply line_fwd_congr
  intro s2 hs2
  apply line_bwd_congr _ _ _ _ _ _ _ ha
  intro t3 ht3
  apply line_fwd_congr
  intro s3 hs3
  exact h s3 s2 s (by omega) (by omega) (by omega)

theorem blur_steps_get (nu BS : α) (u : Vol α m n p) (cnt : Nat) (a b c : Nat)
    (ha : a < m) (hb : b < n) (hc : c < p) :
    ((blur_step nu BS)^[cnt] u).get a b c =
      ((step_fn nu BS m n p)^[cnt] (fun a b c => u.get a b c)) a b c := by
  induction cnt generalizing a b c with
  | zero => rfl
  | succ cnt ih =>
    rw [Function.iterate_succ_apply', Function.iterate_succ_apply', blur_step_get _ _ _ _ _ _ ha hb hc]
    exact step_fn_congr nu BS m n p _ _ (fun a b c ha hb hc => ih a b c ha hb hc) a b c ha hb hc

theorem blur_PostScale_eq (sqrt : α → α) (Ksigma : α) :
    blur_PostScale sqrt Ksigma = (blur_nu sqrt Ksigma / blur_lambda Ksigma) ^ 9 := by
  unfold blur_PostScale
  rw [loopUp_iterate]
  simp only [GAUSSIAN_NUMSTEPS, Nat.sub_zero, Function.iterate_succ_apply',
    Function.iterate_zero_apply]
  ring

/-- Semantics of `gaussian_blur`: three cascade steps, then the global scale. -/
theorem gaussian_blur_get (sqrt : α → α) (u : Vol α m n p) (Ksigma : α) (a b c : Nat)
    (ha : a < m) (hb : b < n) (hc : c < p) :
    (gaussian_blur sqrt u Ksigma).get a b c =
      ((step_fn (blur_nu sqrt Ksigma) (blur_BoundaryScale sqrt Ksigma) m n p)^[3]
        (fun a b c => u.get a b c)) a b c *
      (blur_nu sqrt Ksigma / blur_lambda Ksigma) ^ 9 := by
  unfold gaussian_blur
  simp only
  rw [post_scale_get, loopUp_iterate, blur_PostScale_eq]
  congr 1
  exact blur_steps_get _ _ u 3 a b c ha hb hc

end PassFacts3

/-! ## `gaussian_blur` on constant volumes -/

section ConstLines
variable {α : Type} [Field α]

theorem line_fwd_const (nu BS c0 : α) (hBS : BS * (1 - nu) = 1) (x : Nat → α) (i : Nat)
    (h : ∀ t, t ≤ i → x t = c0) : line_fwd nu BS x i = c0 * BS := by
  induction i with
  | zero => simp [line_fwd, h 0 (le_refl _)]
  | succ i ih =>
    simp only [line_fwd]
    rw [h (i + 1) (le_refl _), ih (fun t ht => h t (by omega))]
    linear_combination (-c0) * hBS

theorem line_bwd_const (nu BS c1 : α) (hBS : BS * (1 - nu) = 1) (len : Nat) (y : Nat → α)
    (h : ∀ t, t < len → y t = c1) (i : Nat) (hi : i < len) :
    line_bwd nu BS len y i = c1 * BS := by
  have key : ∀ d, d < len → line_bwd_from_end nu BS len y d = c1 * BS := by
    intro d
    induction d with
    | zero => intro _; simp [line_bwd_from_end, h (len - 1) (by omega)]
    | succ d ih =>
      intro hd
      simp only [line_bwd_from_end]
      rw [h _ (by omega), ih (by omega)]
      linear_combination (-c1) * hBS
  exact key _ (by omega)

theorem step_fn_profile (nu BS : α) (hBS : BS * (1 - nu) = 1) (m n p : Nat)
    (x : Nat → Nat → Nat → α) (q : Nat → α)
    (h : ∀ a b c, a < m → b < n → c < p → x a b c = q a)
    (a b c : Nat) (ha : a < m) (hb : b < n) (hc : c < p) :
    step_fn nu BS m n p x a b c = line_bwd 1 BS m (line_fwd nu BS q) a * BS ^ 4 := by
  have h1 : ∀ a b c, a < m → b < n → c < p →
      pass_axis1 nu 1 BS m x a b c = line_bwd 1 BS m (line_fwd nu BS q) a := by
    intro a b c ha hb hc
    simp only [pass_axis1]
    apply line_bwd_congr _ _ _ _ _ _ _ ha
    intro t ht
    apply line_fwd_congr
    intro s hs
    exact h s b c (by omega) hb hc
  have h2 : ∀ a b c, a < m → b < n → c < p →
      pass_axis2 nu nu BS n (pass_axis1 nu 1 BS m x) a b c =
        line_bwd 1 BS m (line_fwd nu BS q) a * BS * BS := by
    intro a b c ha hb hc
    simp only [pass_axis2]
    apply line_bwd_const nu BS _ hBS n _ _ b hb
    intro t ht
    apply line_fwd_const nu BS _ hBS
    intro s hs
    exact h1 a s c ha (by omega) hc
  simp only [step_fn, pass_axis3]
  rw [line_bwd_const nu BS (line_bwd 1 BS m (line_fwd nu BS q) a * BS * BS * BS) hBS p _ _ c hc]
  · ring
  · intro t ht
    apply line_fwd_const nu BS _ hBS
    intro s hs
    exact h2 a b s ha hb (by omega)

theorem steps_const_profile (nu BS : α) (hBS : BS * (1 - nu) = 1) (m n p : Nat) (c0 : α)
    (s : Nat) (a b c : Nat) (ha : a < m) (hb : b < n) (hc : c < p) :
    ((step_fn nu BS m n p)^[s] (fun a b c => (Vol.const m n p c0).get a b c)) a b c =
      blur_profile nu BS m c0 s a := by
  induction s generalizing a b c with
  | zero => simp [blur_profile, Vol.get_const c0 ha hb hc]
  | succ s ih =>
    rw [Function.iterate_succ_apply']
    exact step_fn_profile nu BS hBS m n p _ _ (fun a b c ha hb hc => ih a b c ha hb hc)
      a b c ha hb hc

/-- The blurred constant volume, voxel by voxel, in terms of the profile. -/
theorem gaussian_blur_const_get (sqrt : α → α) (Ksigma c0 : α)
    (hBS : blur_BoundaryScale sqrt Ksigma * (1 - blur_nu sqrt Ksigma) = 1)
    (m n p : Nat) (a b c : Nat) (ha : a < m) (hb : b < n) (hc : c < p) :
    (gaussian_blur sqrt (Vol.const m n p c0) Ksigma).get a b c =
      blur_profile (blur_nu sqrt Ksigma) (blur_BoundaryScale sqrt Ksigma) m c0 3 a *
        (blur_nu sqrt Ksigma / blur_lambda Ksigma) ^ 9 := by
  rw [gaussian_blur_get sqrt _ Ksigma a b c ha hb hc,
    steps_const_profile _ _ hBS m n p c0 3 a b c ha hb hc]

theorem Vol.swap12_get {m n p : Nat} (v : Vol α m n p) (a b c : Nat) :
    (Vol.swap12 v).get a b c = v.get b a c := by
  by_cases h : b < m ∧ a < n ∧ c < p
  · rw [Vol.get_of_lt _ h.2.1 h.1 h.2.2, Vol.get_of_lt _ h.1 h.2.1 h.2.2]
    rfl
  · rw [Vol.get_of_not_lt _ h, Vol.get_of_not_lt]
    intro h2
    exact h ⟨h2.2.1, h2.1, h2.2.2⟩

end ConstLines

section OrderedLines
variable {α : Type} [LinearOrderedField α]

theorem line_fwd_lower (nu BS L : α) (hBS : BS * (1 - nu) = 1) (hnu : 0 ≤ nu) (hB : 0 ≤ BS)
    (x : Nat → α) (i : Nat) (h : ∀ t, t ≤ i → L ≤ x t) :
    L * BS ≤ line_fwd nu BS x i := by
  induction i with
  | zero =>
    simp only [line_fwd]
    exact mul_le_mul_of_nonneg_right (h 0 (le_refl _)) hB
  | succ i ih =>
    simp only [line_fwd]
    have h1 := h (i + 1) (le_refl _)
    have h2 := ih (fun t ht => h t (by omega))
    have h3 : nu * (L * BS) ≤ nu * line_fwd nu BS x i := mul_le_mul_of_nonneg_left h2 hnu
    have h4 : L * BS = L + nu * (L * BS) := by linear_combination L * hBS
    linarith

theorem line_bwd_one_lower (BS L : α) (hB : 0 ≤ BS) (hL : 0 ≤ L) (len : Nat) (y : Nat → α)
    (h : ∀ t, t < len → L ≤ y t) (i : Nat) (hi : i < len) :
    L * BS ≤ line_bwd 1 BS len y i := by
  have key : ∀ d, d < len → L * BS ≤ line_bwd_from_end 1 BS len y d := by
    intro d
    induction d with
    | zero =>
      intro _
      simp only [line_bwd_from_end]
      exact mul_le_mul_of_nonneg_right (h _ (by omega)) hB
    | succ d ih =>
      intro hd
      simp only [line_bwd_from_end, one_mul]
      have h1 := h (len - 1 - (d + 1)) (by omega)
      have h2 := ih (by omega)
      linarith
  exact key _ (by omega)

theorem blur_profile_lower (nu BS c0 : α) (hBS : BS * (1 - nu) = 1) (hnu : 0 ≤ nu)
    (hB : 0 ≤ BS) (hc : 0 ≤ c0) (m : Nat) (s : Nat) (a : Nat) (ha : a < m) :
    c0 * BS ^ (6 * s) ≤ blur_profile nu BS m c0 s a := by
  induction s generalizing a with
  | zero => simp [blur_profile]
  | succ s ih =>
    simp only [blur_profile]
    have hL : 0 ≤ c0 * BS ^ (6 * s) := mul_nonneg hc (pow_nonneg hB _)
    have h1 : ∀ t, t < m → c0 * BS ^ (6 * s) * BS ≤
        line_fwd nu BS (blur_profile nu BS m c0 s) t := by
      intro t ht
      exact line_fwd_lower nu BS _ hBS hnu hB _ t (fun r hr => ih r (by omega))
    have h2 := line_bwd_one_lower BS (c0 * BS ^ (6 * s) * BS) hB (mul_nonneg hL hB) m _ h1 a ha
    have h3 : 0 ≤ BS ^ 4 := pow_nonneg hB _
    have h4 := mul_le_mul_of_nonneg_right h2 h3
    have e : c0 * BS ^ (6 * (s + 1)) = c0 * BS ^ (6 * s) * BS * BS * BS ^ 4 := by ring
    rw [e]
    exact h4

/-- The profile after a step drops strictly from index `0` to index `1` (line 69 adds
the whole filtered sample after it, not `nu` times it). -/
theorem blur_profile_drop (nu BS c0 : α) (hBS : BS * (1 - nu) = 1) (hnu : 0 ≤ nu)
    (hB : 0 < BS) (hc : 0 < c0) (m : Nat) (hm : 2 ≤ m) (s : Nat) :
    blur_profile nu BS m c0 (s + 1) 1 + c0 * BS ^ (6 * s) * BS * BS ^ 4 ≤
      blur_profile nu BS m c0 (s + 1) 0 := by
  simp only [blur_profile]
  rw [line_bwd_step 1 BS m _ 0 (by omega), one_mul]
  have h0 := blur_profile_lower nu BS c0 hBS hnu hB.le hc.le m s 0 (by omega)
  have h1 : c0 * BS ^ (6 * s) * BS ≤ line_fwd nu BS (blur_profile nu BS m c0 s) 0 := by
    simp only [line_fwd]
    exact mul_le_mul_of_nonneg_right h0 hB.le
  have h3 : 0 ≤ BS ^ 4 := pow_nonneg hB.le _
  have h4 := mul_le_mul_of_nonneg_right h1 h3
  have e : (line_fwd nu BS (blur_profile nu BS m c0 s) 0 +
      line_bwd 1 BS m (line_fwd nu BS (blur_profile nu BS m c0 s)) (0 + 1)) * BS ^ 4 =
      line_bwd 1 BS m (line_fwd nu BS (blur_profile nu BS m c0 s)) 1 * BS ^ 4 +
        line_fwd nu BS (blur_profile nu BS m c0 s) 0 * BS ^ 4 := by ring
  rw [e]
  linarith

end OrderedLines

section RealPole

theorem blur_lambda_pos (K : ℝ) (hK : 0 < K) : 0 < blur_lambda K := by
  unfold blur_lambda GAUSSIAN_NUMSTEPS
  positivity

theorem sqrt_gt_one (K : ℝ) (hK : 0 < K) : 1 < Real.sqrt (1 + 4 * blur_lambda K) := by
  have h := blur_lambda_pos K hK
  rw [show (1 : ℝ) = Real.sqrt 1 by simp]
  apply Real.sqrt_lt_sqrt (by norm_num)
  simp only [Real.sqrt_one]
  linarith

theorem blur_nu_pos (K : ℝ) (hK : 0 < K) : 0 < blur_nu Real.sqrt K := by
  have h := blur_lambda_pos K hK
  unfold blur_nu
  apply div_pos _ (by linarith)
  have h1 : Real.sqrt (1 + 4 * blur_lambda K) < 1 + 2 * blur_lambda K := by
    rw [Real.sqrt_lt' (by linarith)]
    nlinarith
  linarith

theorem blur_nu_lt_one (K : ℝ) (hK : 0 < K) : blur_nu Real.sqrt K < 1 := by
  have h := blur_lambda_pos K hK
  have h1 := sqrt_gt_one K hK
  unfold blur_nu
  rw [div_lt_one (by linarith)]
  linarith

theorem blur_BoundaryScale_spec (K : ℝ) (hK : 0 < K) :
    blur_BoundaryScale Real.sqrt K * (1 - blur_nu Real.sqrt K) = 1 := by
  have h := blur_nu_lt_one K hK
  unfold blur_BoundaryScale
  field_simp [show (1 : ℝ) - blur_nu Real.sqrt K ≠ 0 by linarith]

theorem blur_BoundaryScale_pos (K : ℝ) (hK : 0 < K) : 0 < blur_BoundaryScale Real.sqrt K := by
  have h := blur_nu_lt_one K hK
  unfold blur_BoundaryScale
  apply div_pos one_pos
  linarith

/-- The pole solves the characteristic equation: `nu / lambda = (1 - nu)^2`. -/
theorem blur_nu_char (K : ℝ) (hK : 0 < K) :
    blur_nu Real.sqrt K / blur_lambda K = (1 - blur_nu Real.sqrt K) ^ 2 := by
  have h := blur_lambda_pos K hK
  have hs : Real.sqrt (1 + 4 * blur_lambda K) ^ 2 = 1 + 4 * blur_lambda K :=
    Real.sq_sqrt (by linarith)
  unfold blur_nu
  generalize Real.sqrt (1 + 4 * blur_lambda K) = s at hs
  generalize blur_lambda K = l at h hs
  field_simp
  linear_combination (-2 * l ^ 2) * hs

theorem blur_gain_one (K : ℝ) (hK : 0 < K) :
    blur_BoundaryScale Real.sqrt K ^ 18 * (blur_nu Real.sqrt K / blur_lambda K) ^ 9 = 1 := by
  rw [blur_nu_char K hK]
  have h := blur_BoundaryScale_spec K hK
  have e : blur_BoundaryScale Real.sqrt K ^ 18 * ((1 - blur_nu Real.sqrt K) ^ 2) ^ 9 =
      (blur_BoundaryScale Real.sqrt K * (1 - blur_nu Real.sqrt K)) ^ 18 := by ring
  rw [e, h, one_pow]

end RealPole
section BlurDefect

/-- On a constant positive volume the blurred value at every voxel of the face `i = 0`
exceeds the constant by at least `c0 / BoundaryScale = c0 * (1 - nu)`. -/
theorem gaussian_blur_const_face (K c0 : ℝ) (hK : 0 < K) (hc0 : 0 < c0) (m n p : Nat)
    (hm : 2 ≤ m) (b c : Nat) (hb : b < n) (hc : c < p) :
    c0 + c0 * (1 - blur_nu Real.sqrt K) ≤
      (gaussian_blur Real.sqrt (Vol.const m n p c0) K).get 0 b c := by
  have hBS := blur_BoundaryScale_spec K hK
  have hB := blur_BoundaryScale_pos K hK
  have hnu := blur_nu_pos K hK
  have hgain := blur_gain_one K hK
  have hlam := blur_lambda_pos K hK
  rw [gaussian_blur_const_get Real.sqrt K c0 hBS m n p 0 b c (by omega) hb hc]
  have h1 := blur_profile_drop _ _ c0 hBS hnu.le hB hc0 m hm 2
  have h2 := blur_profile_lower _ _ c0 hBS hnu.le hB.le hc0.le m 3 1 (by omega)
  have hPS : 0 < (blur_nu Real.sqrt K / blur_lambda K) ^ 9 := pow_pos (div_pos hnu hlam) 9
  generalize blur_profile (blur_nu Real.sqrt K) (blur_BoundaryScale Real.sqrt K) m c0 3 0 = p0
    at h1 ⊢
  generalize blur_profile (blur_nu Real.sqrt K) (blur_BoundaryScale Real.sqrt K) m c0 3 1 = p1
    at h1 h2
  generalize (blur_nu Real.sqrt K / blur_lambda K) ^ 9 = PS at hPS hgain ⊢
  generalize blur_BoundaryScale Real.sqrt K = BS at hBS hB hgain h1 h2
  have h3 : c0 * BS ^ 18 + c0 * BS ^ 17 ≤ p0 := by
    have e1 : c0 * BS ^ (6 * 3) = c0 * BS ^ 18 := by norm_num
    have e2 : c0 * BS ^ (6 * 2) * BS * BS ^ 4 = c0 * BS ^ 17 := by ring
    rw [e1] at h2
    rw [e2] at h1
    linarith
  have h4 := mul_le_mul_of_nonneg_right h3 hPS.le
  have e3 : (c0 * BS ^ 18 + c0 * BS ^ 17) * PS =
      c0 * (BS ^ 18 * PS) + c0 * (1 - blur_nu Real.sqrt K) * (BS ^ 18 * PS) := by
    linear_combination (-(c0 * BS ^ 17 * PS)) * hBS
  rw [e3, hgain] at h4
  linarith

/-- C1 (defect exhibited): on the reference extents, blurring the constant volume `1`
with `sigma = 6` does not return the constant volume: the sample at voxel `(0, 0, 0)` is
greater than `1`. -/
theorem C1_constant_volume_not_preserved :
    1 < (gaussian_blur Real.sqrt (Vol.const M N P (1 : ℝ)) 6).get 0 0 0 := by
  have h := gaussian_blur_const_face 6 1 (by norm_num) one_pos M N P (by decide) 0 0
    (by decide) (by decide)
  have h2 := blur_nu_lt_one 6 (by norm_num)
  linarith

/-- The blurred constant volume is strictly larger at `(0, b, c)` than at `(1, b', c')`. -/
theorem gaussian_blur_const_drop (K c0 : ℝ) (hK : 0 < K) (hc0 : 0 < c0) (m n p : Nat)
    (hm : 2 ≤ m) (n2 p2 : Nat) (b c b2 c2 : Nat) (hb : b < n) (hc : c < p)
    (hb2 : b2 < n2) (hc2 : c2 < p2) :
    (gaussian_blur Real.sqrt (Vol.const m n2 p2 c0) K).get 1 b2 c2 <
      (gaussian_blur Real.sqrt (Vol.const m n p c0) K).get 0 b c := by
  have hBS := blur_BoundaryScale_spec K hK
  have hB := blur_BoundaryScale_pos K hK
  have hnu := blur_nu_pos K hK
  have hlam := blur_lambda_pos K hK
  rw [gaussian_blur_const_get Real.sqrt K c0 hBS m n p 0 b c (by omega) hb hc,
    gaussian_blur_const_get Real.sqrt K c0 hBS m n2 p2 1 b2 c2 (by omega) hb2 hc2]
  have h1 := blur_profile_drop _ _ c0 hBS hnu.le hB hc0 m hm 2
  have hPS : 0 < (blur_nu Real.sqrt K / blur_lambda K) ^ 9 := pow_pos (div_pos hnu hlam) 9
  apply mul_lt_mul_of_pos_right _ hPS
  have h5 : 0 < c0 * blur_BoundaryScale Real.sqrt K ^ (6 * 2) *
      blur_BoundaryScale Real.sqrt K * blur_BoundaryScale Real.sqrt K ^ 4 := by positivity
  linarith

/-- C10 (defect exhibited): on the reference extents and for `sigma = 6`, blurring
does not commute with the exchange of the first two axes: for the constant volume
`1`, blurring the axis-swapped volume differs from the axis-swapped blurred volume. -/
theorem C10_first_axis_treated_differently :
    gaussian_blur Real.sqrt (Vol.swap12 (Vol.const M N P (1 : ℝ))) 6 ≠
      Vol.swap12 (gaussian_blur Real.sqrt (Vol.const M N P (1 : ℝ)) 6) := by
  intro h
  have h1 := congrArg (fun v => v.get 0 1 0) h
  simp only [Vol.swap12_get] at h1
  have h2 := gaussian_blur_const_drop 6 1 (by norm_num) one_pos M M P (by decide) N P 1 0 0 0
    (by decide) (by decide) (by decide) (by decide)
  have e : Vol.swap12 (Vol.const M N P (1 : ℝ)) = Vol.const M M P (1 : ℝ) := rfl
  rw [e] at h1
  have h3 : (gaussian_blur Real.sqrt (Vol.const M N P (1 : ℝ)) 6).get 1 0 0 <
      (gaussian_blur Real.sqrt (Vol.const M M P (1 : ℝ)) 6).get 0 1 0 := h2
  rw [h1] at h3
  exact lt_irrefl _ h3

end BlurDefect

/-! ## The update sweep with `gamma = 0` -/

section SweepBounds

theorem Vol.get_const_ite {α : Type} [Zero α] (m n p : Nat) (c : α) (i j k : Nat) :
    (Vol.const m n p c).get i j k = if i < m ∧ j < n ∧ k < p then c else 0 := by
  by_cases h : i < m ∧ j < n ∧ k < p
  · rw [if_pos h, Vol.get_const c h.1 h.2.1 h.2.2]
  · rw [if_neg h, Vol.get_of_not_lt _ h]

/-- C4 (defect exhibited): on the reference extents, with `u = 1`, `g = 1`, `conv = 0`
everywhere and `gamma = 0`, the sweep of lines 218-250 writes `10007 / 10006` at voxel
`(1, 1, 1)`, whereas `numer / denom` with each of the six face neighbours counted once is
`1`: the term `U_RIGHT * G_RIGHT` enters `numer` twice (lines 234 and 236). -/
theorem C4_right_neighbour_counted_twice :
    (update_u (0 : ℝ) (Vol.const M N P 1) (Vol.const M N P 0) (Vol.const M N P 1)).get 1 1 1 =
        10007 / 10006 ∧
    spec_update_value (0 : ℝ) (Vol.const M N P 1) (Vol.const M N P 0) (Vol.const M N P 1)
        1 1 1 = 1 := by
  constructor
  · rw [update_u_get, sweep_content, if_pos (by decide), sweep_value,
      dif_neg (by decide), dif_neg (by decide)]
    simp only [Vol.get_const_ite, M, N, P, DT]
    norm_num
  · simp only [spec_update_value, Vol.get_const_ite, M, N, P, DT]
    norm_num

variable {m n p : Nat}

theorem DT_pos : 0 < DT ℝ := by unfold DT; norm_num

/-- Arithmetic of one update with `gamma = 0`: a common lower bound `c0` of the operands
in `u` is a lower bound of the new value, with a surplus from the right neighbour (counted
twice) and from the outer neighbour. -/
theorem update_arith_lower (c0 uc ur ul uu ud ui uo gr gl gu gd gi go t : ℝ)
    (h1 : c0 ≤ uc) (h2 : c0 ≤ ur) (h3 : c0 ≤ ul) (h4 : c0 ≤ uu)
    (h5 : c0 ≤ ud) (h6 : c0 ≤ ui)
    (k2 : 0 ≤ gr) (k3 : 0 ≤ gl) (k4 : 0 ≤ gu) (k5 : 0 ≤ gd) (k6 : 0 ≤ gi) (k7 : 0 ≤ go) :
    c0 + DT ℝ * (ur * gr + (uo - c0) * go) / (1 + DT ℝ * (gr + gl + gd + gu + gi + go)) ≤
      (uc + DT ℝ * (ur * gr + ul * gl + ur * gr + uu * gu + ud * gd + ui * gi + uo * go -
        0 * t)) / (1 + DT ℝ * (gr + gl + gd + gu + gi + go)) := by
  have hD := DT_pos
  have hden : 0 < 1 + DT ℝ * (gr + gl + gd + gu + gi + go) := by positivity
  rw [← sub_nonneg]
  have e : (uc + DT ℝ * (ur * gr + ul * gl + ur * gr + uu * gu + ud * gd + ui * gi + uo * go -
        0 * t)) / (1 + DT ℝ * (gr + gl + gd + gu + gi + go)) -
      (c0 + DT ℝ * (ur * gr + (uo - c0) * go) /
        (1 + DT ℝ * (gr + gl + gd + gu + gi + go))) =
      ((uc - c0) + DT ℝ * ((ur - c0) * gr + (ul - c0) * gl + (uu - c0) * gu + (ud - c0) * gd +
        (ui - c0) * gi)) / (1 + DT ℝ * (gr + gl + gd + gu + gi + go)) := by
    field_simp
    ring
  rw [e]
  apply div_nonneg _ hden.le
  have : 0 ≤ (ur - c0) * gr + (ul - c0) * gl + (uu - c0) * gu + (ud - c0) * gd +
        (ui - c0) * gi := by
    have a2 := mul_nonneg (sub_nonneg.2 h2) k2
    have a3 := mul_nonneg (sub_nonneg.2 h3) k3
    have a4 := mul_nonneg (sub_nonneg.2 h4) k4
    have a5 := mul_nonneg (sub_nonneg.2 h5) k5
    have a6 := mul_nonneg (sub_nonneg.2 h6) k6
    linarith
  have := mul_nonneg hD.le this
  linarith

/-- With `gamma = 0`, non-negative `g` and `u` bounded below by `c0 ≥ 0`, every value
written by the sweep is bounded below by `c0`, with a surplus from the right and outer
neighbours. -/
theorem sweep_value_lower (g conv u : Vol ℝ m n p) (c0 : ℝ) (hc0 : 0 ≤ c0)
    (hu : ∀ a b c, a < m → b < n → c < p → c0 ≤ u.get a b c)
    (hg : ∀ a b c, a < m → b < n → c < p → 0 ≤ g.get a b c) :
    ∀ (s i j k : Nat), j + k ≤ s → interior m n p i j k →
      c0 + DT ℝ * (u.get i (j + 1) k * g.get i (j + 1) k +
            (u.get i j (k + 1) - c0) * g.get i j (k + 1)) /
          (1 + DT ℝ * (g.get i (j + 1) k + g.get i (j - 1) k +
            g.get (i + 1) j k + g.get (i - 1) j k +
            g.get i j (k - 1) + g.get i j (k + 1))) ≤
        sweep_value 0 g conv u i j k := by
  intro s
  induction s with
  | zero =>
    intro i j k hs hint
    unfold interior at hint
    omega
  | succ s ih =>
    intro i j k hs hint
    have hi := hint
    unfold interior at hi
    obtain ⟨i1, i2, j1, j2, k1, k2⟩ := hi
    rw [sweep_value]
    have hsurplus : ∀ i j k, interior m n p i j k → 0 ≤
        DT ℝ * (u.get i (j + 1) k * g.get i (j + 1) k +
            (u.get i j (k + 1) - c0) * g.get i j (k + 1)) /
          (1 + DT ℝ * (g.get i (j + 1) k + g.get i (j - 1) k +
            g.get (i + 1) j k + g.get (i - 1) j k +
            g.get i j (k - 1) + g.get i j (k + 1))) := by
      intro i j k hint
      unfold interior at hint
      obtain ⟨i1, i2, j1, j2, k1, k2⟩ := hint
      have hD := DT_pos
      have q1 := hg i (j + 1) k (by omega) (by omega) (by omega)
      have q2 := hg i (j - 1) k (by omega) (by omega) (by omega)
      have q3 := hg (i + 1) j k (by omega) (by omega) (by omega)
      have q4 := hg (i - 1) j k (by omega) (by omega) (by omega)
      have q5 := hg i j (k - 1) (by omega) (by omega) (by omega)
      have q6 := hg i j (k + 1) (by omega) (by omega) (by omega)
      have q7 := le_trans hc0 (hu i (j + 1) k (by omega) (by omega) (by omega))
      have q8 := sub_nonneg.2 (hu i j (k + 1) (by omega) (by omega) (by omega))
      positivity
    have hleft : c0 ≤ (if h : interior m n p i (j - 1) k then sweep_value 0 g conv u i (j - 1) k
        else u.get i (j - 1) k) := by
      split_ifs with h
      · have h' := h
        unfold interior at h'
        exact le_trans (le_add_of_nonneg_right (hsurplus _ _ _ h))
          (ih i (j - 1) k (by omega) h)
      · exact hu _ _ _ (by omega) (by omega) (by omega)
    have hinn : c0 ≤ (if h : interior m n p i j (k - 1) then sweep_value 0 g conv u i j (k - 1)
        else u.get i j (k - 1)) := by
      split_ifs with h
      · have h' := h
        unfold interior at h'
        exact le_trans (le_add_of_nonneg_right (hsurplus _ _ _ h))
          (ih i j (k - 1) (by omega) h)
      · exact hu _ _ _ (by omega) (by omega) (by omega)
    exact update_arith_lower c0 _ _ _ _ _ _ _ _ _ _ _ _ _ _
      (hu _ _ _ (by omega) (by omega) (by omega))
      (hu _ _ _ (by omega) (by omega) (by omega))
      hleft
      (hu _ _ _ (by omega) (by omega) (by omega))
      (hu _ _ _ (by omega) (by omega) (by omega))
      hinn
      (hg _ _ _ (by omega) (by omega) (by omega))
      (hg _ _ _ (by omega) (by omega) (by omega))
      (hg _ _ _ (by omega) (by omega) (by omega))
      (hg _ _ _ (by omega) (by omega) (by omega))
      (hg _ _ _ (by omega) (by omega) (by omega))
      (hg _ _ _ (by omega) (by omega) (by omega))

/-- With `gamma = 0`, if `u` vanishes on the interior and `u * g` vanishes everywhere,
the sweep writes `0` at every interior voxel. -/
theorem sweep_value_zero (g conv u : Vol ℝ m n p)
    (hu : ∀ a b c, interior m n p a b c → u.get a b c = 0)
    (hprod : ∀ a b c, u.get a b c * g.get a b c = 0) :
    ∀ (s i j k : Nat), j + k ≤ s → interior m n p i j k →
      sweep_value 0 g conv u i j k = 0 := by
  intro s
  induction s with
  | zero =>
    intro i j k hs hint
    unfold interior at hint
    omega
  | succ s ih =>
    intro i j k hs hint
    have hi := hint
    unfold interior at hi
    obtain ⟨i1, i2, j1, j2, k1, k2⟩ := hi
    rw [sweep_value]
    have hleft : (if h : interior m n p i (j - 1) k then sweep_value 0 g conv u i (j - 1) k
        else u.get i (j - 1) k) * g.get i (j - 1) k = 0 := by
      split_ifs with h
      · rw [ih i (j - 1) k (by omega) h, zero_mul]
      · exact hprod _ _ _
    have hinn : (if h : interior m n p i j (k - 1) then sweep_value 0 g conv u i j (k - 1)
        else u.get i j (k - 1)) * g.get i j (k - 1) = 0 := by
      split_ifs with h
      · rw [ih i j (k - 1) (by omega) h, zero_mul]
      · exact hprod _ _ _
    simp only [hleft, hinn, hprod, hu i j k hint]
    simp

theorem diffusivity_nonneg (u g : Vol ℝ m n p)
    (hg : ∀ a b c, a < m → b < n → c < p → 0 ≤ g.get a b c)
    (a b c : Nat) (ha : a < m) (hb : b < n) (hc : c < p) :
    0 ≤ (diffusivity Real.sqrt u g).get a b c := by
  rw [diffusivity_get]
  split_ifs
  · unfold diffusivity_value
    exact div_nonneg zero_le_one (Real.sqrt_nonneg _)
  · exact hg a b c ha hb hc

theorem diffusivity_frame {α : Type} [Field α] (sqrt : α → α) (u g : Vol α m n p)
    (a b c : Nat) (h : ¬ interior m n p a b c) :
    (diffusivity sqrt u g).get a b c = g.get a b c := by
  rw [diffusivity_get, if_neg h]

theorem update_u_frame {α : Type} [Field α] (gamma : α) (g conv u : Vol α m n p)
    (a b c : Nat) (h : ¬ interior m n p a b c) :
    (update_u gamma g conv u).get a b c = u.get a b c := by
  rw [update_u_get, sweep_content, if_neg h]

/-- Invariant of the iterations with `gamma = 0`: `u` stays bounded below by `c0`, `g`
stays non-negative, and the voxels outside the interior keep their initial values. -/
theorem iterations_lower (f g conv u : Vol ℝ m n p) (K sigma2 c0 : ℝ) (hc0 : 0 ≤ c0)
    (hu : ∀ a b c, a < m → b < n → c < p → c0 ≤ u.get a b c)
    (hg : ∀ a b c, a < m → b < n → c < p → 0 ≤ g.get a b c) (cnt : Nat) :
    (∀ a b c, a < m → b < n → c < p →
      c0 ≤ ((rician_iteration Real.sqrt f K sigma2 0)^[cnt] ⟨u, g, conv, []⟩).u.get a b c) ∧
    (∀ a b c, a < m → b < n → c < p →
      0 ≤ ((rician_iteration Real.sqrt f K sigma2 0)^[cnt] ⟨u, g, conv, []⟩).g.get a b c) ∧
    (∀ a b c, ¬ interior m n p a b c →
      ((rician_iteration Real.sqrt f K sigma2 0)^[cnt] ⟨u, g, conv, []⟩).u.get a b c =
        u.get a b c) ∧
    (∀ a b c, ¬ interior m n p a b c →
      ((rician_iteration Real.sqrt f K sigma2 0)^[cnt] ⟨u, g, conv, []⟩).g.get a b c =
        g.get a b c) := by
  induction cnt with
  | zero => exact ⟨hu, hg, fun _ _ _ _ => rfl, fun _ _ _ _ => rfl⟩
  | succ cnt ih =>
    obtain ⟨h1, h2, h3, h4⟩ := ih
    rw [Function.iterate_succ_apply']
    generalize (rician_iteration Real.sqrt f K sigma2 0)^[cnt] ⟨u, g, conv, []⟩ = s
      at h1 h2 h3 h4 ⊢
    rw [rician_iteration_u, rician_iteration_g]
    have hg2 := diffusivity_nonneg s.u s.g h2
    refine ⟨?_, hg2, ?_, ?_⟩
    · intro a b c ha hb hc
      rw [update_u_get, sweep_content]
      split_ifs with hint
      · have hh := hint
        unfold interior at hh
        obtain ⟨i1, i2, j1, j2, k1, k2⟩ := hh
        refine le_trans (le_add_of_nonneg_right ?_)
          (sweep_value_lower _ _ s.u c0 hc0 h1 hg2 (b + c) a b c (le_refl _) hint)
        have hD := DT_pos
        have q1 := hg2 a (b + 1) c (by omega) (by omega) (by omega)
        have q2 := hg2 a (b - 1) c (by omega) (by omega) (by omega)
        have q3 := hg2 (a + 1) b c (by omega) (by omega) (by omega)
        have q4 := hg2 (a - 1) b c (by omega) (by omega) (by omega)
        have q5 := hg2 a b (c - 1) (by omega) (by omega) (by omega)
        have q6 := hg2 a b (c + 1) (by omega) (by omega) (by omega)
        have q7 := le_trans hc0 (h1 a (b + 1) c (by omega) (by omega) (by omega))
        have q8 := sub_nonneg.2 (h1 a b (c + 1) (by omega) (by omega) (by omega))
        positivity
      · exact h1 a b c ha hb hc
    · intro a b c hint
      rw [update_u_frame _ _ _ _ a b c hint, h3 a b c hint]
    · intro a b c hint
      rw [diffusivity_frame _ _ _ a b c hint, h4 a b c hint]

/-- With `lambda = 0`, at an interior voxel whose right and outer neighbours lie on the
boundary, the final `u` exceeds the lower bound `c0` of the initial `u` as soon as the
initial arrays make the surplus positive. -/
theorem deconv_strict (f g conv u : Vol ℝ m n p) (K sigma c0 : ℝ) (hc0 : 0 ≤ c0)
    (hu : ∀ a b c, a < m → b < n → c < p → c0 ≤ u.get a b c)
    (hg : ∀ a b c, a < m → b < n → c < p → 0 ≤ g.get a b c)
    (i j k : Nat) (hint : interior m n p i j k)
    (hr : ¬ interior m n p i (j + 1) k) (ho : ¬ interior m n p i j (k + 1))
    (hpos : 0 < u.get i (j + 1) k * g.get i (j + 1) k +
      (u.get i j (k + 1) - c0) * g.get i j (k + 1)) :
    c0 < (rician_deconv3 Real.sqrt u f g conv K sigma 0).u.get i j k := by
  rw [rician_deconv3_iterate]
  have e : MAX_ITERATIONS = 9 + 1 := rfl
  rw [e, Function.iterate_succ_apply', zero_div]
  obtain ⟨h1, h2, h3, h4⟩ := iterations_lower f g conv u K (SQR sigma) c0 hc0 hu hg 9
  generalize (rician_iteration Real.sqrt f K (SQR sigma) 0)^[9] ⟨u, g, conv, []⟩ = s
    at h1 h2 h3 h4 ⊢
  rw [rician_iteration_u, update_u_get, sweep_content, if_pos hint]
  have hg2 := diffusivity_nonneg s.u s.g h2
  refine lt_of_lt_of_le (lt_add_of_pos_right _ ?_)
    (sweep_value_lower _ _ s.u c0 hc0 h1 hg2 (j + k) i j k (le_refl _) hint)
  have hh := hint
  unfold interior at hh
  obtain ⟨i1, i2, j1, j2, k1, k2⟩ := hh
  have hD := DT_pos
  have q1 := hg2 i (j + 1) k (by omega) (by omega) (by omega)
  have q2 := hg2 i (j - 1) k (by omega) (by omega) (by omega)
  have q3 := hg2 (i + 1) j k (by omega) (by omega) (by omega)
  have q4 := hg2 (i - 1) j k (by omega) (by omega) (by omega)
  have q5 := hg2 i j (k - 1) (by omega) (by omega) (by omega)
  have q6 := hg2 i j (k + 1) (by omega) (by omega) (by omega)
  apply div_pos _ (by positivity)
  rw [diffusivity_frame _ _ _ _ _ _ hr, diffusivity_frame _ _ _ _ _ _ ho, h3 _ _ _ hr,
    h3 _ _ _ ho, h4 _ _ _ hr, h4 _ _ _ ho]
  exact mul_pos hD hpos

/-- With `lambda = 0`, if the initial `u` vanishes on the interior and the initial `g`
vanishes outside the interior, every iteration leaves `u` unchanged. -/
theorem iterations_zero (f g conv u : Vol ℝ m n p) (K sigma2 : ℝ)
    (hu : ∀ a b c, interior m n p a b c → u.get a b c = 0)
    (hg : ∀ a b c, ¬ interior m n p a b c → g.get a b c = 0) (cnt : Nat) :
    ((rician_iteration Real.sqrt f K sigma2 0)^[cnt] ⟨u, g, conv, []⟩).u = u ∧
    (∀ a b c, ¬ interior m n p a b c →
      ((rician_iteration Real.sqrt f K sigma2 0)^[cnt] ⟨u, g, conv, []⟩).g.get a b c = 0) := by
  induction cnt with
  | zero => exact ⟨rfl, hg⟩
  | succ cnt ih =>
    obtain ⟨h1, h2⟩ := ih
    rw [Function.iterate_succ_apply']
    generalize (rician_iteration Real.sqrt f K sigma2 0)^[cnt] ⟨u, g, conv, []⟩ = s
      at h1 h2 ⊢
    rw [rician_iteration_u, rician_iteration_g, h1]
    refine ⟨?_, fun a b c hint => by rw [diffusivity_frame _ _ _ a b c hint, h2 a b c hint]⟩
    apply Vol.ext_get
    intro a b c _ _ _
    rw [update_u_get, sweep_content]
    split_ifs with hint
    · rw [hu a b c hint]
      apply sweep_value_zero _ _ u hu _ (b + c) a b c (le_refl _) hint
      intro a b c
      by_cases h : interior m n p a b c
      · rw [hu a b c h, zero_mul]
      · rw [diffusivity_frame _ _ _ a b c h, h2 a b c h, mul_zero]
    · rfl

end SweepBounds
section DeconvDefects

/-- C2 (defect exhibited): on the reference extents, with `u = f = 1` everywhere,
`g = 1` everywhere, `sigma_blur = 6`, `sigma_noise = 1` and `lambda = 0` (the regulariser
alone), `rician_deconv3` does not leave `u` equal to its initial value: the final sample
at voxel `(58, 58, 58)` is greater than `1`. -/
theorem C2_constant_volume_drifts :
    1 < (rician_deconv3 Real.sqrt (Vol.const M N P (1 : ℝ)) (Vol.const M N P 1)
      (Vol.const M N P 1) (Vol.const M N P 0) 6 1 0).u.get 58 58 58 := by
  apply deconv_strict _ _ _ _ 6 1 1 zero_le_one
  · intro a b c ha hb hc
    rw [Vol.get_const 1 ha hb hc]
  · intro a b c ha hb hc
    rw [Vol.get_const 1 ha hb hc]
    exact zero_le_one
  · decide
  · decide
  · decide
  · simp only [Vol.get_const_ite, M, N, P]
    norm_num

/-- C7 (counterexample): on the reference extents and with `lambda = 0`, two runs of
`rician_deconv3` that differ only in the entry value of `g` at the boundary voxel
`(58, 58, 59)` end with different `u`. -/
theorem C7_boundary_of_g_is_read :
    (rician_deconv3 Real.sqrt ((Vol.const M N P (0 : ℝ)).set 58 58 59 1) (Vol.const M N P 1)
        (Vol.const M N P 0) (Vol.const M N P 0) 6 1 0).u ≠
      (rician_deconv3 Real.sqrt ((Vol.const M N P (0 : ℝ)).set 58 58 59 1) (Vol.const M N P 1)
        ((Vol.const M N P 0).set 58 58 59 1) (Vol.const M N P 0) 6 1 0).u := by
  intro h
  have h1 := congrArg (fun v => v.get 58 58 58) h
  simp only at h1
  have hzero : (rician_deconv3 Real.sqrt ((Vol.const M N P (0 : ℝ)).set 58 58 59 1)
      (Vol.const M N P 1) (Vol.const M N P 0) (Vol.const M N P 0) 6 1 0).u =
      (Vol.const M N P (0 : ℝ)).set 58 58 59 1 := by
    rw [rician_deconv3_iterate, zero_div]
    refine (iterations_zero _ _ _ _ 6 (SQR 1) ?_ ?_ MAX_ITERATIONS).1
    · intro a b c hint
      rw [Vol.get_set, Vol.get_const_ite]
      unfold interior at hint
      have : ¬ (a = 58 ∧ b = 58 ∧ c = 59 ∧ 58 < M ∧ 58 < N ∧ 59 < P) := by
        simp only [P] at hint ⊢
        omega
      rw [if_neg this]
      simp
    · intro a b c _
      rw [Vol.get_const_ite]
      simp
  have hpos : 0 < (rician_deconv3 Real.sqrt ((Vol.const M N P (0 : ℝ)).set 58 58 59 1)
      (Vol.const M N P 1) ((Vol.const M N P 0).set 58 58 59 1) (Vol.const M N P 0)
      6 1 0).u.get 58 58 58 := by
    apply deconv_strict _ _ _ _ 6 1 0 (le_refl _)
    · intro a b c ha hb hc
      rw [Vol.get_set, Vol.get_const 0 ha hb hc]
      split_ifs <;> norm_num
    · intro a b c ha hb hc
      rw [Vol.get_set, Vol.get_const 0 ha hb hc]
      split_ifs <;> norm_num
    · decide
    · decide
    · decide
    · simp only [Vol.get_set, Vol.get_const_ite, M, N, P]
      norm_num
  rw [hzero] at h1
  rw [← h1, Vol.get_set, Vol.get_const_ite] at hpos
  simp only [M, N, P] at hpos
  norm_num at hpos

end DeconvDefects

/-! ## The bounds-checked routines agree with the unchecked ones -/

section CheckedFacts
variable {α : Type} [Field α] {m n p : Nat}

theorem Vol.get?_eq_some (v : Vol α m n p) (i j k : Int)
    (h : 0 ≤ i ∧ i < m ∧ 0 ≤ j ∧ j < n ∧ 0 ≤ k ∧ k < p) :
    v.get? i j k = some (v.get i.toNat j.toNat k.toNat) := if_pos h

omit [Field α] in
theorem Vol.set?_eq_some (v : Vol α m n p) (i j k : Int) (x : α)
    (h : 0 ≤ i ∧ i < m ∧ 0 ≤ j ∧ j < n ∧ 0 ≤ k ∧ k < p) :
    v.set? i j k x = some (v.set i.toNat j.toNat k.toNat x) := if_pos h

theorem toNat_cast (i : Nat) : (i : Int).toNat = i := by omega

theorem toNat_cast_pred (i : Nat) : ((i : Int) - 1).toNat = i - 1 := by omega

theorem toNat_cast_succ (i : Nat) : ((i : Int) + 1).toNat = i + 1 := by omega

theorem toNat_zero : (0 : Int).toNat = 0 := rfl

theorem toNat_one : (1 : Int).toNat = 1 := rfl

theorem loopFromM_eq_some {σ : Type} (bodyM : Nat → σ → Option σ) (body : Nat → σ → σ) :
    ∀ (cnt start : Nat) (s : σ),
      (∀ i s, start ≤ i → i < start + cnt → bodyM i s = some (body i s)) →
      loopFromM bodyM start cnt s = some (loopFrom body start cnt s) := by
  intro cnt
  induction cnt with
  | zero => intro start s _; rfl
  | succ c ih =>
    intro start s h
    simp only [loopFromM, loopFrom]
    rw [h start s (le_refl _) (by omega)]
    exact ih (start + 1) (body start s) (fun i s h1 h2 => h i s (by omega) (by omega))

theorem loopUpM_eq_some {σ : Type} (lo hi : Nat) (bodyM : Nat → σ → Option σ)
    (body : Nat → σ → σ) (s : σ)
    (h : ∀ i s, lo ≤ i → i < hi → bodyM i s = some (body i s)) :
    loopUpM lo hi bodyM s = some (loopUp lo hi body s) :=
  loopFromM_eq_some bodyM body (hi - lo) lo s (fun i s h1 h2 => h i s h1 (by omega))

theorem loopDownM_eq_some {σ : Type} (bodyM : Nat → σ → Option σ) (body : Nat → σ → σ) :
    ∀ (cnt : Nat) (s : σ),
      (∀ i s, i < cnt → bodyM i s = some (body i s)) →
      loopDownM bodyM cnt s = some (loopDown body cnt s) := by
  intro cnt
  induction cnt with
  | zero => intro s _; rfl
  | succ c ih =>
    intro s h
    simp only [loopDownM, loopDown]
    rw [h c s (by omega)]
    exact ih (body c s) (fun i s h1 => h i s (by omega))

theorem filter_down_up_chk_eq (nu BS : α) (k : Nat) (hk : k < p) (hm : 1 ≤ m)
    (u : Vol α m n p) :
    filter_down_up_chk nu BS k u = some (filter_down_up nu BS k u) := by
  unfold filter_down_up_chk filter_down_up
  apply loopUpM_eq_some
  intro j u _ hj
  have e1 : ∀ (u : Vol α m n p), loopUpM 1 m (fun i u => do
      let x ← u.get? i j k
      let y ← u.get? (i - 1) j k
      u.set? i j k (x + nu * y)) u =
      some (loopUp 1 m (fun i u => u.set i j k (u.get i j k + nu * u.get (i - 1) j k)) u) := by
    intro u
    apply loopUpM_eq_some
    intro i u h1 h2
    simp (disch := omega) only [Vol.get?_eq_some, Vol.set?_eq_some, toNat_cast, toNat_cast_pred,
      Option.bind_eq_bind, Option.some_bind]
  have e2 : ∀ (u : Vol α m n p), loopDownM (fun i u => do
      let x ← u.get? i j k
      let y ← u.get? (i + 1) j k
      u.set? i j k (x + y)) (m - 1) u =
      some (loopDown (fun i u => u.set i j k (u.get i j k + u.get (i + 1) j k)) (m - 1) u) := by
    intro u
    apply loopDownM_eq_some
    intro i u h1
    simp (disch := omega) only [Vol.get?_eq_some, Vol.set?_eq_some, toNat_cast, toNat_cast_succ,
      Option.bind_eq_bind, Option.some_bind]
  simp only [Option.bind_eq_bind] at e1 e2
  simp (disch := omega) only [Vol.get?_eq_some, Vol.set?_eq_some, toNat_cast, toNat_cast_pred,
    toNat_zero, Option.bind_eq_bind, Option.some_bind, e1, e2]


theorem filter_right_chk_eq (nu BS : α) (k : Nat) (hk : k < p) (hn : 1 ≤ n)
    (u : Vol α m n p) :
    filter_right_chk nu BS k u = some (filter_right nu BS k u) := by
  unfold filter_right_chk filter_right
  have e1 : ∀ (u : Vol α m n p), loopUpM 0 m (fun i u => do
      let x ← u.get? i 0 k
      u.set? i 0 k (x * BS)) u =
      some (loopUp 0 m (fun i u => u.set i 0 k (u.get i 0 k * BS)) u) := by
    intro u
    apply loopUpM_eq_some
    intro i u h1 h2
    simp (disch := omega) only [Vol.get?_eq_some, Vol.set?_eq_some, toNat_cast, toNat_cast_pred,
      toNat_cast_succ, toNat_zero, toNat_one, Option.bind_eq_bind, Option.some_bind,
      Option.pure_def]
  rw [e1]
  simp only [Option.bind_eq_bind, Option.some_bind]
  apply loopUpM_eq_some
  intro j u h1 h2
  apply loopUpM_eq_some
  intro i u h3 h4
  simp (disch := omega) only [Vol.get?_eq_some, Vol.set?_eq_some, toNat_cast, toNat_cast_pred,
      toNat_cast_succ, toNat_zero, toNat_one, Option.bind_eq_bind, Option.some_bind,
      Option.pure_def]

theorem filter_left_chk_eq (nu BS : α) (k : Nat) (hk : k < p) (hn : 1 ≤ n)
    (u : Vol α m n p) :
    filter_left_chk nu BS k u = some (filter_left nu BS k u) := by
  unfold filter_left_chk filter_left
  have e1 : ∀ (u : Vol α m n p), loopUpM 0 m (fun i u => do
      let x ← u.get? i (n - 1) k
      u.set? i (n - 1) k (x * BS)) u =
      some (loopUp 0 m (fun i u => u.set i (n - 1) k (u.get i (n - 1) k * BS)) u) := by
    intro u
    apply loopUpM_eq_some
    intro i u h1 h2
    simp (disch := omega) only [Vol.get?_eq_some, Vol.set?_eq_some, toNat_cast, toNat_cast_pred,
      toNat_cast_succ, toNat_zero, toNat_one, Option.bind_eq_bind, Option.some_bind,
      Option.pure_def]
  rw [e1]
  simp only [Option.bind_eq_bind, Option.some_bind]
  apply loopDownM_eq_some
  intro j u h1
  apply loopUpM_eq_some
  intro i u h3 h4
  simp (disch := omega) only [Vol.get?_eq_some, Vol.set?_eq_some, toNat_cast, toNat_cast_pred,
      toNat_cast_succ, toNat_zero, toNat_one, Option.bind_eq_bind, Option.some_bind,
      Option.pure_def]

theorem filter_out_chk_eq (nu BS : α) (hp : 1 ≤ p) (u : Vol α m n p) :
    filter_out_chk nu BS u = some (filter_out nu BS u) := by
  unfold filter_out_chk filter_out
  have e1 : ∀ (u : Vol α m n p), loopUpM 0 n (fun j u =>
      loopUpM 0 m (fun i u => do
        let x ← u.get? i j 0
        u.set? i j 0 (x * BS)) u) u =
      some (loopUp 0 n (fun j u =>
        loopUp 0 m (fun i u => u.set i j 0 (u.get i j 0 * BS)) u) u) := by
    intro u
    apply loopUpM_eq_some
    intro j u h1 h2
    apply loopUpM_eq_some
    intro i u h3 h4
    simp (disch := omega) only [Vol.get?_eq_some, Vol.set?_eq_some, toNat_cast, toNat_cast_pred,
      toNat_cast_succ, toNat_zero, toNat_one, Option.bind_eq_bind, Option.some_bind,
      Option.pure_def]
  rw [e1]
  simp only [Option.bind_eq_bind, Option.some_bind]
  apply loopUpM_eq_some
  intro k u h1 h2
  apply loopUpM_eq_some
  intro j u h3 h4
  apply loopUpM_eq_some
  intro i u h5 h6
  simp (disch := omega) only [Vol.get?_eq_some, Vol.set?_eq_some, toNat_cast, toNat_cast_pred,
      toNat_cast_succ, toNat_zero, toNat_one, Option.bind_eq_bind, Option.some_bind,
      Option.pure_def]

theorem filter_in_chk_eq (nu BS : α) (hp : 1 ≤ p) (u : Vol α m n p) :
    filter_in_chk nu BS u = some (filter_in nu BS u) := by
  unfold filter_in_chk filter_in
  have e1 : ∀ (u : Vol α m n p), loopUpM 0 n (fun j u =>
      loopUpM 0 m (fun i u => do
        let x ← u.get? i j (p - 1)
        u.set? i j (p - 1) (x * BS)) u) u =
      some (loopUp 0 n (fun j u =>
        loopUp 0 m (fun i u => u.set i j (p - 1) (u.get i j (p - 1) * BS)) u) u) := by
    intro u
    apply loopUpM_eq_some
    intro j u h1 h2
    apply loopUpM_eq_some
    intro i u h3 h4
    simp (disch := omega) only [Vol.get?_eq_some, Vol.set?_eq_some, toNat_cast, toNat_cast_pred,
      toNat_cast_succ, toNat_zero, toNat_one, Option.bind_eq_bind, Option.some_bind,
      Option.pure_def]
  rw [e1]
  simp only [Option.bind_eq_bind, Option.some_bind]
  apply loopDownM_eq_some
  intro k u h1
  apply loopUpM_eq_some
  intro j u h3 h4
  apply loopUpM_eq_some
  intro i u h5 h6
  simp (disch := omega) only [Vol.get?_eq_some, Vol.set?_eq_some, toNat_cast, toNat_cast_pred,
      toNat_cast_succ, toNat_zero, toNat_one, Option.bind_eq_bind, Option.some_bind,
      Option.pure_def]

theorem blur_step_chk_eq (nu BS : α) (hm : 1 ≤ m) (hn : 1 ≤ n) (hp : 1 ≤ p)
    (u : Vol α m n p) :
    blur_step_chk nu BS u = some (blur_step nu BS u) := by
  unfold blur_step_chk blur_step
  have e1 : ∀ (u : Vol α m n p), loopUpM 0 p (fun k u => do
      let u ← filter_down_up_chk nu BS k u
      let u ← filter_right_chk nu BS k u
      filter_left_chk nu BS k u) u =
      some (loopUp 0 p (fun k u =>
        filter_left nu BS k (filter_right nu BS k (filter_down_up nu BS k u))) u) := by
    intro u
    apply loopUpM_eq_some
    intro k u h1 h2
    rw [filter_down_up_chk_eq nu BS k h2 hm]
    simp only [Option.bind_eq_bind, Option.some_bind]
    rw [filter_right_chk_eq nu BS k h2 hn, Option.some_bind, filter_left_chk_eq nu BS k h2 hn]
  rw [e1]
  simp only [Option.bind_eq_bind, Option.some_bind]
  rw [filter_out_chk_eq nu BS hp, Option.some_bind, filter_in_chk_eq nu BS hp]

theorem post_scale_chk_eq (PS : α) (u : Vol α m n p) :
    post_scale_chk PS u = some (post_scale PS u) := by
  unfold post_scale_chk post_scale
  apply loopUpM_eq_some
  intro k u h1 h2
  apply loopUpM_eq_some
  intro j u h3 h4
  apply loopUpM_eq_some
  intro i u h5 h6
  simp (disch := omega) only [Vol.get?_eq_some, Vol.set?_eq_some, toNat_cast, toNat_cast_pred,
      toNat_cast_succ, toNat_zero, toNat_one, Option.bind_eq_bind, Option.some_bind,
      Option.pure_def]

theorem gaussian_blur_chk_eq (sqrt : α → α) (hm : 1 ≤ m) (hn : 1 ≤ n) (hp : 1 ≤ p)
    (u : Vol α m n p) (Ksigma : α) :
    gaussian_blur_chk sqrt u Ksigma = some (gaussian_blur sqrt u Ksigma) := by
  unfold gaussian_blur_chk gaussian_blur
  have e1 : ∀ (u : Vol α m n p), loopUpM 0 GAUSSIAN_NUMSTEPS (fun _ u =>
      blur_step_chk (blur_nu sqrt Ksigma) (blur_BoundaryScale sqrt Ksigma) u) u =
      some (loopUp 0 GAUSSIAN_NUMSTEPS (fun _ u =>
        blur_step (blur_nu sqrt Ksigma) (blur_BoundaryScale sqrt Ksigma) u) u) := by
    intro u
    apply loopUpM_eq_some
    intro _ u _ _
    exact blur_step_chk_eq _ _ hm hn hp u
  simp only [Option.bind_eq_bind]
  rw [e1, Option.some_bind, post_scale_chk_eq]

theorem diffusivity_chk_eq (sqrt : α → α) (hm : 2 ≤ m) (u g : Vol α m n p) :
    diffusivity_chk sqrt u g = some (diffusivity sqrt u g) := by
  unfold diffusivity_chk diffusivity
  apply loopUpM_eq_some
  intro k g h1 h2
  apply loopUpM_eq_some
  intro j g h3 h4
  have e1 : ∀ (w : GWin α m n p), loopUpM 1 (m - 1) (diffusivity_body_chk sqrt u j k) w =
      some (loopUp 1 (m - 1) (diffusivity_body sqrt u j k) w) := by
    intro w
    apply loopUpM_eq_some
    intro i w h5 h6
    unfold diffusivity_body_chk diffusivity_body
    simp (disch := omega) only [Vol.get?_eq_some, Vol.set?_eq_some, toNat_cast, toNat_cast_pred,
      toNat_cast_succ, toNat_zero, toNat_one, Option.bind_eq_bind, Option.some_bind,
      Option.pure_def]
  simp (disch := omega) only [Vol.get?_eq_some, Vol.set?_eq_some, toNat_cast, toNat_cast_pred,
      toNat_cast_succ, toNat_zero, toNat_one, Option.bind_eq_bind, Option.some_bind,
      Option.pure_def]
  rw [e1]
  rfl

theorem copy_u_chk_eq (u conv : Vol α m n p) : copy_u_chk u conv = some (copy_u u conv) := by
  unfold copy_u_chk copy_u
  apply loopUpM_eq_some
  intro i c h1 h2
  apply loopUpM_eq_some
  intro j c h3 h4
  apply loopUpM_eq_some
  intro k c h5 h6
  simp (disch := omega) only [Vol.get?_eq_some, Vol.set?_eq_some, toNat_cast, toNat_cast_pred,
      toNat_cast_succ, toNat_zero, toNat_one, Option.bind_eq_bind, Option.some_bind,
      Option.pure_def]

theorem residual_chk_eq (f : Vol α m n p) (sigma2 : α) (conv : Vol α m n p) :
    residual_chk f sigma2 conv = some (residual f sigma2 conv) := by
  unfold residual_chk residual
  apply loopUpM_eq_some
  intro k c h1 h2
  apply loopUpM_eq_some
  intro j c h3 h4
  apply loopUpM_eq_some
  intro i c h5 h6
  unfold residual_body
  simp (disch := omega) only [Vol.get?_eq_some, Vol.set?_eq_some, toNat_cast, toNat_cast_pred,
      toNat_cast_succ, toNat_zero, toNat_one, Option.bind_eq_bind, Option.some_bind,
      Option.pure_def]

theorem update_u_chk_eq (gamma : α) (hm : 2 ≤ m) (g conv u : Vol α m n p) :
    update_u_chk gamma g conv u = some (update_u gamma g conv u) := by
  unfold update_u_chk update_u
  apply loopUpM_eq_some
  intro k u h1 h2
  apply loopUpM_eq_some
  intro j u h3 h4
  have e1 : ∀ (w : UWin α m n p), loopUpM 1 (m - 1) (update_body_chk gamma g conv j k) w =
      some (loopUp 1 (m - 1) (update_body gamma g conv j k) w) := by
    intro w
    apply loopUpM_eq_some
    intro i w h5 h6
    unfold update_body_chk update_body
    simp (disch := omega) only [Vol.get?_eq_some, Vol.set?_eq_some, toNat_cast, toNat_cast_pred,
      toNat_cast_succ, toNat_zero, toNat_one, Option.bind_eq_bind, Option.some_bind,
      Option.pure_def]
  simp (disch := omega) only [Vol.get?_eq_some, Vol.set?_eq_some, toNat_cast, toNat_cast_pred,
      toNat_cast_succ, toNat_zero, toNat_one, Option.bind_eq_bind, Option.some_bind,
      Option.pure_def]
  rw [e1]
  rfl

theorem rician_iteration_chk_eq (sqrt : α → α) (hm : 2 ≤ m) (hn : 1 ≤ n) (hp : 1 ≤ p)
    (f : Vol α m n p) (Ksigma sigma2 gamma : α) (s : DState α m n p) :
    rician_iteration_chk sqrt f Ksigma sigma2 gamma s =
      some (rician_iteration sqrt f Ksigma sigma2 gamma s) := by
  have hm1 : 1 ≤ m := by omega
  have hb : ∀ (v : Vol α m n p), gaussian_blur_chk sqrt v Ksigma =
      some (gaussian_blur sqrt v Ksigma) :=
    fun v => gaussian_blur_chk_eq sqrt hm1 hn hp v Ksigma
  unfold rician_iteration_chk rician_iteration call_blur_conv_chk call_blur_conv
  simp only [Option.bind_eq_bind, Option.pure_def, diffusivity_chk_eq sqrt hm, copy_u_chk_eq,
    hb, residual_chk_eq, update_u_chk_eq gamma hm, Option.some_bind]

theorem rician_deconv3_chk_eq (sqrt : α → α) (hm : 2 ≤ m) (hn : 1 ≤ n) (hp : 1 ≤ p)
    (u f g conv : Vol α m n p) (Ksigma sigma lambda : α) :
    rician_deconv3_chk sqrt u f g conv Ksigma sigma lambda =
      some (rician_deconv3 sqrt u f g conv Ksigma sigma lambda) := by
  unfold rician_deconv3_chk rician_deconv3
  apply loopUpM_eq_some
  intro _ s _ _
  exact rician_iteration_chk_eq sqrt hm hn hp f Ksigma _ _ s

/-- C9: on the reference extents `M = N = P = 60`, every array access of `gaussian_blur`
and of `rician_deconv3` is in bounds: the bounds-checked routines never take the
out-of-range branch, and return what the unchecked routines compute. -/
theorem C9_accesses_in_bounds (sqrt : α → α) (u f g conv : Vol α M N P)
    (Ksigma sigma lambda : α) :
    gaussian_blur_chk sqrt u Ksigma = some (gaussian_blur sqrt u Ksigma) ∧
    rician_deconv3_chk sqrt u f g conv Ksigma sigma lambda =
      some (rician_deconv3 sqrt u f g conv Ksigma sigma lambda) :=
  ⟨gaussian_blur_chk_eq sqrt (by decide) (by decide) (by decide) u Ksigma,
    rician_deconv3_chk_eq sqrt (by decide) (by decide) (by decide) u f g conv Ksigma sigma
      lambda⟩

end CheckedFacts
/-! ## The cascade with `nu` in every backward pass -/

section IntendedBlur
variable {α : Type} [Field α]

/-- With the coefficient `nu` also in the backward pass along the first axis (as in the
passes along the other two axes), one step of the cascade multiplies a constant volume by
`BoundaryScale ^ 6`. -/
theorem symmetric_step_const (nu BS : α) (hBS : BS * (1 - nu) = 1) (m n p : Nat)
    (x : Nat → Nat → Nat → α) (c0 : α)
    (h : ∀ a b c, a < m → b < n → c < p → x a b c = c0)
    (a b c : Nat) (ha : a < m) (hb : b < n) (hc : c < p) :
    pass_axis3 nu nu BS p (pass_axis2 nu nu BS n (pass_axis1 nu nu BS m x)) a b c =
      c0 * BS ^ 6 := by
  have h1 : ∀ a b c, a < m → b < n → c < p →
      pass_axis1 nu nu BS m x a b c = c0 * BS * BS := by
    intro a b c ha hb hc
    simp only [pass_axis1]
    apply line_bwd_const nu BS _ hBS m _ _ a ha
    intro t ht
    apply line_fwd_const nu BS _ hBS
    intro s hs
    exact h s b c (by omega) hb hc
  have h2 : ∀ a b c, a < m → b < n → c < p →
      pass_axis2 nu nu BS n (pass_axis1 nu nu BS m x) a b c = c0 * BS * BS * BS * BS := by
    intro a b c ha hb hc
    simp only [pass_axis2]
    apply line_bwd_const nu BS _ hBS n _ _ b hb
    intro t ht
    apply line_fwd_const nu BS _ hBS
    intro s hs
    exact h1 a s c ha (by omega) hc
  simp only [pass_axis3]
  rw [line_bwd_const nu BS (c0 * BS * BS * BS * BS * BS) hBS p _ _ c hc]
  · ring
  · intro t ht
    apply line_fwd_const nu BS _ hBS
    intro s hs
    exact h2 a b s ha hb (by omega)

/-- With the coefficient `nu` also in line 69, three steps followed by `PostScale` return
a constant volume unchanged: the normalisation `BoundaryScale`, `PostScale` is the one
of the symmetric cascade. -/
theorem symmetric_cascade_const (K c0 : ℝ) (hK : 0 < K) (m n p : Nat)
    (a b c : Nat) (ha : a < m) (hb : b < n) (hc : c < p) :
    ((fun x => pass_axis3 (blur_nu Real.sqrt K) (blur_nu Real.sqrt K)
        (blur_BoundaryScale Real.sqrt K) p
        (pass_axis2 (blur_nu Real.sqrt K) (blur_nu Real.sqrt K)
          (blur_BoundaryScale Real.sqrt K) n
          (pass_axis1 (blur_nu Real.sqrt K) (blur_nu Real.sqrt K)
            (blur_BoundaryScale Real.sqrt K) m x)))^[3] (fun _ _ _ => c0)) a b c *
      (blur_nu Real.sqrt K / blur_lambda K) ^ 9 = c0 := by
  have hBS := blur_BoundaryScale_spec K hK
  have hgain := blur_gain_one K hK
  have key : ∀ s a b c, a < m → b < n → c < p →
      ((fun x => pass_axis3 (blur_nu Real.sqrt K) (blur_nu Real.sqrt K)
        (blur_BoundaryScale Real.sqrt K) p
        (pass_axis2 (blur_nu Real.sqrt K) (blur_nu Real.sqrt K)
          (blur_BoundaryScale Real.sqrt K) n
          (pass_axis1 (blur_nu Real.sqrt K) (blur_nu Real.sqrt K)
            (blur_BoundaryScale Real.sqrt K) m x)))^[s] (fun _ _ _ => c0)) a b c =
        c0 * blur_BoundaryScale Real.sqrt K ^ (6 * s) := by
    intro s
    induction s with
    | zero => intro a b c _ _ _; simp
    | succ s ih =>
      intro a b c ha hb hc
      rw [Function.iterate_succ_apply']
      rw [symmetric_step_const _ _ hBS m n p _ _ ih a b c ha hb hc]
      ring
  rw [key 3 a b c ha hb hc]
  have e : c0 * blur_BoundaryScale Real.sqrt K ^ (6 * 3) *
      (blur_nu Real.sqrt K / blur_lambda K) ^ 9 =
      c0 * (blur_BoundaryScale Real.sqrt K ^ 18 * (blur_nu Real.sqrt K / blur_lambda K) ^ 9) := by
    ring
  rw [e, hgain, mul_one]

end IntendedBlur

section BoundsCheckEffective

/-- The bounds checks are effective: with a first extent of `1` the window initialisation
`u[1][j][k]` of line 222 is out of range and the checked sweep fails. -/
theorem update_u_chk_fails (gamma : ℚ) (g conv u : Vol ℚ 1 3 3) :
    update_u_chk gamma g conv u = none := by
  simp [update_u_chk, loopUpM, loopFromM, Vol.get?]

end BoundsCheckEffective

/-! ## Linearity and positivity of `gaussian_blur` -/

section Linearity

variable {α : Type} [Field α]

theorem line_fwd_lin (nu BS a b : α) (x y : Nat → α) (i : Nat) :
    line_fwd nu BS (fun t => a * x t + b * y t) i =
      a * line_fwd nu BS x i + b * line_fwd nu BS y i := by
  induction i with
  | zero => simp only [line_fwd]; ring
  | succ i ih => simp only [line_fwd]; rw [ih]; ring

theorem line_bwd_lin (coef BS a b : α) (len : Nat) (x y : Nat → α) (i : Nat) :
    line_bwd coef BS len (fun t => a * x t + b * y t) i =
      a * line_bwd coef BS len x i + b * line_bwd coef BS len y i := by
  have key : ∀ d, line_bwd_from_end coef BS len (fun t => a * x t + b * y t) d =
      a * line_bwd_from_end coef BS len x d + b * line_bwd_from_end coef BS len y d := by
    intro d
    induction d with
    | zero => simp only [line_bwd_from_end]; ring
    | succ d ih => simp only [line_bwd_from_end]; rw [ih]; ring
  exact key _

theorem pass_axis1_lin (nu coef BS a b : α) (m : Nat) (x y : Nat → Nat → Nat → α) :
    pass_axis1 nu coef BS m (fun i j k => a * x i j k + b * y i j k) =
      fun i j k => a * pass_axis1 nu coef BS m x i j k + b * pass_axis1 nu coef BS m y i j k := by
  funext i j k
  simp only [pass_axis1]
  have e : line_fwd nu BS (fun t => a * x t j k + b * y t j k) =
      fun t => a * line_fwd nu BS (fun t => x t j k) t +
        b * line_fwd nu BS (fun t => y t j k) t := by
    funext t
    exact line_fwd_lin nu BS a b _ _ t
  rw [e, line_bwd_lin]

theorem pass_axis2_lin (nu coef BS a b : α) (n : Nat) (x y : Nat → Nat → Nat → α) :
    pass_axis2 nu coef BS n (fun i j k => a * x i j k + b * y i j k) =
      fun i j k => a * pass_axis2 nu coef BS n x i j k + b * pass_axis2 nu coef BS n y i j k := by
  funext i j k
  simp only [pass_axis2]
  have e : line_fwd nu BS (fun t => a * x i t k + b * y i t k) =
      fun t => a * line_fwd nu BS (fun t => x i t k) t +
        b * line_fwd nu BS (fun t => y i t k) t := by
    funext t
    exact line_fwd_lin nu BS a b _ _ t
  rw [e, line_bwd_lin]

theorem pass_axis3_lin (nu coef BS a b : α) (p : Nat) (x y : Nat → Nat → Nat → α) :
    pass_axis3 nu coef BS p (fun i j k => a * x i j k + b * y i j k) =
      fun i j k => a * pass_axis3 nu coef BS p x i j k + b * pass_axis3 nu coef BS p y i j k := by
  funext i j k
  simp only [pass_axis3]
  have e : line_fwd nu BS (fun t => a * x i j t + b * y i j t) =
      fun t => a * line_fwd nu BS (fun t => x i j t) t +
        b * line_fwd nu BS (fun t => y i j t) t := by
    funext t
    exact line_fwd_lin nu BS a b _ _ t
  rw [e, line_bwd_lin]

theorem step_fn_lin (nu BS a b : α) (m n p : Nat) (x y : Nat → Nat → Nat → α) :
    step_fn nu BS m n p (fun i j k => a * x i j k + b * y i j k) =
      fun i j k => a * step_fn nu BS m n p x i j k + b * step_fn nu BS m n p y i j k := by
  simp only [step_fn]
  rw [pass_axis1_lin, pass_axis2_lin, pass_axis3_lin]

theorem steps_lin (nu BS a b : α) (m n p : Nat) (x y : Nat → Nat → Nat → α) (s : Nat) :
    (step_fn nu BS m n p)^[s] (fun i j k => a * x i j k + b * y i j k) =
      fun i j k => a * ((step_fn nu BS m n p)^[s] x) i j k +
        b * ((step_fn nu BS m n p)^[s] y) i j k := by
  induction s with
  | zero => rfl
  | succ s ih =>
    rw [Function.iterate_succ_apply', Function.iterate_succ_apply',
      Function.iterate_succ_apply', ih, step_fn_lin]

variable {m n p : Nat}

theorem Vol.lin_get (a : α) (x : Vol α m n p) (b : α) (y : Vol α m n p) (i j k : Nat) :
    (Vol.lin a x b y).get i j k = a * x.get i j k + b * y.get i j k := by
  by_cases h : i < m ∧ j < n ∧ k < p
  · rw [Vol.get_of_lt _ h.1 h.2.1 h.2.2, Vol.get_of_lt _ h.1 h.2.1 h.2.2,
      Vol.get_of_lt _ h.1 h.2.1 h.2.2]
    rfl
  · rw [Vol.get_of_not_lt _ h, Vol.get_of_not_lt _ h, Vol.get_of_not_lt _ h]
    simp

theorem gaussian_blur_out_of_range (sqrt : α → α) (x : Vol α m n p) (Ksigma : α) (i j k : Nat)
    (h : ¬ (i < m ∧ j < n ∧ k < p)) : (gaussian_blur sqrt x Ksigma).get i j k = 0 :=
  Vol.get_of_not_lt _ h

theorem gaussian_blur_lin (sqrt : α → α) (a b : α) (x y : Vol α m n p) (Ksigma : α) :
    gaussian_blur sqrt (Vol.lin a x b y) Ksigma =
      Vol.lin a (gaussian_blur sqrt x Ksigma) b (gaussian_blur sqrt y Ksigma) := by
  apply Vol.ext_get
  intro i j k hi hj hk
  rw [Vol.lin_get, gaussian_blur_get sqrt _ Ksigma i j k hi hj hk,
    gaussian_blur_get sqrt x Ksigma i j k hi hj hk,
    gaussian_blur_get sqrt y Ksigma i j k hi hj hk]
  have e : (fun a' b' c' => (Vol.lin a x b y).get a' b' c') =
      fun a' b' c' => a * x.get a' b' c' + b * y.get a' b' c' := by
    funext a' b' c'
    exact Vol.lin_get a x b y a' b' c'
  rw [e, steps_lin]
  ring

/-- C18: `gaussian_blur` is a linear map on volumes: for all volumes `x`, `y`, scalars
`a`, `b` and every `sigma`, `gaussian_blur (a * x + b * y) = a * gaussian_blur x +
b * gaussian_blur y`, voxel by voxel (over every field, the reals included). -/
theorem C18_gaussian_blur_linear (sqrt : α → α) (a b : α) (x y : Vol α m n p) (Ksigma : α)
    (i j k : Nat) :
    gaussian_blur sqrt (Vol.lin a x b y) Ksigma =
        Vol.lin a (gaussian_blur sqrt x Ksigma) b (gaussian_blur sqrt y Ksigma) ∧
    (gaussian_blur sqrt (Vol.lin a x b y) Ksigma).get i j k =
        a * (gaussian_blur sqrt x Ksigma).get i j k +
          b * (gaussian_blur sqrt y Ksigma).get i j k := by
  refine ⟨gaussian_blur_lin sqrt a b x y Ksigma, ?_⟩
  rw [gaussian_blur_lin, Vol.lin_get]

end Linearity

section Positivity

variable {α : Type} [LinearOrderedField α]

theorem line_fwd_ge (nu BS : α) (hnu : 0 ≤ nu) (hB : 1 ≤ BS) (x : Nat → α) (i : Nat)
    (h : ∀ t, t ≤ i → 0 ≤ x t) : x i ≤ line_fwd nu BS x i := by
  induction i with
  | zero =>
    simp only [line_fwd]
    exact le_mul_of_one_le_right (h 0 (le_refl _)) hB
  | succ i ih =>
    simp only [line_fwd]
    have h1 := ih (fun t ht => h t (by omega))
    have h2 := h i (by omega)
    have h3 : 0 ≤ nu * line_fwd nu BS x i := mul_nonneg hnu (le_trans h2 h1)
    linarith

theorem line_bwd_ge (coef BS : α) (hco : 0 ≤ coef) (hB : 1 ≤ BS) (len : Nat) (y : Nat → α)
    (h : ∀ t, t < len → 0 ≤ y t) (i : Nat) (hi : i < len) :
    y i ≤ line_bwd coef BS len y i := by
  have key : ∀ d, d < len → y (len - 1 - d) ≤ line_bwd_from_end coef BS len y d := by
    intro d
    induction d with
    | zero =>
      intro _
      simp only [line_bwd_from_end, Nat.sub_zero]
      exact le_mul_of_one_le_right (h _ (by omega)) hB
    | succ d ih =>
      intro hd
      simp only [line_bwd_from_end]
      have h1 := ih (by omega)
      have h2 := h (len - 1 - d) (by omega)
      have h3 : 0 ≤ coef * line_bwd_from_end coef BS len y d := mul_nonneg hco (le_trans h2 h1)
      linarith
  have := key (len - 1 - i) (by omega)
  have e : len - 1 - (len - 1 - i) = i := by omega
  rw [e] at this
  exact this

/-- On a volume that is non-negative on the array, one step of the cascade does not
decrease any sample. -/
theorem step_fn_ge (nu BS : α) (hnu : 0 ≤ nu) (hB : 1 ≤ BS) (m n p : Nat)
    (x : Nat → Nat → Nat → α) (h : ∀ a b c, a < m → b < n → c < p → 0 ≤ x a b c)
    (a b c : Nat) (ha : a < m) (hb : b < n) (hc : c < p) :
    x a b c ≤ step_fn nu BS m n p x a b c := by
  have h1 : ∀ a b c, a < m → b < n → c < p → x a b c ≤ pass_axis1 nu 1 BS m x a b c := by
    intro a b c ha hb hc
    simp only [pass_axis1]
    have hf : ∀ t, t < m → x t b c ≤ line_fwd nu BS (fun t => x t b c) t :=
      fun t ht => line_fwd_ge nu BS hnu hB _ t (fun s hs => h s b c (by omega) hb hc)
    exact le_trans (hf a ha) (line_bwd_ge 1 BS zero_le_one hB m _
      (fun t ht => le_trans (h t b c ht hb hc) (hf t ht)) a ha)
  have h1' : ∀ a b c, a < m → b < n → c < p → 0 ≤ pass_axis1 nu 1 BS m x a b c :=
    fun a b c ha hb hc => le_trans (h a b c ha hb hc) (h1 a b c ha hb hc)
  have h2 : ∀ a b c, a < m → b < n → c < p →
      pass_axis1 nu 1 BS m x a b c ≤ pass_axis2 nu nu BS n (pass_axis1 nu 1 BS m x) a b c := by
    intro a b c ha hb hc
    simp only [pass_axis2]
    have hf : ∀ t, t < n → pass_axis1 nu 1 BS m x a t c ≤
        line_fwd nu BS (fun t => pass_axis1 nu 1 BS m x a t c) t :=
      fun t ht => line_fwd_ge nu BS hnu hB _ t (fun s hs => h1' a s c ha (by omega) hc)
    exact le_trans (hf b hb) (line_bwd_ge nu BS hnu hB n _
      (fun t ht => le_trans (h1' a t c ha ht hc) (hf t ht)) b hb)
  have h2' : ∀ a b c, a < m → b < n → c < p →
      0 ≤ pass_axis2 nu nu BS n (pass_axis1 nu 1 BS m x) a b c :=
    fun a b c ha hb hc => le_trans (h1' a b c ha hb hc) (h2 a b c ha hb hc)
  have h3 : pass_axis2 nu nu BS n (pass_axis1 nu 1 BS m x) a b c ≤
      step_fn nu BS m n p x a b c := by
    simp only [step_fn, pass_axis3]
    have hf : ∀ t, t < p → pass_axis2 nu nu BS n (pass_axis1 nu 1 BS m x) a b t ≤
        line_fwd nu BS (fun t => pass_axis2 nu nu BS n (pass_axis1 nu 1 BS m x) a b t) t :=
      fun t ht => line_fwd_ge nu BS hnu hB _ t (fun s hs => h2' a b s ha hb (by omega))
    exact le_trans (hf c hc) (line_bwd_ge nu BS hnu hB p _
      (fun t ht => le_trans (h2' a b t ha hb ht) (hf t ht)) c hc)
  exact le_trans (h1 a b c ha hb hc) (le_trans (h2 a b c ha hb hc) h3)

theorem steps_ge (nu BS : α) (hnu : 0 ≤ nu) (hB : 1 ≤ BS) (m n p : Nat)
    (x : Nat → Nat → Nat → α) (h : ∀ a b c, a < m → b < n → c < p → 0 ≤ x a b c) (s : Nat) :
    ∀ a b c, a < m → b < n → c < p → x a b c ≤ ((step_fn nu BS m n p)^[s] x) a b c := by
  induction s with
  | zero => intro a b c _ _ _; exact le_refl _
  | succ s ih =>
    intro a b c ha hb hc
    rw [Function.iterate_succ_apply']
    exact le_trans (ih a b c ha hb hc)
      (step_fn_ge nu BS hnu hB m n p _
        (fun a b c ha hb hc => le_trans (h a b c ha hb hc) (ih a b c ha hb hc)) a b c ha hb hc)

end Positivity

section BlurOrder

variable {m n p : Nat}

theorem blur_BoundaryScale_ge_one (K : ℝ) (hK : 0 < K) : 1 ≤ blur_BoundaryScale Real.sqrt K := by
  have h1 := blur_nu_pos K hK
  have h2 := blur_nu_lt_one K hK
  unfold blur_BoundaryScale
  rw [le_div_iff₀ (by linarith)]
  linarith

/-- For `sigma > 0`, on a volume with non-negative samples the blurred sample is at least
`PostScale` times the sample. -/
theorem gaussian_blur_ge (K : ℝ) (hK : 0 < K) (x : Vol ℝ m n p)
    (h : ∀ i j k, 0 ≤ x.get i j k) (i j k : Nat) :
    x.get i j k * (blur_nu Real.sqrt K / blur_lambda K) ^ 9 ≤
      (gaussian_blur Real.sqrt x K).get i j k := by
  by_cases hr : i < m ∧ j < n ∧ k < p
  · rw [gaussian_blur_get Real.sqrt x K i j k hr.1 hr.2.1 hr.2.2]
    have hPS : 0 ≤ (blur_nu Real.sqrt K / blur_lambda K) ^ 9 :=
      pow_nonneg (div_nonneg (blur_nu_pos K hK).le (blur_lambda_pos K hK).le) 9
    exact mul_le_mul_of_nonneg_right
      (steps_ge _ _ (blur_nu_pos K hK).le (blur_BoundaryScale_ge_one K hK) m n p _
        (fun a b c _ _ _ => h a b c) 3 i j k hr.1 hr.2.1 hr.2.2) hPS
  · rw [Vol.get_of_not_lt _ hr, Vol.get_of_not_lt _ hr, zero_mul]

theorem gaussian_blur_nonneg (K : ℝ) (hK : 0 < K) (x : Vol ℝ m n p)
    (h : ∀ i j k, 0 ≤ x.get i j k) (i j k : Nat) :
    0 ≤ (gaussian_blur Real.sqrt x K).get i j k := by
  have hPS : 0 ≤ (blur_nu Real.sqrt K / blur_lambda K) ^ 9 :=
    pow_nonneg (div_nonneg (blur_nu_pos K hK).le (blur_lambda_pos K hK).le) 9
  exact le_trans (mul_nonneg (h i j k) hPS) (gaussian_blur_ge K hK x h i j k)

theorem gaussian_blur_mono (K : ℝ) (hK : 0 < K) (x y : Vol ℝ m n p)
    (h : ∀ i j k, x.get i j k ≤ y.get i j k) (i j k : Nat) :
    (gaussian_blur Real.sqrt x K).get i j k ≤ (gaussian_blur Real.sqrt y K).get i j k := by
  have h1 := gaussian_blur_nonneg K hK (Vol.lin 1 y (-1) x)
    (fun i j k => by rw [Vol.lin_get]; have := h i j k; linarith) i j k
  rw [gaussian_blur_lin, Vol.lin_get] at h1
  linarith

/-- C19: for every `sigma > 0`, `gaussian_blur` preserves non-negativity and is monotone:
if every sample of `x` is `>= 0` then every sample of `gaussian_blur x` is `>= 0`, and
`x <= y` voxel-wise implies `gaussian_blur x <= gaussian_blur y` voxel-wise. -/
theorem C19_gaussian_blur_monotone (Ksigma : ℝ) (h : 0 < Ksigma) (x y : Vol ℝ m n p) :
    ((∀ i j k, 0 ≤ x.get i j k) →
      ∀ i j k, 0 ≤ (gaussian_blur Real.sqrt x Ksigma).get i j k) ∧
    ((∀ i j k, x.get i j k ≤ y.get i j k) →
      ∀ i j k, (gaussian_blur Real.sqrt x Ksigma).get i j k ≤
        (gaussian_blur Real.sqrt y Ksigma).get i j k) :=
  ⟨fun hx i j k => gaussian_blur_nonneg Ksigma h x hx i j k,
    fun hxy i j k => gaussian_blur_mono Ksigma h x y hxy i j k⟩

/-- Witness for C19 on the reference extents: `sigma = 6`, `x = 0` and `y = 1`
everywhere. -/
theorem C19_gaussian_blur_monotone_witness :
    (0 : ℝ) < 6 ∧
    (∀ i j k, 0 ≤ (Vol.const M N P (0 : ℝ)).get i j k) ∧
    (∀ i j k, (Vol.const M N P (0 : ℝ)).get i j k ≤ (Vol.const M N P (1 : ℝ)).get i j k) ∧
    (∀ i j k, 0 ≤ (gaussian_blur Real.sqrt (Vol.const M N P (0 : ℝ)) 6).get i j k) ∧
    (∀ i j k, (gaussian_blur Real.sqrt (Vol.const M N P (0 : ℝ)) 6).get i j k ≤
      (gaussian_blur Real.sqrt (Vol.const M N P (1 : ℝ)) 6).get i j k) :=
  have h0 : ∀ i j k, 0 ≤ (Vol.const M N P (0 : ℝ)).get i j k := by
    intro i j k
    rw [Vol.get_const_ite]
    split_ifs <;> norm_num
  have h01 : ∀ i j k, (Vol.const M N P (0 : ℝ)).get i j k ≤
      (Vol.const M N P (1 : ℝ)).get i j k := by
    intro i j k
    rw [Vol.get_const_ite, Vol.get_const_ite]
    split_ifs <;> norm_num
  ⟨by norm_num, h0, h01,
    (C19_gaussian_blur_monotone 6 (by norm_num) (Vol.const M N P 0) (Vol.const M N P 1)).1 h0,
    (C19_gaussian_blur_monotone 6 (by norm_num) (Vol.const M N P 0) (Vol.const M N P 1)).2 h01⟩

/-- The blurred constant volume is at least the constant everywhere. -/
theorem gaussian_blur_const_ge (K c0 : ℝ) (hK : 0 < K) (hc0 : 0 ≤ c0) (a b c : Nat)
    (ha : a < m) (hb : b < n) (hc : c < p) :
    c0 ≤ (gaussian_blur Real.sqrt (Vol.const m n p c0) K).get a b c := by
  have hBS := blur_BoundaryScale_spec K hK
  have hgain := blur_gain_one K hK
  rw [gaussian_blur_const_get Real.sqrt K c0 hBS m n p a b c ha hb hc]
  have h2 := blur_profile_lower _ _ c0 hBS (blur_nu_pos K hK).le
    (blur_BoundaryScale_pos K hK).le hc0 m 3 a ha
  have hPS : 0 ≤ (blur_nu Real.sqrt K / blur_lambda K) ^ 9 :=
    pow_nonneg (div_nonneg (blur_nu_pos K hK).le (blur_lambda_pos K hK).le) 9
  have h3 := mul_le_mul_of_nonneg_right h2 hPS
  have e : c0 * blur_BoundaryScale Real.sqrt K ^ (6 * 3) *
      (blur_nu Real.sqrt K / blur_lambda K) ^ 9 =
      c0 * (blur_BoundaryScale Real.sqrt K ^ 18 * (blur_nu Real.sqrt K / blur_lambda K) ^ 9) := by
    ring
  rw [e, hgain, mul_one] at h3
  exact h3

/-- Blurring the blurred constant volume `c0 > 0` once more raises the sample at voxel
`(0, 0, 0)`. -/
theorem gaussian_blur_twice_const (K c0 : ℝ) (hK : 0 < K) (hc0 : 0 < c0) (m n p : Nat)
    (hm : 2 ≤ m) (hn : 0 < n) (hp : 0 < p) :
    (gaussian_blur Real.sqrt (Vol.const m n p c0) K).get 0 0 0 <
      (gaussian_blur Real.sqrt (gaussian_blur Real.sqrt (Vol.const m n p c0) K) K).get 0 0 0 := by
  have hface := gaussian_blur_const_face K c0 hK hc0 m n p hm 0 0 hn hp
  have hnu := blur_nu_lt_one K hK
  have hPS : 0 < (blur_nu Real.sqrt K / blur_lambda K) ^ 9 :=
    pow_pos (div_pos (blur_nu_pos K hK) (blur_lambda_pos K hK)) 9
  -- the excess of the blurred volume over the constant
  have hx : ∀ i j k, 0 ≤ (Vol.lin 1 (gaussian_blur Real.sqrt (Vol.const m n p c0) K) (-1)
      (Vol.const m n p c0)).get i j k := by
    intro i j k
    rw [Vol.lin_get]
    by_cases hr : i < m ∧ j < n ∧ k < p
    · have := gaussian_blur_const_ge K c0 hK hc0.le i j k hr.1 hr.2.1 hr.2.2
      rw [Vol.get_const c0 hr.1 hr.2.1 hr.2.2]
      linarith
    · rw [Vol.get_of_not_lt _ hr, Vol.get_of_not_lt _ hr]
      simp
  have hsplit : gaussian_blur Real.sqrt (Vol.const m n p c0) K =
      Vol.lin 1 (Vol.const m n p c0) 1
        (Vol.lin 1 (gaussian_blur Real.sqrt (Vol.const m n p c0) K) (-1)
          (Vol.const m n p c0)) := by
    apply Vol.ext_get
    intro i j k _ _ _
    rw [Vol.lin_get, Vol.lin_get]
    ring
  have h1 := gaussian_blur_ge K hK _ hx 0 0 0
  have h2 : 0 < (Vol.lin 1 (gaussian_blur Real.sqrt (Vol.const m n p c0) K) (-1)
      (Vol.const m n p c0)).get 0 0 0 := by
    rw [Vol.lin_get, Vol.get_const c0 (by omega) hn hp]
    have : 0 < c0 * (1 - blur_nu Real.sqrt K) := mul_pos hc0 (by linarith)
    linarith
  have h3 := mul_pos h2 hPS
  conv_rhs => rw [hsplit, gaussian_blur_lin, Vol.lin_get]
  linarith

/-- C11: `gaussian_blur` is not idempotent: on the reference extents, for the constant
volume `1` and `sigma = 6`, blurring twice differs from blurring once. -/
theorem C11_gaussian_blur_not_idempotent :
    ∃ (v : Vol ℝ M N P) (Ksigma : ℝ), 0 < Ksigma ∧
      gaussian_blur Real.sqrt (gaussian_blur Real.sqrt v Ksigma) Ksigma ≠
        gaussian_blur Real.sqrt v Ksigma := by
  refine ⟨Vol.const M N P 1, 6, by norm_num, ?_⟩
  intro h
  have h1 := gaussian_blur_twice_const 6 1 (by norm_num) one_pos M N P
    (by decide) (by decide) (by decide)
  rw [h] at h1
  exact lt_irrefl _ h1

end BlurOrder

/-! ## Arguments outside the documented range -/

section NoArgumentCheck

/-- C12 (amended): `gaussian_blur` and `rician_deconv3` test none of their arguments and
have no error exit: on the reference extents, for every value of `sigma_blur`,
`sigma_noise` and `lambda`, zero and negative values included, both routines run through
all their loops and return (the bounds-checked routines, whose only failing path is an
out-of-range access, return a result); with `sigma = 0` the divisor `2 * lambda` of
line 39 is zero, and with `sigma_noise = 0` the divisor `sigma2` of lines 157 and 203 is
zero. -/
theorem C12_arguments_are_not_checked {α : Type} [Field α] (sqrt : α → α)
    (u f g conv : Vol α M N P) (Ksigma sigma lambda : α) :
    (∃ v, gaussian_blur_chk sqrt u Ksigma = some v) ∧
    (∃ s, rician_deconv3_chk sqrt u f g conv Ksigma sigma lambda = some s) ∧
    2 * blur_lambda (0 : α) = 0 ∧ SQR (0 : α) = 0 := by
  refine ⟨⟨_, gaussian_blur_chk_eq sqrt (by decide) (by decide) (by decide) u Ksigma⟩,
    ⟨_, rician_deconv3_chk_eq sqrt (by decide) (by decide) (by decide) u f g conv Ksigma sigma
      lambda⟩, ?_, ?_⟩
  · simp [blur_lambda]
  · simp [SQR]

/-- C12 (counterexample): on the reference extents, `gaussian_blur` called with
`sigma = 0` on the constant volume `1`, and `rician_deconv3` called with
`sigma_noise = 0` (and with `sigma_blur = 0`) on constant volumes, do not fail: they
return a volume. -/
theorem C12_zero_sigma_is_computed_through :
    (0 : ℝ) ≤ 0 ∧
    gaussian_blur_chk Real.sqrt (Vol.const M N P (1 : ℝ)) 0 ≠ none ∧
    rician_deconv3_chk Real.sqrt (Vol.const M N P (1 : ℝ)) (Vol.const M N P 1)
      (Vol.const M N P 0) (Vol.const M N P 0) 6 0 1 ≠ none ∧
    rician_deconv3_chk Real.sqrt (Vol.const M N P (1 : ℝ)) (Vol.const M N P 1)
      (Vol.const M N P 0) (Vol.const M N P 0) 0 1 1 ≠ none := by
  refine ⟨le_refl _, ?_, ?_, ?_⟩
  · rw [gaussian_blur_chk_eq Real.sqrt (by decide) (by decide) (by decide)]
    exact Option.some_ne_none _
  · rw [rician_deconv3_chk_eq Real.sqrt (by decide) (by decide) (by decide)]
    exact Option.some_ne_none _
  · rw [rician_deconv3_chk_eq Real.sqrt (by decide) (by decide) (by decide)]
    exact Option.some_ne_none _

end NoArgumentCheck

/-! ## The passes of `gaussian_blur` as recurrences -/

section PassRecurrences

variable {α : Type} [Field α] {m n p : Nat}

theorem filter_right_rec (nu BS : α) (u : Vol α m n p) (a b c : Nat)
    (ha : a < m) (hb : b < n) (hc : c < p) :
    (filter_right nu BS c u).get a b c =
      if b = 0 then u.get a b c * BS
      else u.get a b c + nu * (filter_right nu BS c u).get a (b - 1) c := by
  have e1 : (filter_right nu BS c u).get a b c = line_fwd nu BS (fun t => u.get a t c) b := by
    rw [filter_right_get nu BS c hc (by omega), if_pos ⟨⟨rfl, ha⟩, hb⟩]
  have e2 : (filter_right nu BS c u).get a (b - 1) c =
      line_fwd nu BS (fun t => u.get a t c) (b - 1) := by
    rw [filter_right_get nu BS c hc (by omega), if_pos ⟨⟨rfl, ha⟩, by omega⟩]
  rw [e1, e2]
  cases b with
  | zero => simp [line_fwd]
  | succ b => simp [line_fwd]

theorem filter_left_rec (nu BS : α) (u : Vol α m n p) (a b c : Nat)
    (ha : a < m) (hb : b < n) (hc : c < p) :
    (filter_left nu BS c u).get a b c =
      if b + 1 = n then u.get a b c * BS
      else u.get a b c + nu * (filter_left nu BS c u).get a (b + 1) c := by
  rw [filter_left_get nu BS c hc (by omega), if_pos ⟨⟨rfl, ha⟩, hb⟩]
  split_ifs with h
  · rw [line_bwd_last _ _ _ _ b h]
  · have e2 : (filter_left nu BS c u).get a (b + 1) c =
        line_bwd nu BS n (fun t => u.get a t c) (b + 1) := by
      rw [filter_left_get nu BS c hc (by omega), if_pos ⟨⟨rfl, ha⟩, by omega⟩]
    rw [line_bwd_step _ _ _ _ b (by omega), e2]

theorem filter_out_rec (nu BS : α) (u : Vol α m n p) (a b c : Nat)
    (ha : a < m) (hb : b < n) (hc : c < p) :
    (filter_out nu BS u).get a b c =
      if c = 0 then u.get a b c * BS
      else u.get a b c + nu * (filter_out nu BS u).get a b (c - 1) := by
  have e1 : (filter_out nu BS u).get a b c = line_fwd nu BS (fun t => u.get a b t) c := by
    rw [filter_out_get nu BS (by omega), if_pos ⟨⟨ha, hb⟩, hc⟩]
  have e2 : (filter_out nu BS u).get a b (c - 1) =
      line_fwd nu BS (fun t => u.get a b t) (c - 1) := by
    rw [filter_out_get nu BS (by omega), if_pos ⟨⟨ha, hb⟩, by omega⟩]
  rw [e1, e2]
  cases c with
  | zero => simp [line_fwd]
  | succ c => simp [line_fwd]

theorem filter_in_rec (nu BS : α) (u : Vol α m n p) (a b c : Nat)
    (ha : a < m) (hb : b < n) (hc : c < p) :
    (filter_in nu BS u).get a b c =
      if c + 1 = p then u.get a b c * BS
      else u.get a b c + nu * (filter_in nu BS u).get a b (c + 1) := by
  rw [filter_in_get nu BS (by omega), if_pos ⟨⟨ha, hb⟩, hc⟩]
  split_ifs with h
  · rw [line_bwd_last _ _ _ _ c h]
  · have e2 : (filter_in nu BS u).get a b (c + 1) =
        line_bwd nu BS p (fun t => u.get a b t) (c + 1) := by
      rw [filter_in_get nu BS (by omega), if_pos ⟨⟨ha, hb⟩, by omega⟩]
    rw [line_bwd_step _ _ _ _ c (by omega), e2]

theorem filter_down_up_last (nu BS : α) (u : Vol α m n p) (a b c : Nat)
    (ha : a < m) (hb : b < n) (hc : c < p) :
    (filter_down_up nu BS c u).get (m - 1) b c =
      line_fwd nu BS (fun t => u.get t b c) (m - 1) * BS := by
  rw [filter_down_up_get nu BS c hc, if_pos ⟨⟨rfl, by omega⟩, by omega, hb⟩]
  simp only [pass_axis1]
  rw [line_bwd_last _ _ _ _ (m - 1) (by omega)]

/-- C14 (amended): `BoundaryScale` is `1 / (1 - nu)`; along each of the three axes the
backward pass scales the last sample of the scan line by `BoundaryScale`, as the forward
pass scales the first one; along the second and the third axis the forward pass then
adds to each sample `nu` times the filtered sample before it, and the backward pass adds
to each sample `nu` times the filtered sample after it. -/
theorem C14_passes_along_axes (sqrt : α → α) (Ksigma nu BS : α) (u : Vol α m n p)
    (a b c : Nat) (ha : a < m) (hb : b < n) (hc : c < p) :
    blur_BoundaryScale sqrt Ksigma = 1 / (1 - blur_nu sqrt Ksigma) ∧
    (filter_down_up nu BS c u).get (m - 1) b c =
      line_fwd nu BS (fun t => u.get t b c) (m - 1) * BS ∧
    (filter_right nu BS c u).get a b c =
      (if b = 0 then u.get a b c * BS
       else u.get a b c + nu * (filter_right nu BS c u).get a (b - 1) c) ∧
    (filter_left nu BS c u).get a b c =
      (if b + 1 = n then u.get a b c * BS
       else u.get a b c + nu * (filter_left nu BS c u).get a (b + 1) c) ∧
    (filter_out nu BS u).get a b c =
      (if c = 0 then u.get a b c * BS
       else u.get a b c + nu * (filter_out nu BS u).get a b (c - 1)) ∧
    (filter_in nu BS u).get a b c =
      (if c + 1 = p then u.get a b c * BS
       else u.get a b c + nu * (filter_in nu BS u).get a b (c + 1)) :=
  ⟨rfl, filter_down_up_last nu BS u a b c ha hb hc, filter_right_rec nu BS u a b c ha hb hc,
    filter_left_rec nu BS u a b c ha hb hc, filter_out_rec nu BS u a b c ha hb hc,
    filter_in_rec nu BS u a b c ha hb hc⟩

/-- Witness for C14 (amended) on the reference extents: `sigma = 6`, the constant volume
`1`, voxel `(0, 58, 0)` of the backward pass along the second axis. -/
theorem C14_passes_along_axes_witness :
    0 < M ∧ 58 < N ∧ 0 < P ∧
    (filter_left (blur_nu Real.sqrt 6) (blur_BoundaryScale Real.sqrt 6) 0
        (Vol.const M N P (1 : ℝ))).get 0 58 0 =
      (if 58 + 1 = N then (Vol.const M N P (1 : ℝ)).get 0 58 0 * blur_BoundaryScale Real.sqrt 6
       else (Vol.const M N P (1 : ℝ)).get 0 58 0 + blur_nu Real.sqrt 6 *
        (filter_left (blur_nu Real.sqrt 6) (blur_BoundaryScale Real.sqrt 6) 0
          (Vol.const M N P (1 : ℝ))).get 0 (58 + 1) 0) :=
  ⟨by decide, by decide, by decide,
    (C14_passes_along_axes Real.sqrt 6 (blur_nu Real.sqrt 6) (blur_BoundaryScale Real.sqrt 6)
      (Vol.const M N P (1 : ℝ)) 0 58 0 (by decide) (by decide) (by decide)).2.2.2.1⟩

end PassRecurrences

section PassCounterexample

/-- C14 (counterexample): on the reference extents and for `sigma = 6`, the backward pass
along the second axis (lines 86-93) applied to the constant volume `1` does not add to
the sample at `(0, 58, 0)` the filtered sample after it: it adds `nu` times that
sample. -/
theorem C14_backward_pass_has_nu :
    (filter_left (blur_nu Real.sqrt 6) (blur_BoundaryScale Real.sqrt 6) 0
        (Vol.const M N P (1 : ℝ))).get 0 58 0 ≠
      (Vol.const M N P (1 : ℝ)).get 0 58 0 +
        (filter_left (blur_nu Real.sqrt 6) (blur_BoundaryScale Real.sqrt 6) 0
          (Vol.const M N P (1 : ℝ))).get 0 59 0 := by
  have h1 := filter_left_rec (blur_nu Real.sqrt 6) (blur_BoundaryScale Real.sqrt 6)
    (Vol.const M N P (1 : ℝ)) 0 58 0 (by decide) (by decide) (by decide)
  have h2 := filter_left_rec (blur_nu Real.sqrt 6) (blur_BoundaryScale Real.sqrt 6)
    (Vol.const M N P (1 : ℝ)) 0 59 0 (by decide) (by decide) (by decide)
  rw [if_neg (by decide)] at h1
  rw [if_pos (by decide)] at h2
  have hnu := blur_nu_lt_one 6 (by norm_num)
  have hB := blur_BoundaryScale_pos 6 (by norm_num)
  rw [h1]
  have e59 : (Vol.const M N P (1 : ℝ)).get 0 59 0 = 1 :=
    Vol.get_const 1 (by decide) (by decide) (by decide)
  rw [e59, one_mul] at h2
  rw [h2]
  intro h
  have : (1 - blur_nu Real.sqrt 6) * blur_BoundaryScale Real.sqrt 6 = 0 := by linarith
  have h3 : 0 < (1 - blur_nu Real.sqrt 6) * blur_BoundaryScale Real.sqrt 6 :=
    mul_pos (by linarith) hB
  linarith

end PassCounterexample

/-! ## The pole of the recursive filter -/

section PoleClaim

/-- C16 (amended): over exact real arithmetic, for every `sigma > 0`,
`lambda = sigma^2 / (2 * GAUSSIAN_NUMSTEPS)` is positive and the pole
`nu = (1 + 2 lambda - sqrt(1 + 4 lambda)) / (2 lambda)` of `gaussian_blur` satisfies
`0 < nu < 1`, so the divisors `2 * lambda` and `1 - nu` of lines 39 and 40 are not
zero. -/
theorem C16_pole_in_unit_interval (Ksigma : ℝ) (h : 0 < Ksigma) :
    0 < blur_lambda Ksigma ∧
    0 < blur_nu Real.sqrt Ksigma ∧ blur_nu Real.sqrt Ksigma < 1 ∧
    2 * blur_lambda Ksigma ≠ 0 ∧ 1 - blur_nu Real.sqrt Ksigma ≠ 0 := by
  have h1 := blur_lambda_pos Ksigma h
  have h2 := blur_nu_pos Ksigma h
  have h3 := blur_nu_lt_one Ksigma h
  refine ⟨h1, h2, h3, ?_, ?_⟩
  · exact ne_of_gt (by linarith)
  · exact ne_of_gt (by linarith)

/-- Witness for C16 at `sigma = 6`. -/
theorem C16_pole_in_unit_interval_witness :
    (0 : ℝ) < 6 ∧
    (0 < blur_lambda (6 : ℝ) ∧
      0 < blur_nu Real.sqrt 6 ∧ blur_nu Real.sqrt 6 < 1 ∧
      2 * blur_lambda (6 : ℝ) ≠ 0 ∧ 1 - blur_nu Real.sqrt 6 ≠ 0) :=
  ⟨by norm_num, C16_pole_in_unit_interval 6 (by norm_num)⟩

end PoleClaim

/-! ## The residual loop -/

section ResidualFacts

variable {α : Type} [Field α] {m n p : Nat}

end ResidualFacts

/-! ## Bounds on the diffusivity and on the update denominator -/

section DiffusivityBounds

variable {m n p : Nat}

theorem diffusivity_value_eq (u : Vol ℝ m n p) (i j k : Nat) :
    diffusivity_value Real.sqrt u i j k = 1 / Real.sqrt (diffusivity_radicand u i j k) := rfl

theorem EPSILON_pos : 0 < EPSILON ℝ := by unfold EPSILON; norm_num

theorem sqrt_EPSILON : Real.sqrt (EPSILON ℝ) = 1 / 100000 := by
  have e : EPSILON ℝ = (1 / 100000) ^ 2 := by unfold EPSILON; norm_num
  rw [e, Real.sqrt_sq (by norm_num)]

theorem radicand_ge (u : Vol ℝ m n p) (i j k : Nat) :
    EPSILON ℝ ≤ diffusivity_radicand u i j k := by
  unfold diffusivity_radicand SQR
  have h1 := mul_self_nonneg (u.get i j k - u.get i (j + 1) k)
  have h2 := mul_self_nonneg (u.get i j k - u.get i (j - 1) k)
  have h3 := mul_self_nonneg (u.get i j k - u.get (i - 1) j k)
  have h4 := mul_self_nonneg (u.get i j k - u.get (i + 1) j k)
  have h5 := mul_self_nonneg (u.get i j k - u.get i j (k - 1))
  have h6 := mul_self_nonneg (u.get i j k - u.get i j (k + 1))
  linarith

theorem radicand_eq_iff (u : Vol ℝ m n p) (i j k : Nat) :
    diffusivity_radicand u i j k = EPSILON ℝ ↔
      (u.get i j k = u.get i (j + 1) k ∧ u.get i j k = u.get i (j - 1) k ∧
        u.get i j k = u.get (i - 1) j k ∧ u.get i j k = u.get (i + 1) j k ∧
        u.get i j k = u.get i j (k - 1) ∧ u.get i j k = u.get i j (k + 1)) := by
  unfold diffusivity_radicand SQR
  have h1 := mul_self_nonneg (u.get i j k - u.get i (j + 1) k)
  have h2 := mul_self_nonneg (u.get i j k - u.get i (j - 1) k)
  have h3 := mul_self_nonneg (u.get i j k - u.get (i - 1) j k)
  have h4 := mul_self_nonneg (u.get i j k - u.get (i + 1) j k)
  have h5 := mul_self_nonneg (u.get i j k - u.get i j (k - 1))
  have h6 := mul_self_nonneg (u.get i j k - u.get i j (k + 1))
  constructor
  · intro h
    have z1 : (u.get i j k - u.get i (j + 1) k) * (u.get i j k - u.get i (j + 1) k) = 0 := by
      linarith
    have z2 : (u.get i j k - u.get i (j - 1) k) * (u.get i j k - u.get i (j - 1) k) = 0 := by
      linarith
    have z3 : (u.get i j k - u.get (i - 1) j k) * (u.get i j k - u.get (i - 1) j k) = 0 := by
      linarith
    have z4 : (u.get i j k - u.get (i + 1) j k) * (u.get i j k - u.get (i + 1) j k) = 0 := by
      linarith
    have z5 : (u.get i j k - u.get i j (k - 1)) * (u.get i j k - u.get i j (k - 1)) = 0 := by
      linarith
    have z6 : (u.get i j k - u.get i j (k + 1)) * (u.get i j k - u.get i j (k + 1)) = 0 := by
      linarith
    exact ⟨sub_eq_zero.1 (mul_self_eq_zero.1 z1), sub_eq_zero.1 (mul_self_eq_zero.1 z2),
      sub_eq_zero.1 (mul_self_eq_zero.1 z3), sub_eq_zero.1 (mul_self_eq_zero.1 z4),
      sub_eq_zero.1 (mul_self_eq_zero.1 z5), sub_eq_zero.1 (mul_self_eq_zero.1 z6)⟩
  · rintro ⟨e1, e2, e3, e4, e5, e6⟩
    rw [← e1, ← e2, ← e3, ← e4, ← e5, ← e6]
    ring

theorem diffusivity_value_bounds (u : Vol ℝ m n p) (i j k : Nat) :
    0 < diffusivity_value Real.sqrt u i j k ∧
    diffusivity_value Real.sqrt u i j k ≤ 100000 ∧
    (diffusivity_value Real.sqrt u i j k = 100000 ↔
      diffusivity_radicand u i j k = EPSILON ℝ) := by
  have hR := radicand_ge u i j k
  have hE := EPSILON_pos
  have hs : 0 < Real.sqrt (diffusivity_radicand u i j k) := Real.sqrt_pos.2 (by linarith)
  have hle : 1 / 100000 ≤ Real.sqrt (diffusivity_radicand u i j k) := by
    rw [← sqrt_EPSILON]
    exact Real.sqrt_le_sqrt hR
  rw [diffusivity_value_eq]
  refine ⟨by positivity, ?_, ?_⟩
  · rw [div_le_iff₀ hs]
    nlinarith
  · constructor
    · intro h
      have h2 : Real.sqrt (diffusivity_radicand u i j k) = 1 / 100000 := by
        field_simp at h
        field_simp
        linarith
      rw [← sqrt_EPSILON] at h2
      exact (Real.sqrt_inj (by linarith) hE.le).1 h2
    · intro h
      rw [h, sqrt_EPSILON]
      norm_num

/-- C17 (amended): over exact real arithmetic, the quantity under the square root of the
diffusivity step is at least `EPSILON = 1e-10` for every volume and every voxel, so its
square root is not zero, and every value written to `g` (at the interior voxels)
satisfies `0 < g <= 1 / sqrt(EPSILON) = 100000`, with equality exactly when the voxel
equals all six face neighbours. -/
theorem C17_diffusivity_bounded (u g : Vol ℝ m n p) (i j k : Nat)
    (h : interior m n p i j k) :
    EPSILON ℝ = 1 / 10000000000 ∧
    EPSILON ℝ ≤ diffusivity_radicand u i j k ∧
    Real.sqrt (diffusivity_radicand u i j k) ≠ 0 ∧
    (diffusivity Real.sqrt u g).get i j k = 1 / Real.sqrt (diffusivity_radicand u i j k) ∧
    0 < (diffusivity Real.sqrt u g).get i j k ∧
    (diffusivity Real.sqrt u g).get i j k ≤ 1 / Real.sqrt (EPSILON ℝ) ∧
    1 / Real.sqrt (EPSILON ℝ) = 100000 ∧
    ((diffusivity Real.sqrt u g).get i j k = 100000 ↔
      (u.get i j k = u.get i (j + 1) k ∧ u.get i j k = u.get i (j - 1) k ∧
        u.get i j k = u.get (i - 1) j k ∧ u.get i j k = u.get (i + 1) j k ∧
        u.get i j k = u.get i j (k - 1) ∧ u.get i j k = u.get i j (k + 1))) := by
  have hb := diffusivity_value_bounds u i j k
  have hR := radicand_ge u i j k
  have hE := EPSILON_pos
  have e100 : 1 / Real.sqrt (EPSILON ℝ) = 100000 := by rw [sqrt_EPSILON]; norm_num
  rw [diffusivity_get, if_pos h, e100, ← radicand_eq_iff]
  exact ⟨rfl, hR, ne_of_gt (Real.sqrt_pos.2 (by linarith)), diffusivity_value_eq u i j k,
    hb.1, hb.2.1, rfl, hb.2.2⟩

/-- Witness for C17 on the reference extents: the constant volume `1` at the interior
voxel `(1, 1, 1)`. -/
theorem C17_diffusivity_bounded_witness :
    interior M N P 1 1 1 ∧
    0 < (diffusivity Real.sqrt (Vol.const M N P (1 : ℝ)) (Vol.const M N P 0)).get 1 1 1 ∧
    (diffusivity Real.sqrt (Vol.const M N P (1 : ℝ)) (Vol.const M N P 0)).get 1 1 1 ≤
      1 / Real.sqrt (EPSILON ℝ) :=
  ⟨by decide,
    (C17_diffusivity_bounded (Vol.const M N P 1) (Vol.const M N P 0) 1 1 1 (by decide)).2.2.2.2.1,
    (C17_diffusivity_bounded (Vol.const M N P 1) (Vol.const M N P 0) 1 1 1
      (by decide)).2.2.2.2.2.1⟩

end DiffusivityBounds

section DenominatorBounds

variable {m n p : Nat}

theorem sweep_value_eq_div {α : Type} [Field α] (gamma : α) (g conv u : Vol α m n p)
    (i j k : Nat) :
    sweep_value gamma g conv u i j k =
      update_numer gamma g conv u i j k / update_denom g i j k := by
  rw [sweep_value]
  simp only [update_numer, update_denom, sweep_content, dite_eq_ite]

theorem diffusivity_const_get (c0 : ℝ) (g : Vol ℝ m n p) (i j k : Nat)
    (h : interior m n p i j k) :
    (diffusivity Real.sqrt (Vol.const m n p c0) g).get i j k = 100000 := by
  have hh := h
  unfold interior at hh
  obtain ⟨i1, i2, j1, j2, k1, k2⟩ := hh
  rw [diffusivity_get, if_pos h]
  apply (diffusivity_value_bounds _ i j k).2.2.2
  rw [radicand_eq_iff]
  simp only [Vol.get_const_ite]
  refine ⟨?_, ?_, ?_, ?_, ?_, ?_⟩ <;>
    rw [if_pos ⟨by omega, by omega, by omega⟩, if_pos ⟨by omega, by omega, by omega⟩]

theorem iterations_g_frame {α : Type} [Field α] (sqrt : α → α) (f g conv u : Vol α m n p)
    (K sigma2 gamma : α) (t : Nat) (a b c : Nat) (h : ¬ interior m n p a b c) :
    ((rician_iteration sqrt f K sigma2 gamma)^[t] ⟨u, g, conv, []⟩).g.get a b c =
      g.get a b c := by
  induction t with
  | zero => rfl
  | succ t ih =>
    rw [Function.iterate_succ_apply', rician_iteration_g, diffusivity_frame _ _ _ a b c h, ih]

theorem update_denom_ge_one (g : Vol ℝ m n p)
    (hg : ∀ a b c, a < m → b < n → c < p → 0 ≤ g.get a b c)
    (i j k : Nat) (h : interior m n p i j k) : 1 ≤ update_denom g i j k := by
  unfold interior at h
  obtain ⟨i1, i2, j1, j2, k1, k2⟩ := h
  unfold update_denom
  have hD := DT_pos
  have q1 := hg i (j + 1) k (by omega) (by omega) (by omega)
  have q2 := hg i (j - 1) k (by omega) (by omega) (by omega)
  have q3 := hg (i + 1) j k (by omega) (by omega) (by omega)
  have q4 := hg (i - 1) j k (by omega) (by omega) (by omega)
  have q5 := hg i j (k - 1) (by omega) (by omega) (by omega)
  have q6 := hg i j (k + 1) (by omega) (by omega) (by omega)
  have : 0 ≤ DT ℝ * (g.get i (j + 1) k + g.get i (j - 1) k +
      g.get (i + 1) j k + g.get (i - 1) j k +
      g.get i j (k - 1) + g.get i j (k + 1)) := by positivity
  linarith

/-- C20 (amended): over exact real arithmetic, if on entry every boundary voxel of `g` is
`>= 0`, then in every iteration of `rician_deconv3` (the one that follows `t` completed
iterations, for every `t`) and at every interior voxel the value written to `u` is
`numer / denom` with
`denom = 1 + DT * (sum of the six neighbouring g values) >= 1`, so the division is not by
zero; without the precondition the denominator is not bounded away from zero: on the
reference extents, with `u = 1` everywhere and `g = 0` on entry except
`g[1][0][1] = -310000`, the denominator of the first iteration at voxel `(1, 1, 1)` is
`0`. -/
theorem C20_update_denominator (f u g conv : Vol ℝ m n p) (Ksigma sigma lambda : ℝ)
    (t : Nat) (i j k : Nat) :
    ((∀ a b c, a < m → b < n → c < p → ¬ interior m n p a b c → 0 ≤ g.get a b c) →
      interior m n p i j k →
      1 ≤ update_denom (diffusivity Real.sqrt
          ((rician_iteration Real.sqrt f Ksigma (SQR sigma) (lambda / SQR sigma))^[t]
            ⟨u, g, conv, []⟩).u
          ((rician_iteration Real.sqrt f Ksigma (SQR sigma) (lambda / SQR sigma))^[t]
            ⟨u, g, conv, []⟩).g) i j k ∧
      ((rician_iteration Real.sqrt f Ksigma (SQR sigma) (lambda / SQR sigma))^[t + 1]
          ⟨u, g, conv, []⟩).u.get i j k =
        update_numer (lambda / SQR sigma)
          ((rician_iteration Real.sqrt f Ksigma (SQR sigma) (lambda / SQR sigma))^[t + 1]
            ⟨u, g, conv, []⟩).g
          ((rician_iteration Real.sqrt f Ksigma (SQR sigma) (lambda / SQR sigma))^[t + 1]
            ⟨u, g, conv, []⟩).conv
          ((rician_iteration Real.sqrt f Ksigma (SQR sigma) (lambda / SQR sigma))^[t]
            ⟨u, g, conv, []⟩).u i j k /
        update_denom (diffusivity Real.sqrt
          ((rician_iteration Real.sqrt f Ksigma (SQR sigma) (lambda / SQR sigma))^[t]
            ⟨u, g, conv, []⟩).u
          ((rician_iteration Real.sqrt f Ksigma (SQR sigma) (lambda / SQR sigma))^[t]
            ⟨u, g, conv, []⟩).g) i j k) ∧
    update_denom (diffusivity Real.sqrt (Vol.const M N P (1 : ℝ))
      ((Vol.const M N P (0 : ℝ)).set 1 0 1 (-310000))) 1 1 1 = 0 := by
  constructor
  · intro hg hint
    have hfr := iterations_g_frame Real.sqrt f g conv u Ksigma (SQR sigma) (lambda / SQR sigma) t
    rw [Function.iterate_succ_apply']
    generalize (rician_iteration Real.sqrt f Ksigma (SQR sigma) (lambda / SQR sigma))^[t]
      ⟨u, g, conv, []⟩ = s at hfr ⊢
    constructor
    · apply update_denom_ge_one _ _ i j k hint
      intro a b c ha hb hc
      rw [diffusivity_get]
      split_ifs with h
      · exact (diffusivity_value_bounds s.u a b c).1.le
      · rw [hfr a b c h]
        exact hg a b c ha hb hc h
    · rw [rician_iteration_g, rician_iteration_conv, rician_iteration_u, update_u_get,
        sweep_content, if_pos hint, sweep_value_eq_div]
  · unfold update_denom
    rw [diffusivity_const_get 1 _ 1 2 1 (by decide), diffusivity_const_get 1 _ 2 1 1 (by decide),
      diffusivity_const_get 1 _ 1 1 2 (by decide), diffusivity_frame _ _ _ 1 0 1 (by decide),
      diffusivity_frame _ _ _ 0 1 1 (by decide), diffusivity_frame _ _ _ 1 1 0 (by decide)]
    simp only [Vol.get_set, Vol.get_const_ite, M, N, P, DT]
    norm_num

/-- Witness for C20 on the reference extents: `g = 0` on entry, the fourth iteration,
voxel `(1, 1, 1)`. -/
theorem C20_update_denominator_witness :
    (∀ a b c, a < M → b < N → c < P → ¬ interior M N P a b c →
      0 ≤ (Vol.const M N P (0 : ℝ)).get a b c) ∧
    interior M N P 1 1 1 ∧
    1 ≤ update_denom (diffusivity Real.sqrt
        ((rician_iteration Real.sqrt (Vol.const M N P 1) 6 (SQR 1) ((1 / 10) / SQR 1))^[3]
          ⟨Vol.const M N P 1, Vol.const M N P 0, Vol.const M N P 0, []⟩).u
        ((rician_iteration Real.sqrt (Vol.const M N P 1) 6 (SQR 1) ((1 / 10) / SQR 1))^[3]
          ⟨Vol.const M N P 1, Vol.const M N P 0, Vol.const M N P 0, []⟩).g) 1 1 1 :=
  have hyp : ∀ a b c, a < M → b < N → c < P → ¬ interior M N P a b c →
      0 ≤ (Vol.const M N P (0 : ℝ)).get a b c := by
    intro a b c ha hb hc _
    rw [Vol.get_const 0 ha hb hc]
  ⟨hyp, by decide,
    ((C20_update_denominator (Vol.const M N P 1) (Vol.const M N P 1) (Vol.const M N P 0)
      (Vol.const M N P 0) 6 1 (1 / 10) 3 1 1 1).1 hyp (by decide)).1⟩

end DenominatorBounds

/-! ## The update sweep with direct reads -/

section DirectSweepFacts

variable {α : Type} [Field α] {m n p : Nat}

theorem update_direct_line (gamma : α) (g conv u0 u : Vol α m n p) (j k : Nat)
    (hj1 : 1 ≤ j) (hj : j < n - 1) (hk1 : 1 ≤ k) (hk : k < p - 1)
    (hu : ∀ a b c, u.get a b c =
      if interior m n p a b c ∧ (c < k ∨ (c = k ∧ b < j)) then direct_value gamma g conv u0 a b c
      else u0.get a b c)
    (a b c : Nat) :
    (loopUp 1 (m - 1) (update_body_direct gamma g conv j k) u).get a b c =
      if interior m n p a b c ∧ (c < k ∨ (c = k ∧ b < j + 1))
      then direct_value gamma g conv u0 a b c else u0.get a b c := by
  by_cases hle : 1 ≤ m - 1
  · have key := loopUp_inv 1 (m - 1) (update_body_direct gamma g conv j k)
      (fun i w => ∀ a b c, w.get a b c =
          if interior m n p a b c ∧ (c < k ∨ (c = k ∧ (b < j ∨ (b = j ∧ a < i))))
          then direct_value gamma g conv u0 a b c else u0.get a b c)
      u hle ?_ ?_
    · rw [key a b c]
      unfold interior
      split_ifs <;> first | rfl | (exfalso; omega)
    · intro a b c
      rw [hu a b c]
      unfold interior
      split_ifs <;> first | rfl | (exfalso; omega)
    · intro i w h1 h2 hw a b c
      simp only [update_body_direct]
      rw [Vol.get_set]
      by_cases e : a = i ∧ b = j ∧ c = k
      · obtain ⟨rfl, rfl, rfl⟩ := e
        have hint : interior m n p a b c := ⟨h1, by omega, hj1, by omega, hk1, by omega⟩
        rw [if_pos ⟨rfl, rfl, rfl, by omega, by omega, by omega⟩,
          if_pos ⟨hint, Or.inr ⟨rfl, Or.inr ⟨rfl, by omega⟩⟩⟩]
        rw [direct_value]
        have e0 : w.get a b c = u0.get a b c := by
          rw [hw, if_neg]; omega
        have e1 : w.get a (b + 1) c = u0.get a (b + 1) c := by
          rw [hw, if_neg]; omega
        have e2 : w.get a (b - 1) c =
            (if h : interior m n p a (b - 1) c then direct_value gamma g conv u0 a (b - 1) c
              else u0.get a (b - 1) c) := by
          rw [hw]
          unfold interior
          split_ifs <;> first | rfl | (exfalso; omega)
        have e3 : w.get a b (c - 1) =
            (if h : interior m n p a b (c - 1) then direct_value gamma g conv u0 a b (c - 1)
              else u0.get a b (c - 1)) := by
          rw [hw]
          unfold interior
          split_ifs <;> first | rfl | (exfalso; omega)
        have e4 : w.get a b (c + 1) = u0.get a b (c + 1) := by
          rw [hw, if_neg]; omega
        have e5 : w.get (a + 1) b c = u0.get (a + 1) b c := by
          rw [hw, if_neg]; omega
        have e6 : w.get (a - 1) b c =
            (if h : interior m n p (a - 1) b c then direct_value gamma g conv u0 (a - 1) b c
              else u0.get (a - 1) b c) := by
          rw [hw]
          unfold interior
          split_ifs <;> first | rfl | (exfalso; omega)
        simp only [e0, e1, e2, e3, e4, e5, e6]
      · rw [if_neg (fun h => e ⟨h.1, h.2.1, h.2.2.1⟩), hw a b c]
        unfold interior
        split_ifs <;> first | rfl | (exfalso; omega)
  · rw [loopUp_of_le _ _ _ _ (by omega), hu a b c]
    unfold interior
    split_ifs <;> first | rfl | (exfalso; omega)

theorem update_u_direct_get (gamma : α) (g conv u : Vol α m n p) (a b c : Nat) :
    (update_u_direct gamma g conv u).get a b c =
      if interior m n p a b c then direct_value gamma g conv u a b c else u.get a b c := by
  have plane : ∀ k, 1 ≤ k → k < p - 1 → ∀ (v : Vol α m n p),
      (∀ a b c, v.get a b c =
        if interior m n p a b c ∧ c < k then direct_value gamma g conv u a b c
        else u.get a b c) →
      ∀ a b c, (loopUp 1 (n - 1) (fun j u =>
        loopUp 1 (m - 1) (update_body_direct gamma g conv j k) u) v).get a b c =
        if interior m n p a b c ∧ c < k + 1 then direct_value gamma g conv u a b c
        else u.get a b c := by
    intro k hk1 hk v hv
    by_cases hle : 1 ≤ n - 1
    · have key := loopUp_inv 1 (n - 1) (fun j u =>
        loopUp 1 (m - 1) (update_body_direct gamma g conv j k) u)
        (fun j w => ∀ a b c, w.get a b c =
          if interior m n p a b c ∧ (c < k ∨ (c = k ∧ b < j))
          then direct_value gamma g conv u a b c else u.get a b c)
        v hle ?_ ?_
      · intro a b c
        rw [key a b c]
        unfold interior
        split_ifs <;> first | rfl | (exfalso; omega)
      · intro a b c
        rw [hv a b c]
        unfold interior
        split_ifs <;> first | rfl | (exfalso; omega)
      · intro j w h1 h2 hw a b c
        exact update_direct_line gamma g conv u w j k h1 h2 hk1 hk hw a b c
    · intro a b c
      rw [loopUp_of_le _ _ _ _ (by omega), hv a b c]
      unfold interior
      split_ifs <;> first | rfl | (exfalso; omega)
  by_cases hle : 1 ≤ p - 1
  · have key := loopUp_inv 1 (p - 1) (fun k u =>
      loopUp 1 (n - 1) (fun j u =>
        loopUp 1 (m - 1) (update_body_direct gamma g conv j k) u) u)
      (fun k w => ∀ a b c, w.get a b c =
        if interior m n p a b c ∧ c < k then direct_value gamma g conv u a b c
        else u.get a b c)
      u hle ?_ ?_
    · have := key a b c
      unfold update_u_direct
      rw [this]
      unfold interior
      split_ifs <;> first | rfl | (exfalso; omega)
    · intro a b c
      rw [if_neg]
      unfold interior
      omega
    · intro k w h1 h2 hw a b c
      exact plane k h1 h2 w hw a b c
  · unfold update_u_direct
    rw [loopUp_of_le _ _ _ _ (by omega), if_neg]
    unfold interior
    omega

theorem rician_iteration_direct_u (sqrt : α → α) (f : Vol α m n p) (Ksigma sigma2 gamma : α)
    (s : DState α m n p) :
    (rician_iteration_direct sqrt f Ksigma sigma2 gamma s).u =
      update_u_direct gamma (diffusivity sqrt s.u s.g)
        (gaussian_blur sqrt (residual f sigma2 (gaussian_blur sqrt s.u Ksigma)) Ksigma) s.u := by
  simp [rician_iteration_direct, call_blur_conv, copy_u_eq]

end DirectSweepFacts

section StaleWindow

theorem first_sweep_g (i j k : Nat) :
    (diffusivity Real.sqrt (Vol.const M N P (1 : ℝ)) (Vol.const M N P 1)).get i j k =
      if interior M N P i j k then 100000 else if i < M ∧ j < N ∧ k < P then 1 else 0 := by
  by_cases h : interior M N P i j k
  · rw [if_pos h, diffusivity_const_get 1 _ i j k h]
  · rw [if_neg h, diffusivity_frame _ _ _ i j k h, Vol.get_const_ite]

/-- C13 (defect exhibited): in the first iteration of `rician_deconv3` on the reference
extents with `u = f = 1` everywhere, `g = 1` everywhere, `conv = 0`, `sigma_blur = 6`,
`sigma_noise = 1` and `lambda = 0`, the update sweep writes `410003/310003` to
`u[1][1][1]` and then `255001/205001` to `u[2][1][1]`, which is the value obtained with
the neighbour `(1, 1, 1)` contributing `1`, its value before the sweep; the sweep that
reads `u[i-1][j][k]` and `u[i+1][j][k]` from the array writes `84051075003/63550925003`
to `u[2][1][1]`, so the two sweeps differ. -/
theorem C13_window_holds_stale_value :
    (rician_iteration Real.sqrt (Vol.const M N P 1) 6 (SQR 1) (0 / SQR 1)
      ⟨Vol.const M N P (1 : ℝ), Vol.const M N P 1, Vol.const M N P 0, []⟩).u.get 1 1 1 =
      410003 / 310003 ∧
    (rician_iteration Real.sqrt (Vol.const M N P 1) 6 (SQR 1) (0 / SQR 1)
      ⟨Vol.const M N P (1 : ℝ), Vol.const M N P 1, Vol.const M N P 0, []⟩).u.get 2 1 1 =
      255001 / 205001 ∧
    (rician_iteration_direct Real.sqrt (Vol.const M N P 1) 6 (SQR 1) (0 / SQR 1)
      ⟨Vol.const M N P (1 : ℝ), Vol.const M N P 1, Vol.const M N P 0, []⟩).u.get 2 1 1 =
      84051075003 / 63550925003 ∧
    (rician_iteration Real.sqrt (Vol.const M N P 1) 6 (SQR 1) (0 / SQR 1)
      ⟨Vol.const M N P (1 : ℝ), Vol.const M N P 1, Vol.const M N P 0, []⟩).u.get 2 1 1 ≠
    (rician_iteration_direct Real.sqrt (Vol.const M N P 1) 6 (SQR 1) (0 / SQR 1)
      ⟨Vol.const M N P (1 : ℝ), Vol.const M N P 1, Vol.const M N P 0, []⟩).u.get 2 1 1 := by
  have c1 : (rician_iteration Real.sqrt (Vol.const M N P 1) 6 (SQR 1) (0 / SQR 1)
      ⟨Vol.const M N P (1 : ℝ), Vol.const M N P 1, Vol.const M N P 0, []⟩).u.get 1 1 1 =
      410003 / 310003 := by
    rw [rician_iteration_u, update_u_get, sweep_content, if_pos (by decide), sweep_value]
    simp only [first_sweep_g, Vol.get_const_ite]
    simp only [interior, M, N, P, DT, SQR]
    norm_num
  have c2 : (rician_iteration Real.sqrt (Vol.const M N P 1) 6 (SQR 1) (0 / SQR 1)
      ⟨Vol.const M N P (1 : ℝ), Vol.const M N P 1, Vol.const M N P 0, []⟩).u.get 2 1 1 =
      255001 / 205001 := by
    rw [rician_iteration_u, update_u_get, sweep_content, if_pos (by decide), sweep_value]
    simp only [first_sweep_g, Vol.get_const_ite]
    simp only [interior, M, N, P, DT, SQR]
    norm_num
  have d1 : ∀ conv : Vol ℝ M N P, direct_value (0 / SQR 1)
      (diffusivity Real.sqrt (Vol.const M N P (1 : ℝ)) (Vol.const M N P 1)) conv
      (Vol.const M N P 1) 1 1 1 = 410003 / 310003 := by
    intro conv
    rw [direct_value]
    simp only [first_sweep_g, Vol.get_const_ite]
    simp only [interior, M, N, P, DT, SQR]
    norm_num
  have d2 : (rician_iteration_direct Real.sqrt (Vol.const M N P 1) 6 (SQR 1) (0 / SQR 1)
      ⟨Vol.const M N P (1 : ℝ), Vol.const M N P 1, Vol.const M N P 0, []⟩).u.get 2 1 1 =
      84051075003 / 63550925003 := by
    rw [rician_iteration_direct_u, update_u_direct_get, if_pos (by decide), direct_value]
    have i1 : interior M N P (2 - 1) 1 1 := by decide
    have i2 : ¬ interior M N P 2 (1 - 1) 1 := by decide
    have i3 : ¬ interior M N P 2 1 (1 - 1) := by decide
    rw [dif_pos i1, dif_neg i2, dif_neg i3]
    rw [show (2 : ℕ) - 1 = 1 from rfl, d1]
    simp only [first_sweep_g, Vol.get_const_ite]
    simp only [interior, M, N, P, DT, SQR]
    norm_num
  refine ⟨c1, c2, d2, ?_⟩
  rw [c2, d2]
  norm_num

end StaleWindow

/-! ## Binary64 arithmetic: the integer routines and some known values -/

namespace Double

theorem log2Fuel_spec (fuel n : Nat) (h : n ≤ fuel) (hn : 0 < n) :
    2 ^ log2Fuel fuel n ≤ n ∧ n < 2 ^ (log2Fuel fuel n + 1) := by
  induction fuel generalizing n with
  | zero => omega
  | succ fuel ih =>
    rw [log2Fuel]
    split_ifs with h2
    · have : n = 1 := by omega
      subst this
      decide
    · have := ih (n / 2) (by omega) (by omega)
      rw [pow_succ, pow_succ]
      omega

/-- The routine `log2` is the binary logarithm rounded down. -/
theorem log2_spec (n : Nat) (hn : 0 < n) : 2 ^ log2 n ≤ n ∧ n < 2 ^ (log2 n + 1) :=
  log2Fuel_spec n n (le_refl n) hn

theorem isqrtLoop_spec (n : Nat) (k s : Nat)
    (h : s * s ≤ n / 4 ^ k ∧ n / 4 ^ k < (s + 1) * (s + 1)) :
    isqrtLoop n k s * isqrtLoop n k s ≤ n ∧
      n < (isqrtLoop n k s + 1) * (isqrtLoop n k s + 1) := by
  induction k generalizing s with
  | zero => simpa [isqrtLoop] using h
  | succ k ih =>
    rw [isqrtLoop]
    apply ih
    have e : n / 4 ^ (k + 1) = n / 4 ^ k / 4 := by
      rw [pow_succ, Nat.div_div_eq_div_mul]
    rw [e] at h
    obtain ⟨h1, h2⟩ := h
    have h3 : 4 * (n / 4 ^ k / 4) ≤ n / 4 ^ k := Nat.mul_div_le _ _
    have h4 : n / 4 ^ k < 4 * (n / 4 ^ k / 4) + 4 := by omega
    split_ifs with hc
    · refine ⟨hc, ?_⟩
      nlinarith
    · refine ⟨by nlinarith, ?_⟩
      omega

/-- The routine `isqrt` is the square root rounded down. -/
theorem isqrt_spec (n : Nat) : isqrt n * isqrt n ≤ n ∧ n < (isqrt n + 1) * (isqrt n + 1) := by
  apply isqrtLoop_spec
  rcases Nat.eq_zero_or_pos n with rfl | hn
  · simp
  · have h := (log2_spec n hn).2
    have h2 : 2 ^ (log2 n + 1) ≤ 4 ^ (log2 n / 2 + 1) := by
      have : (4 : Nat) = 2 ^ 2 := rfl
      rw [this, ← pow_mul]
      exact Nat.pow_le_pow_right (by norm_num) (by omega)
    have h3 : n / 4 ^ (log2 n / 2 + 1) = 0 := Nat.div_eq_of_lt (by omega)
    rw [h3]
    simp

/-- Known values: the constants `0.1`, `DT = 0.0001` and `EPSILON = 1e-10` as binary64
numbers, the largest finite number, overflow and underflow of the rounding, and the
square roots of `2`, of `1e-10` and of the smallest positive number. -/
theorem known_values :
    ofRat (1 / 10) = num false (3602879701896397 / 36028797018963968) ∧
    DT Double = num false (7378697629483821 / 73786976294838206464) ∧
    EPSILON Double = num false (7737125245533627 / 77371252455336267181195264) ∧
    ofRat (pow2 1024 - pow2 970) = inf false ∧
    ofRat (pow2 1024 - pow2 970 - pow2 900) = num false (pow2 1024 - pow2 971) ∧
    ofRat (pow2 (-1075)) = num false 0 ∧
    ofRat (-(3 * pow2 (-1075))) = num true (pow2 (-1073)) ∧
    sqrt 2 = num false (6369051672525773 / 4503599627370496) ∧
    sqrt (EPSILON Double) = num false (5902958103587057 / 590295810358705651712) ∧
    sqrt (num false (pow2 (-1074))) = num false (pow2 (-537)) ∧
    (1 : Double) / 3 = num false (6004799503160661 / 18014398509481984) ∧
    (1 : Double) / 0 = inf false ∧ (0 : Double) / 0 = nan ∧
    (0 : Double) + num true 0 = num false 0 ∧ sqrt (num true 0) = num true 0 := by
  decide!


theorem pow2_eq (e : Int) : pow2 e = (2 : ℚ) ^ e := by
  cases e with
  | ofNat k => simp [pow2]
  | negSucc k => simp [pow2, zpow_negSucc]

theorem pow2_pos (e : Int) : 0 < pow2 e := by
  rw [pow2_eq]
  positivity

theorem rat_eq_natAbs_div (q : ℚ) (hq : 0 ≤ q) : q = (q.num.natAbs : ℚ) / (q.den : ℚ) := by
  have h1 : (0 : Int) ≤ q.num := Rat.num_nonneg.2 hq
  have h2 : ((q.num.natAbs : Nat) : Int) = q.num := Int.natAbs_of_nonneg h1
  have h3 : ((q.num.natAbs : Nat) : ℚ) = (q.num : ℚ) := by
    rw [← Int.cast_natCast, h2]
  rw [h3]
  exact (Rat.num_div_den q).symm

theorem ilog2_aux (n d a b : Nat) (hd : 0 < d) (a1 : 2 ^ a ≤ n) (a2 : n < 2 ^ (a + 1))
    (b1 : 2 ^ b ≤ d) (b2 : d < 2 ^ (b + 1)) :
    (n : ℚ) / d < pow2 ((a : Int) - (b : Int) + 1) ∧
      pow2 ((a : Int) - (b : Int) - 1) ≤ (n : ℚ) / d := by
  have a1' : ((2 : ℚ) ^ a) ≤ (n : ℚ) := by exact_mod_cast a1
  have a2' : (n : ℚ) < (2 : ℚ) ^ (a + 1) := by exact_mod_cast a2
  have b1' : ((2 : ℚ) ^ b) ≤ (d : ℚ) := by exact_mod_cast b1
  have b2' : (d : ℚ) < (2 : ℚ) ^ (b + 1) := by exact_mod_cast b2
  have hdq : (0 : ℚ) < (d : ℚ) := by exact_mod_cast hd
  have e0 : (2 : ℚ) ^ ((a : Int) - (b : Int)) = (2 : ℚ) ^ a / (2 : ℚ) ^ b := by
    rw [zpow_sub₀ (by norm_num), zpow_natCast, zpow_natCast]
  have hA : (0 : ℚ) < (2 : ℚ) ^ a := by positivity
  have hB : (0 : ℚ) < (2 : ℚ) ^ b := by positivity
  rw [pow_succ] at a2' b2'
  constructor
  · rw [pow2_eq, zpow_add_one₀ (by norm_num), e0, div_mul_eq_mul_div, div_lt_div_iff₀ hdq hB]
    nlinarith
  · rw [pow2_eq, zpow_sub_one₀ (by norm_num), e0, div_mul_eq_mul_div, div_le_div_iff₀ hB hdq]
    have : (2 : ℚ) ^ a * 2⁻¹ * d ≤ (2 : ℚ) ^ a * 2⁻¹ * (2 ^ b * 2) :=
      mul_le_mul_of_nonneg_left b2'.le (by positivity)
    have e : (2 : ℚ) ^ a * 2⁻¹ * (2 ^ b * 2) = 2 ^ a * 2 ^ b := by ring
    nlinarith

/-- The routine `ilog2` is the binary exponent: `2 ^ ilog2 q <= q < 2 ^ (ilog2 q + 1)`. -/
theorem ilog2_spec (q : ℚ) (hq : 0 < q) : pow2 (ilog2 q) ≤ q ∧ q < pow2 (ilog2 q + 1) := by
  have hn : 0 < q.num.natAbs := by
    have : 0 < q.num := Rat.num_pos.2 hq
    omega
  have hd : 0 < q.den := q.den_pos
  obtain ⟨a1, a2⟩ := log2_spec _ hn
  obtain ⟨b1, b2⟩ := log2_spec _ hd
  have aux := ilog2_aux _ _ _ _ hd a1 a2 b1 b2
  rw [← rat_eq_natAbs_div q hq.le] at aux
  unfold ilog2
  simp only
  split_ifs with hc
  · exact ⟨hc, aux.1⟩
  · rw [sub_add_cancel]
    exact ⟨aux.2, lt_of_not_le hc⟩

theorem floor_aux (n d : Nat) (hd : 0 < d) :
    ((n / d : Nat) : ℚ) ≤ (n : ℚ) / d ∧ (n : ℚ) / d < ((n / d : Nat) : ℚ) + 1 := by
  have hdq : (0 : ℚ) < (d : ℚ) := by exact_mod_cast hd
  constructor
  · rw [le_div_iff₀ hdq]
    exact_mod_cast Nat.div_mul_le_self n d
  · rw [div_lt_iff₀ hdq]
    have h3 : n < (n / d + 1) * d := by
      rw [add_mul, one_mul]
      exact Nat.lt_div_mul_add hd
    exact_mod_cast h3

/-- The routine `roundEven` returns an integer within `1/2` of its argument. -/
theorem roundEven_spec (q : ℚ) (hq : 0 ≤ q) : |(roundEven q : ℚ) - q| ≤ 1 / 2 := by
  have aux := floor_aux q.num.natAbs q.den q.den_pos
  rw [← rat_eq_natAbs_div q hq] at aux
  obtain ⟨f1, f2⟩ := aux
  unfold roundEven
  simp only
  rw [abs_le]
  split_ifs with c1 c2 c3
  · constructor <;> linarith
  · constructor <;> push_cast <;> linarith
  · constructor <;> linarith
  · constructor <;> push_cast <;> linarith

/-- The routine `roundMag` returns a multiple of the quantum of its argument (the unit in
the last place: `2 ^ (e - 52)` for the binary exponent `e`, at least `-1022`) within half a
quantum of the argument. -/
theorem roundMag_spec (q r : ℚ) (hq : 0 < q) (h : roundMag q = some r) :
    (∃ k : Nat, r = (k : ℚ) * pow2 (max (ilog2 q) (-1022) - 52)) ∧
      |r - q| ≤ pow2 (max (ilog2 q) (-1022) - 52) / 2 := by
  unfold roundMag at h
  rw [if_neg (ne_of_gt hq)] at h
  simp only at h
  split_ifs at h with hc
  have hr : r = _ := (Option.some.inj h).symm
  have hQ := pow2_pos (max (ilog2 q) (-1022) - 52)
  refine ⟨⟨_, hr⟩, ?_⟩
  have key := roundEven_spec (q / pow2 (max (ilog2 q) (-1022) - 52)) (div_nonneg hq.le hQ.le)
  rw [hr]
  have e : (roundEven (q / pow2 (max (ilog2 q) (-1022) - 52)) : ℚ) *
      pow2 (max (ilog2 q) (-1022) - 52) - q =
      ((roundEven (q / pow2 (max (ilog2 q) (-1022) - 52)) : ℚ) -
        q / pow2 (max (ilog2 q) (-1022) - 52)) * pow2 (max (ilog2 q) (-1022) - 52) := by
    field_simp
  rw [e, abs_mul, abs_of_pos hQ]
  calc _ ≤ 1 / 2 * pow2 (max (ilog2 q) (-1022) - 52) :=
        mul_le_mul_of_nonneg_right key hQ.le
    _ = _ := by ring

end Double

/-! ## Properties that need exact arithmetic, in binary64 arithmetic -/

section PoleBinary64

/-- C16 (counterexample): in the binary64 arithmetic of the code, `sigma = 1e-9 > 0` gives
`lambda > 0` and the computed pole `nu = 0` (both `1 + 2 lambda` and `sqrt(1 + 4 lambda)`
round to `1`), so `0 < nu` fails; `sigma = 2e-8` gives the computed pole
`457763671875/274877906944` (about `1.665`), so `nu < 1` fails; `sigma = 1e-170` gives
`lambda = 0` (the square underflows), so the divisor `2 * lambda` is zero. -/
theorem C16_pole_in_binary64 :
    ((0 : Double) < Double.ofRat (1 / 1000000000) ∧
      (0 : Double) < blur_lambda (Double.ofRat (1 / 1000000000)) ∧
      blur_nu Double.sqrt (Double.ofRat (1 / 1000000000)) = 0) ∧
    ((0 : Double) < Double.ofRat (2 / 100000000) ∧
      blur_nu Double.sqrt (Double.ofRat (2 / 100000000)) =
        Double.num false (457763671875 / 274877906944) ∧
      (1 : Double) < blur_nu Double.sqrt (Double.ofRat (2 / 100000000))) ∧
    ((0 : Double) < Double.ofRat (1 / ((10 ^ 170 : Nat) : ℚ)) ∧
      (2 : Double) * blur_lambda (Double.ofRat (1 / ((10 ^ 170 : Nat) : ℚ))) = 0) := by
  refine ⟨⟨?_, ?_, ?_⟩, ⟨?_, ?_, ?_⟩, ?_, ?_⟩ <;> decide!

end PoleBinary64

section DiffusivityBinary64

/-- C17 (counterexample): in the binary64 arithmetic of the code, on the reference
extents, (1) on the constant volume `1` the diffusivity loop writes
`6871947673599999/68719476736 = 99999.99999999999` at `(1, 1, 1)`, which is also the
computed `1 / sqrt(EPSILON)` and is not `1e5`; (2) on the volume that is `1` except
`u[1][2][1] = 1.00000000000001` the voxel `(1, 1, 1)` differs from a face neighbour and the
loop writes the same value as on the constant volume; (3) on the volume that is `0` except
`u[1][1][1] = 1e200` the square overflows and the loop writes `0`, so `0 < g` fails. -/
theorem C17_diffusivity_in_binary64 :
    ((diffusivity Double.sqrt (Vol.const M N P (1 : Double)) (Vol.const M N P 0)).get 1 1 1 =
        Double.num false (6871947673599999 / 68719476736) ∧
      (1 : Double) / Double.sqrt (EPSILON Double) =
        Double.num false (6871947673599999 / 68719476736) ∧
      (diffusivity Double.sqrt (Vol.const M N P (1 : Double)) (Vol.const M N P 0)).get 1 1 1 ≠
        100000) ∧
    (((Vol.const M N P (1 : Double)).set 1 2 1
          (Double.ofRat (1 + 1 / 100000000000000))).get 1 1 1 ≠
        ((Vol.const M N P (1 : Double)).set 1 2 1
          (Double.ofRat (1 + 1 / 100000000000000))).get 1 2 1 ∧
      (diffusivity Double.sqrt ((Vol.const M N P (1 : Double)).set 1 2 1
          (Double.ofRat (1 + 1 / 100000000000000))) (Vol.const M N P 0)).get 1 1 1 =
        (diffusivity Double.sqrt (Vol.const M N P (1 : Double))
          (Vol.const M N P 0)).get 1 1 1) ∧
    ((diffusivity Double.sqrt ((Vol.const M N P (0 : Double)).set 1 1 1
          (Double.ofRat ((10 ^ 200 : Nat) : ℚ))) (Vol.const M N P 0)).get 1 1 1 = 0 ∧
      ¬ ((0 : Double) < (diffusivity Double.sqrt ((Vol.const M N P (0 : Double)).set 1 1 1
          (Double.ofRat ((10 ^ 200 : Nat) : ℚ))) (Vol.const M N P 0)).get 1 1 1)) := by
  simp only [diffusivity_get]
  refine ⟨⟨?_, ?_, ?_⟩, ⟨?_, ?_⟩, ?_, ?_⟩ <;> decide!

end DiffusivityBinary64

namespace Double

theorem add_nan (x : Double) : x + nan = nan := by cases x <;> rfl

theorem nan_add (x : Double) : nan + x = nan := by cases x <;> rfl

theorem mul_nan (x : Double) : x * nan = nan := by cases x <;> rfl

theorem nan_mul (x : Double) : nan * x = nan := by cases x <;> rfl

theorem div_nan (x : Double) : x / nan = nan := by cases x <;> rfl

theorem sqrt_nan : sqrt nan = nan := rfl

theorem zero_mul_num (s : Bool) (q : ℚ) : (0 : Double) * num s q = num s 0 := by
  show mul (num false 0) (num s q) = num s 0
  simp [mul, round, roundMag]

/-- The difference of two values that are each `+inf` or a NaN is a NaN. -/
theorem sub_of_inf_or_nan (a b : Double) (ha : a = inf false ∨ a = nan)
    (hb : b = inf false ∨ b = nan) : a - b = nan := by
  rcases ha with rfl | rfl <;> rcases hb with rfl | rfl <;> rfl

end Double

section DenominatorBinary64

/-- In binary64 arithmetic, on the reference extents with `u = 1e305` everywhere, `g = 0`
on entry and `lambda = 0`, the first update sweep writes `+inf` or a NaN to `u[1][1][1]`,
whatever `conv` holds: the products `u * g` overflow. -/
theorem first_sweep_overflow_1 (conv : Vol Double M N P) :
    (update_u (0 / SQR 1)
      (diffusivity Double.sqrt (Vol.const M N P (Double.ofRat ((10 ^ 305 : Nat) : ℚ)))
        (Vol.const M N P 0)) conv
      (Vol.const M N P (Double.ofRat ((10 ^ 305 : Nat) : ℚ)))).get 1 1 1 = Double.inf false ∨
    (update_u (0 / SQR 1)
      (diffusivity Double.sqrt (Vol.const M N P (Double.ofRat ((10 ^ 305 : Nat) : ℚ)))
        (Vol.const M N P 0)) conv
      (Vol.const M N P (Double.ofRat ((10 ^ 305 : Nat) : ℚ)))).get 1 1 1 = Double.nan := by
  have hg : (0 / SQR 1 : Double) = 0 := by decide!
  rw [update_u_get, sweep_content, if_pos (by decide), sweep_value]
  rw [dif_neg (show ¬ interior M N P 1 (1 - 1) 1 by decide),
    dif_neg (show ¬ interior M N P 1 1 (1 - 1) by decide)]
  simp only [diffusivity_get]
  generalize conv.get 1 1 1 = X
  cases X with
  | num s q =>
    rw [hg, Double.zero_mul_num]
    cases s <;> decide!
  | inf s => cases s <;> decide!
  | nan => decide!

/-- The same at `u[2][1][1]`. -/
theorem first_sweep_overflow_2 (conv : Vol Double M N P) :
    (update_u (0 / SQR 1)
      (diffusivity Double.sqrt (Vol.const M N P (Double.ofRat ((10 ^ 305 : Nat) : ℚ)))
        (Vol.const M N P 0)) conv
      (Vol.const M N P (Double.ofRat ((10 ^ 305 : Nat) : ℚ)))).get 2 1 1 = Double.inf false ∨
    (update_u (0 / SQR 1)
      (diffusivity Double.sqrt (Vol.const M N P (Double.ofRat ((10 ^ 305 : Nat) : ℚ)))
        (Vol.const M N P 0)) conv
      (Vol.const M N P (Double.ofRat ((10 ^ 305 : Nat) : ℚ)))).get 2 1 1 = Double.nan := by
  have hg : (0 / SQR 1 : Double) = 0 := by decide!
  rw [update_u_get, sweep_content, if_pos (by decide), sweep_value]
  rw [dif_neg (show ¬ interior M N P 2 (1 - 1) 1 by decide),
    dif_neg (show ¬ interior M N P 2 1 (1 - 1) by decide)]
  simp only [diffusivity_get]
  generalize conv.get 2 1 1 = X
  cases X with
  | num s q =>
    rw [hg, Double.zero_mul_num]
    cases s <;> decide!
  | inf s => cases s <;> decide!
  | nan => decide!

/-- If `u[1][1][1]` and `u[2][1][1]` are each `+inf` or a NaN, the diffusivity loop writes
a NaN to `g[1][1][1]`. -/
theorem diffusivity_nan (u g : Vol Double M N P)
    (h1 : u.get 1 1 1 = Double.inf false ∨ u.get 1 1 1 = Double.nan)
    (h2 : u.get 2 1 1 = Double.inf false ∨ u.get 2 1 1 = Double.nan) :
    (diffusivity Double.sqrt u g).get 1 1 1 = Double.nan := by
  rw [diffusivity_get, if_pos (by decide)]
  unfold diffusivity_value
  have e : u.get 1 1 1 - u.get (1 + 1) 1 1 = Double.nan := Double.sub_of_inf_or_nan _ _ h1 h2
  rw [e]
  have e2 : SQR Double.nan = Double.nan := rfl
  rw [e2, Double.add_nan, Double.nan_add, Double.nan_add, Double.sqrt_nan, Double.div_nan]

/-- A NaN at `g[1][1][1]` makes the update denominator at `(2, 1, 1)` a NaN. -/
theorem update_denom_nan (g : Vol Double M N P) (h : g.get 1 1 1 = Double.nan) :
    update_denom g 2 1 1 = Double.nan := by
  rw [update_denom]
  have e : g.get (2 - 1) 1 1 = Double.nan := h
  rw [e, Double.add_nan, Double.nan_add, Double.nan_add, Double.mul_nan, Double.add_nan]

/-- In binary64 arithmetic, on the reference extents with `u = 1` everywhere and `g = 0` on
entry except `g[1][0][1] = -310000`, the update denominator of the first iteration at
`(1, 1, 1)` is `-13 / 2^52` (about `-2.9e-15`): the interior values of `g` are
`99999.99999999999`, not `1e5`. -/
theorem update_denom_binary64_small :
    update_denom (diffusivity Double.sqrt (Vol.const M N P (1 : Double))
      ((Vol.const M N P (0 : Double)).set 1 0 1 (-310000))) 1 1 1 =
      Double.num true (13 / 4503599627370496) := by
  rw [update_denom]
  simp only [diffusivity_get]
  decide!

/-- C20 (counterexample): in the binary64 arithmetic of the code, on the reference extents
with `u = 1e305` everywhere, `f = 1` everywhere, `g = 0` and `conv = 0` on entry (so every
boundary voxel of `g` is `>= 0`), `sigma_blur = 6`, `sigma_noise = 1` and `lambda = 0`, the
update denominator of the second iteration at the interior voxel `(2, 1, 1)` is a NaN, and
the comparison `1 <= denom` is false: the first sweep overflows, and the diffusivity loop
of the second iteration computes `inf - inf`. -/
theorem C20_denominator_in_binary64 :
    update_denom (diffusivity Double.sqrt
        (rician_iteration Double.sqrt (Vol.const M N P 1) 6 (SQR 1) (0 / SQR 1)
          ⟨Vol.const M N P (Double.ofRat ((10 ^ 305 : Nat) : ℚ)), Vol.const M N P 0,
            Vol.const M N P 0, []⟩).u
        (rician_iteration Double.sqrt (Vol.const M N P 1) 6 (SQR 1) (0 / SQR 1)
          ⟨Vol.const M N P (Double.ofRat ((10 ^ 305 : Nat) : ℚ)), Vol.const M N P 0,
            Vol.const M N P 0, []⟩).g) 2 1 1 = Double.nan ∧
    ¬ ((1 : Double) ≤ update_denom (diffusivity Double.sqrt
        (rician_iteration Double.sqrt (Vol.const M N P 1) 6 (SQR 1) (0 / SQR 1)
          ⟨Vol.const M N P (Double.ofRat ((10 ^ 305 : Nat) : ℚ)), Vol.const M N P 0,
            Vol.const M N P 0, []⟩).u
        (rician_iteration Double.sqrt (Vol.const M N P 1) 6 (SQR 1) (0 / SQR 1)
          ⟨Vol.const M N P (Double.ofRat ((10 ^ 305 : Nat) : ℚ)), Vol.const M N P 0,
            Vol.const M N P 0, []⟩).g) 2 1 1) := by
  have key : update_denom (diffusivity Double.sqrt
        (rician_iteration Double.sqrt (Vol.const M N P 1) 6 (SQR 1) (0 / SQR 1)
          ⟨Vol.const M N P (Double.ofRat ((10 ^ 305 : Nat) : ℚ)), Vol.const M N P 0,
            Vol.const M N P 0, []⟩).u
        (rician_iteration Double.sqrt (Vol.const M N P 1) 6 (SQR 1) (0 / SQR 1)
          ⟨Vol.const M N P (Double.ofRat ((10 ^ 305 : Nat) : ℚ)), Vol.const M N P 0,
            Vol.const M N P 0, []⟩).g) 2 1 1 = Double.nan := by
    apply update_denom_nan
    apply diffusivity_nan
    · rw [rician_iteration_u]
      exact first_sweep_overflow_1 _
    · rw [rician_iteration_u]
      exact first_sweep_overflow_2 _
  refine ⟨key, ?_⟩
  rw [key]
  decide

end DenominatorBinary64

end Deblur
